import Mathlib

/-!
# A verification development for the fuzzy matcher of `src/match.c`

The C functions of `match.c` are embedded as Lean functions of the same name.

* `score_t` is `double` in `match.h`; scores are idealised as exact rationals.  The section
  on rounded arithmetic repeats the scoring functions with a rounding after every
  arithmetic operation (`fp_match_score`, `fp_match_positions`, rounding `binary64`);
  statements about a value that the code returns for given weights, and statements that
  hinge on a tie between two cells, are made for that arithmetic as well.
* C strings are lists of bytes.  A read at or past the end of the list yields `0`:
  index `length` is the terminating NUL, and the positions behind it are only reached by
  a multi-byte sequence that is cut short by the end of the string.
* `bonus.h` and `config.h` are not part of the sources that are available here.  The weights
  and the bonus table they define are the fields of `Config`, a parameter of every scoring
  function.
* Heap cells handed out by `realloc` and never written are given by the two functions
  `fresh_chars` and `fresh_upper` (their value at index `i` is what the cell `i` of the
  grown array holds).  `calloc` returns zeroed cells.  Allocation is taken to succeed.
  A read behind the last allocated cell of a needle array, which C leaves undefined, yields
  `0`; `prepare_needle_paired` shows that the cell `chars[len]` is always allocated.
-/

namespace FuzzyMatch

/-! ## match.h -/

/-- Scores, `typedef double score_t`, as exact rationals. -/
abbrev score_t := ℚ

def SCORE_MAX : score_t := 100
def SCORE_MIN : score_t := -10
def MATCH_MAX_LEN : Nat := 512
def INITIAL_CAPACITY : Nat := 32

/-- The macro `MAX(a, b) (((a) > (b)) ? (a) : (b))`. -/
def MAX (a b : score_t) : score_t := if a > b then a else b

/-- The constants of `config.h` and the macro `COMPUTE_BONUS(last_ch, ch)` of `bonus.h`;
neither header is among the available sources, so they are parameters. -/
structure Config where
  SCORE_GAP_LEADING : score_t
  SCORE_GAP_TRAILING : score_t
  SCORE_GAP_INNER : score_t
  SCORE_MATCH_CONSECUTIVE : score_t
  COMPUTE_BONUS : Nat → Nat → score_t

/-- The struct `needle_info`.  The two lists are the heap arrays, one entry per allocated
cell (`capacity` of them). -/
structure needle_info where
  len : Nat
  capacity : Nat
  chars : List Nat
  unicode_upper : List Nat

/-- The struct `haystack_info`.  The lists hold the cells written so far, from index `0`. -/
structure haystack_info where
  len : Nat
  bonus : List score_t
  chars : List Nat

/-! ## Decoder -/

/-- The byte `(uint8_t)str[i]`. -/
def byte_at (str : List Nat) (i : Nat) : Nat := str.getD i 0 % 256

/-- The function `utf8_to_codepoint`: the decoded code point and `*advance`. -/
def utf8_to_codepoint (str : List Nat) : Nat × Nat :=
  let first := byte_at str 0
  if first < 0x80 then
    (first, 1)
  else if first ≥ 0xC0 ∧ first < 0xE0 then
    (((first &&& 0x1F) <<< 6) ||| (byte_at str 1 &&& 0x3F), 2)
  else if first < 0xF0 then
    (((first &&& 0x0F) <<< 12) ||| ((byte_at str 1 &&& 0x3F) <<< 6) ||| (byte_at str 2 &&& 0x3F), 3)
  else if first < 0xF8 then
    (((first &&& 0x07) <<< 18) ||| ((byte_at str 1 &&& 0x3F) <<< 12) |||
      ((byte_at str 2 &&& 0x3F) <<< 6) ||| (byte_at str 3 &&& 0x3F), 4)
  else
    (0, 1)

/-! ## Needle preparation -/

/-- The array `old` after `realloc` to `new_capacity` cells: the old cells are kept, the
new ones hold whatever the heap held. -/
def realloc (old : List Nat) (new_capacity : Nat) (fresh : Nat → Nat) : List Nat :=
  old.take new_capacity ++
    (List.range (new_capacity - old.length)).map (fun i => fresh (old.length + i))

/-- The loop `while (new_capacity <= needed_size) new_capacity *= 2;`. -/
def grow_capacity : Nat → Nat → Nat → Nat
  | 0, new_capacity, _ => new_capacity
  | fuel + 1, new_capacity, needed_size =>
    if new_capacity ≤ needed_size then grow_capacity fuel (new_capacity * 2) needed_size
    else new_capacity

/-- The function `resize_if_needed`, on the path where both `realloc` calls succeed. -/
def resize_if_needed (fresh_chars fresh_upper : Nat → Nat) (info : needle_info)
    (needed_size : Nat) : needle_info :=
  if needed_size ≥ info.capacity then
    let new_capacity := grow_capacity (needed_size + 1) (info.capacity * 2) needed_size
    { info with
      chars := realloc info.chars new_capacity fresh_chars
      unicode_upper := realloc info.unicode_upper new_capacity fresh_upper
      capacity := new_capacity }
  else info

/-- The uppercase variant that `prepare_needle` stores next to a decoded code point
(the `if` chain under the comment "Generate uppercase variant"). -/
def upper_variant (decoded_char : Nat) : Nat :=
  if decoded_char ≥ 0x61 ∧ decoded_char ≤ 0x7A then
    decoded_char - 32
  else if decoded_char ≥ 0x00E0 ∧ decoded_char ≤ 0x00FE ∧ decoded_char ≠ 0x00F7 then
    if decoded_char = 0x00DF then decoded_char else decoded_char - 32
  else if decoded_char ≥ 0x0101 ∧ decoded_char ≤ 0x017F ∧ decoded_char % 2 = 1 then
    decoded_char - 1
  else
    decoded_char

/-- The loop `while (*s)` of `prepare_needle`.  Every round consumes at least one byte, so
the fuel `s.length` is never used up before the string is. -/
def prepare_needle_loop (fresh_chars fresh_upper : Nat → Nat) :
    Nat → List Nat → Nat → needle_info → needle_info
  | 0, _, pos, info => { info with len := pos }
  | fuel + 1, s, pos, info =>
    if byte_at s 0 = 0 then { info with len := pos }
    else
      let info := resize_if_needed fresh_chars fresh_upper info (pos + 1)
      let decoded := utf8_to_codepoint s
      let info := { info with chars := info.chars.set pos decoded.1 }
      let info := { info with unicode_upper := info.unicode_upper.set pos (upper_variant decoded.1) }
      prepare_needle_loop fresh_chars fresh_upper fuel (s.drop decoded.2) (pos + 1) info

/-- The function `prepare_needle` for a non-null argument. -/
def prepare_needle (needle : List Nat) (fresh_chars fresh_upper : Nat → Nat) : needle_info :=
  prepare_needle_loop fresh_chars fresh_upper needle.length needle 0
    { len := 0
      capacity := INITIAL_CAPACITY
      chars := List.replicate INITIAL_CAPACITY 0
      unicode_upper := List.replicate INITIAL_CAPACITY 0 }

/-! ## Quick match -/

/-- The loop `while (*haystack_str && pos < MATCH_MAX_LEN)` of `setup_haystack_and_match`.
The first argument is `MATCH_MAX_LEN - pos`; `k` is the offset of `n_chars` and `n_upper`
into the needle arrays; `chars` are the cells `hay->chars[0 .. pos-1]`.  The result is the
final offset and the final cells. -/
def setup_loop (needle : needle_info) : Nat → List Nat → Nat → List Nat → Nat × List Nat
  | 0, _, k, chars => (k, chars)
  | room + 1, haystack_str, k, chars =>
    if byte_at haystack_str 0 = 0 then (k, chars)
    else
      let decoded := utf8_to_codepoint haystack_str
      let curr := decoded.1
      let k :=
        if needle.chars.getD k 0 ≠ 0 ∧
            (curr = needle.chars.getD k 0 ∨ curr = needle.unicode_upper.getD k 0) then k + 1
        else k
      setup_loop needle room (haystack_str.drop decoded.2) k (chars ++ [curr])

/-- The function `setup_haystack_and_match`: the returned flag and the buffer `*hay` after
the call.  On the early return the buffer is left as it was. -/
def setup_haystack_and_match (needle : needle_info) (hay : haystack_info)
    (haystack_str : List Nat) : Bool × haystack_info :=
  if byte_at haystack_str 0 = 0 then (false, hay)
  else
    let r := setup_loop needle MATCH_MAX_LEN haystack_str 0 []
    (decide (needle.chars.getD r.1 0 = 0), { hay with len := r.2.length, chars := r.2 })

/-- A stack buffer nothing has been written to. -/
def blank_haystack : haystack_info := { len := 0, bonus := [], chars := [] }

/-- The function `query_has_match`. -/
def query_has_match (needle : needle_info) (haystack : List Nat) : Bool :=
  (setup_haystack_and_match needle blank_haystack haystack).1

/-! ## Bonus, rows of the matrices, score -/

/-- The loop of `precompute_bonus`; the first argument is `n - i`. -/
def precompute_bonus_loop (cfg : Config) (chars : List Nat) : Nat → Nat → Nat → List score_t
  | 0, _, _ => []
  | fuel + 1, i, last_ch =>
    let current_ch := chars.getD i 0
    cfg.COMPUTE_BONUS last_ch current_ch ::
      precompute_bonus_loop cfg chars fuel (i + 1) current_ch

/-- The function `precompute_bonus`; `0x2F` is the starting value `'/'`. -/
def precompute_bonus (cfg : Config) (haystack : haystack_info) : haystack_info :=
  { haystack with bonus := precompute_bonus_loop cfg haystack.chars haystack.len 0 0x2F }

/-- The loop of `match_first_row`; the first argument is `n - j`.  A cell of the result is
the pair `(curr_D[j], curr_M[j])`. -/
def match_first_row_loop (cfg : Config) (haystack : haystack_info)
    (needle_char needle_upper : Nat) (gap_score : score_t) :
    Nat → Nat → score_t → List (score_t × score_t)
  | 0, _, _ => []
  | fuel + 1, j, prev_score =>
    if haystack.chars.getD j 0 = needle_char ∨ haystack.chars.getD j 0 = needle_upper then
      let score := (j : score_t) * cfg.SCORE_GAP_LEADING + haystack.bonus.getD j 0
      let best := MAX score (prev_score + gap_score)
      (score, best) ::
        match_first_row_loop cfg haystack needle_char needle_upper gap_score fuel (j + 1) best
    else
      let best := prev_score + gap_score
      (SCORE_MIN, best) ::
        match_first_row_loop cfg haystack needle_char needle_upper gap_score fuel (j + 1) best

/-- The function `match_first_row`: the rows `curr_D` and `curr_M` it fills. -/
def match_first_row (cfg : Config) (needle : needle_info) (haystack : haystack_info) :
    List score_t × List score_t :=
  let n := haystack.len
  let needle_char := needle.chars.getD 0 0
  let needle_upper := needle.unicode_upper.getD 0 0
  let gap_score := if 1 = needle.len then cfg.SCORE_GAP_TRAILING else cfg.SCORE_GAP_INNER
  let cells := match_first_row_loop cfg haystack needle_char needle_upper gap_score n 0 SCORE_MIN
  (cells.map Prod.fst, cells.map Prod.snd)

/-- The loop `for (int j = 1; j < m; j++)` of `match_row`; the first argument is `m - j`. -/
def match_row_loop (cfg : Config) (haystack : haystack_info)
    (needle_char needle_upper : Nat) (gap_score : score_t) (last_D last_M : List score_t) :
    Nat → Nat → score_t → List (score_t × score_t)
  | 0, _, _ => []
  | fuel + 1, j, prev_score =>
    let score :=
      if haystack.chars.getD j 0 = needle_char ∨ haystack.chars.getD j 0 = needle_upper then
        MAX (last_M.getD (j - 1) 0 + haystack.bonus.getD j 0)
          (last_D.getD (j - 1) 0 + cfg.SCORE_MATCH_CONSECUTIVE)
      else SCORE_MIN
    let best := MAX score (prev_score + gap_score)
    (score, best) ::
      match_row_loop cfg haystack needle_char needle_upper gap_score last_D last_M fuel (j + 1) best

/-- The function `match_row`: the rows `curr_D` and `curr_M` it fills.  Cell `0` is written
before the loop, whatever `m` is. -/
def match_row (cfg : Config) (needle : needle_info) (haystack : haystack_info) (row : Nat)
    (last_D last_M : List score_t) : List score_t × List score_t :=
  let n := needle.len
  let m := haystack.len
  let needle_char := needle.chars.getD row 0
  let needle_upper := needle.unicode_upper.getD row 0
  let gap_score :=
    if (row : Int) = (n : Int) - 1 then cfg.SCORE_GAP_TRAILING else cfg.SCORE_GAP_INNER
  let cells := (SCORE_MIN, SCORE_MIN + gap_score) ::
    match_row_loop cfg haystack needle_char needle_upper gap_score last_D last_M (m - 1) 1
      (SCORE_MIN + gap_score)
  (cells.map Prod.fst, cells.map Prod.snd)

/-- The loop `for (int i = 1; i < n; i++)` of `match_score`; the first argument is `n - i`,
the last one the pair `(last_D, last_M)`.  After `match_row` the two `SWAP`s make the row
just written the last one. -/
def match_score_loop (cfg : Config) (needle : needle_info) (haystack : haystack_info) :
    Nat → Nat → List score_t × List score_t → List score_t × List score_t
  | 0, _, last => last
  | fuel + 1, i, last =>
    match_score_loop cfg needle haystack fuel (i + 1)
      (match_row cfg needle haystack i last.1 last.2)

/-- The function `match_score` for a non-null needle. -/
def match_score (cfg : Config) (needle : needle_info) (haystack_str : List Nat) : score_t :=
  if needle.len = 0 ∨ byte_at haystack_str 0 = 0 then SCORE_MIN
  else
    let r := setup_haystack_and_match needle blank_haystack haystack_str
    if r.1 = false then SCORE_MIN
    else
      let haystack := precompute_bonus cfg r.2
      let n := needle.len
      let m := haystack.len
      if m > MATCH_MAX_LEN ∨ n > m then SCORE_MIN
      else if n = m then SCORE_MAX
      else
        let last := match_score_loop cfg needle haystack (n - 1) 1
          (match_first_row cfg needle haystack)
        last.2.getD (m - 1) 0

/-! ## Positions -/

/-- The loop `for (int i = 1; i < n; i++)` of `match_positions`; the first argument is
`n - i`, `D` and `M` are the rows filled so far (at least one). -/
def match_positions_loop (cfg : Config) (needle : needle_info) (haystack : haystack_info) :
    Nat → Nat → List (List score_t) → List (List score_t) →
      List (List score_t) × List (List score_t)
  | 0, _, D, M => (D, M)
  | fuel + 1, i, D, M =>
    let curr := match_row cfg needle haystack i (D.getD (i - 1) []) (M.getD (i - 1) [])
    match_positions_loop cfg needle haystack fuel (i + 1) (D ++ [curr.1]) (M ++ [curr.2])

/-- The cell `X[i][j]` of a matrix. -/
def cell (X : List (List score_t)) (i j : Nat) : score_t := (X.getD i []).getD j 0

/-- The test of the backtrace at the cell `(i, j)`. -/
def backtrace_hit (D M : List (List score_t)) (match_required : Bool) (i j : Nat) : Bool :=
  decide (cell D i j > SCORE_MIN) && (match_required || decide (cell D i j = cell M i j))

/-- The inner loop `for (; j >= 0; j--)` of the backtrace in row `i`; the last argument is
`j + 1`.  The result is the column at which the loop breaks, if it does. -/
def backtrace_row (D M : List (List score_t)) (match_required : Bool) (i : Nat) :
    Nat → Option Nat
  | 0 => none
  | j + 1 =>
    if backtrace_hit D M match_required i j then some j
    else backtrace_row D M match_required i j

/-- The value assigned to `match_required` at the cell `(i, j)`. -/
def next_match_required (cfg : Config) (D M : List (List score_t)) (i j : Nat) : Bool :=
  decide (i ≠ 0) && decide (j ≠ 0) &&
    decide (cell M i j = cell D (i - 1) (j - 1) + cfg.SCORE_MATCH_CONSECUTIVE)

/-- The outer loop `for (int i = n - 1, j = m - 1; i >= 0; i--)` of the backtrace; the
arguments after the matrices are `i + 1`, `j + 1`, `match_required` and the array
`positions`, in which `none` stands for an entry that has not been written. -/
def backtrace (cfg : Config) (D M : List (List score_t)) :
    Nat → Nat → Bool → List (Option Nat) → List (Option Nat)
  | 0, _, _, positions => positions
  | i + 1, cols, match_required, positions =>
    match backtrace_row D M match_required i cols with
    | none => backtrace cfg D M i 0 match_required positions
    | some j =>
      backtrace cfg D M i j (next_match_required cfg D M i j) (positions.set i (some j))

/-- The function `match_positions` for a non-null needle: the returned score and the first
`n` entries of `positions` (`none`: not written by the call).  The argument `hay` is the
content of the local buffer `haystack` before the call to `setup_haystack_and_match`.
For `n = 0` the C code returns `M[-1][m - 1]`, a cell outside the matrix; the value given
here for that case is row `0` of the model and nothing is stated about it. -/
def match_positions (cfg : Config) (needle : needle_info) (haystack_str : List Nat)
    (hay : haystack_info) : score_t × List (Option Nat) :=
  let r := setup_haystack_and_match needle hay haystack_str
  let haystack := precompute_bonus cfg r.2
  let n := needle.len
  let m := haystack.len
  let positions : List (Option Nat) := List.replicate n none
  if m > MATCH_MAX_LEN ∨ n > m then (SCORE_MIN, positions)
  else
    let first := match_first_row cfg needle haystack
    let DM := match_positions_loop cfg needle haystack (n - 1) 1 [first.1] [first.2]
    (cell DM.2 (n - 1) (m - 1), backtrace cfg DM.1 DM.2 n m false positions)

/-! ## A sample configuration -/

/-- Modelled from the spec: a bonus table as section 4.4 describes the macro
`COMPUTE_BONUS` of `bonus.h` (a header that is not among the sources): a boundary bonus for
an alphanumeric after a slash, after a space, dash or underscore, or after a dot, a camel
bonus for an uppercase letter after a lowercase one, zero otherwise. -/
def spec_bonus (slash word capital dot : score_t) (last_ch ch : Nat) : score_t :=
  let lower (c : Nat) : Prop := 0x61 ≤ c ∧ c ≤ 0x7A
  let upper (c : Nat) : Prop := 0x41 ≤ c ∧ c ≤ 0x5A
  let digit (c : Nat) : Prop := 0x30 ≤ c ∧ c ≤ 0x39
  if lower ch ∨ upper ch ∨ digit ch then
    if last_ch = 0x2F then slash
    else if last_ch = 0x2D ∨ last_ch = 0x5F ∨ last_ch = 0x20 then word
    else if last_ch = 0x2E then dot
    else if lower last_ch ∧ upper ch then capital
    else 0
  else 0

/-- A configuration within the bounds of section 6 of the spec (gap penalties at most
zero, a positive bonus for consecutive matches), used for the concrete evaluations. -/
def sample_config : Config where
  SCORE_GAP_LEADING := -5 / 1000
  SCORE_GAP_TRAILING := -5 / 1000
  SCORE_GAP_INNER := -1 / 100
  SCORE_MATCH_CONSECUTIVE := 1
  COMPUTE_BONUS := spec_bonus (9 / 10) (8 / 10) (7 / 10) (6 / 10)

/-! ## Notions used in the statements and proofs -/

/-- A left-to-right pass that carries the second component of the last cell. -/
def run (step : Nat → score_t → score_t × score_t) : Nat → Nat → score_t → List (score_t × score_t)
  | 0, _, _ => []
  | fuel + 1, j, prev => step j prev :: run step fuel (j + 1) (step j prev).2

/-- The body of the loop of `match_first_row`. -/
def first_step (cfg : Config) (haystack : haystack_info) (needle_char needle_upper : Nat)
    (gap_score : score_t) (j : Nat) (prev_score : score_t) : score_t × score_t :=
  if haystack.chars.getD j 0 = needle_char ∨ haystack.chars.getD j 0 = needle_upper then
    ((j : score_t) * cfg.SCORE_GAP_LEADING + haystack.bonus.getD j 0,
      MAX ((j : score_t) * cfg.SCORE_GAP_LEADING + haystack.bonus.getD j 0)
        (prev_score + gap_score))
  else (SCORE_MIN, prev_score + gap_score)

/-- The body of the loop of `match_row`. -/
def row_step (cfg : Config) (haystack : haystack_info) (needle_char needle_upper : Nat)
    (gap_score : score_t) (last_D last_M : List score_t) (j : Nat) (prev_score : score_t) :
    score_t × score_t :=
  let score :=
    if haystack.chars.getD j 0 = needle_char ∨ haystack.chars.getD j 0 = needle_upper then
      MAX (last_M.getD (j - 1) 0 + haystack.bonus.getD j 0)
        (last_D.getD (j - 1) 0 + cfg.SCORE_MATCH_CONSECUTIVE)
    else SCORE_MIN
  (score, MAX score (prev_score + gap_score))

/-- The test of `match_first_row` and `match_row`: the haystack code point of column `j`
equals the needle code point of row `i` or its uppercase variant. -/
def hit (q : needle_info) (hay : haystack_info) (i j : Nat) : Prop :=
  hay.chars.getD j 0 = q.chars.getD i 0 ∨ hay.chars.getD j 0 = q.unicode_upper.getD i 0

instance hit_decidable (q : needle_info) (hay : haystack_info) (i j : Nat) :
    Decidable (hit q hay i j) := by
  unfold hit; infer_instance

/-- The gap score of row `i`. -/
def gap_of (cfg : Config) (q : needle_info) (i : Nat) : score_t :=
  if i + 1 = q.len then cfg.SCORE_GAP_TRAILING else cfg.SCORE_GAP_INNER

/-- Row `i` of the matrices `D` and `M`, as the calls of `match_first_row` and `match_row`
produce them one after the other. -/
def rows (cfg : Config) (q : needle_info) (hay : haystack_info) :
    Nat → List score_t × List score_t
  | 0 => match_first_row cfg q hay
  | i + 1 => match_row cfg q hay (i + 1) (rows cfg q hay i).1 (rows cfg q hay i).2

/-- The cell `D[i][j]`. -/
def Dc (cfg : Config) (q : needle_info) (hay : haystack_info) (i j : Nat) : score_t :=
  (rows cfg q hay i).1.getD j 0

/-- The cell `M[i][j]`. -/
def Mc (cfg : Config) (q : needle_info) (hay : haystack_info) (i j : Nat) : score_t :=
  (rows cfg q hay i).2.getD j 0

/-- The haystack buffer that `match_score` works on after `setup_haystack_and_match` and
`precompute_bonus`. -/
def hay_of (cfg : Config) (q : needle_info) (h : List Nat) : haystack_info :=
  precompute_bonus cfg (setup_haystack_and_match q blank_haystack h).2

/-- The first `k` rows of the matrix `D`. -/
def tableD (cfg : Config) (q : needle_info) (hay : haystack_info) (k : Nat) :
    List (List score_t) :=
  (List.range k).map (fun r => (rows cfg q hay r).1)

/-- The first `k` rows of the matrix `M`. -/
def tableM (cfg : Config) (q : needle_info) (hay : haystack_info) (k : Nat) :
    List (List score_t) :=
  (List.range k).map (fun r => (rows cfg q hay r).2)

/-- The code points that the loop of `setup_haystack_and_match` decodes when there is room
for `room` of them. -/
def decode_upto : Nat → List Nat → List Nat
  | 0, _ => []
  | room + 1, str =>
    if byte_at str 0 = 0 then []
    else (utf8_to_codepoint str).1 :: decode_upto room (str.drop (utf8_to_codepoint str).2)

/-- The offset into the needle after the loop has compared one code point. -/
def needle_step (q : needle_info) (k curr : Nat) : Nat :=
  if q.chars.getD k 0 ≠ 0 ∧ (curr = q.chars.getD k 0 ∨ curr = q.unicode_upper.getD k 0) then
    k + 1
  else k

/-- The first `i` needle code points can be matched, in order, to `i` of the first `j`
haystack code points (each to the code point itself or to its uppercase variant). -/
def emb (q : needle_info) (hay : haystack_info) : Nat → Nat → Prop
  | 0, _ => True
  | _ + 1, 0 => False
  | i + 1, j + 1 => emb q hay (i + 1) j ∨ (hit q hay i j ∧ emb q hay i j)

/-- No code point `0` among the `len` code points of the needle. -/
def no_zero (q : needle_info) : Prop := ∀ i, i < q.len → q.chars.getD i 0 ≠ 0

/-- The fold of section 4.2 of the spec, following its words: `U+0061..U+007A` minus 32;
`U+00E0..U+00FE` except `U+00F7` minus 32; the odd code points of `U+0101..U+017F` minus 1;
every other code point unchanged. -/
def spec_fold (c : Nat) : Nat :=
  if 0x61 ≤ c ∧ c ≤ 0x7A then c - 32
  else if 0xE0 ≤ c ∧ c ≤ 0xFE ∧ c ≠ 0xF7 then c - 32
  else if 0x101 ≤ c ∧ c ≤ 0x17F ∧ c % 2 = 1 then c - 1
  else c

/-- What the loop of `prepare_needle` maintains: the arrays have `capacity` cells, the next
index is inside them with one more cell behind it, and the cells filled so far are paired. -/
def prep_inv (pos : Nat) (info : needle_info) : Prop :=
  info.chars.length = info.capacity ∧ info.unicode_upper.length = info.capacity ∧
    pos < info.capacity ∧
    ∀ i, i < pos → info.unicode_upper.getD i 0 = upper_variant (info.chars.getD i 0)

/-- One round of the loop of `prepare_needle`. -/
def prepare_round (fc fu : Nat → Nat) (s : List Nat) (pos : Nat) (info : needle_info) :
    needle_info :=
  { (resize_if_needed fc fu info (pos + 1)) with
    chars := (resize_if_needed fc fu info (pos + 1)).chars.set pos (utf8_to_codepoint s).1
    unicode_upper := (resize_if_needed fc fu info (pos + 1)).unicode_upper.set pos
      (upper_variant (utf8_to_codepoint s).1) }

/-- The cells from index `pos` on hold what `calloc` or `realloc` left in them. -/
def tail_inv (fc : Nat → Nat) (pos : Nat) (info : needle_info) : Prop :=
  INITIAL_CAPACITY ≤ info.capacity ∧
    ∀ i, pos ≤ i → i < info.chars.length →
      info.chars.getD i 0 = if i < INITIAL_CAPACITY then 0 else fc i

/-- Freshly allocated heap cells that all hold zero. -/
def zero_heap : Nat → Nat := fun _ => 0

/-- Freshly allocated heap cells in which the cell of index 32 holds a stale `'a'`. -/
def stale_heap : Nat → Nat := fun i => if i = 32 then 0x61 else 0

/-- The sample weights with a trailing gap penalty of `-20`, still at most zero. -/
def steep_config : Config := { sample_config with SCORE_GAP_TRAILING := -20 }

/-- The bytes of `"amor"`. -/
def amor : List Nat := [0x61, 0x6D, 0x6F, 0x72]

/-- The bytes of `"app/models/order.rb"`. -/
def order_rb : List Nat :=
  [0x61, 0x70, 0x70, 0x2F, 0x6D, 0x6F, 0x64, 0x65, 0x6C, 0x73, 0x2F, 0x6F, 0x72, 0x64, 0x65,
    0x72, 0x2E, 0x72, 0x62]

/-- The bytes of `"qaaaaaaaaaa"`. -/
def q_run : List Nat := 0x71 :: List.replicate 10 0x61

/-- The bytes of `"aaaaaaaaaaaqxaxaxaxaxaxaxaxaxaxa"`. -/
def run_then_q : List Nat :=
  List.replicate 11 0x61 ++ 0x71 :: (List.replicate 10 [0x78, 0x61]).flatten

/-- The standard UTF-8 encoding of a code point: one byte below `0x80`, two bytes below
`0x800`, three below `0x10000`, four from there on; the lead byte carries the length marker
and the high bits, every continuation byte `10xxxxxx` the next six bits. -/
def utf8_encode (c : Nat) : List Nat :=
  if c < 0x80 then [c]
  else if c < 0x800 then [0xC0 + c / 64, 0x80 + c % 64]
  else if c < 0x10000 then [0xE0 + c / 4096, 0x80 + c / 64 % 64, 0x80 + c % 64]
  else [0xF0 + c / 262144, 0x80 + c / 4096 % 64, 0x80 + c / 64 % 64, 0x80 + c % 64]

/-- The score that one further matched column `p` adds to an alignment whose previous
matched column is `prev`: the inner gap penalty for every skipped column, then the bonus of
the column, or the larger of the bonus and `SCORE_MATCH_CONSECUTIVE` when the two columns
are adjacent. -/
def align_step (cfg : Config) (hay : haystack_info) (prev p : Nat) : score_t :=
  ((p : score_t) - prev - 1) * cfg.SCORE_GAP_INNER +
    (if p = prev + 1 then max (hay.bonus.getD p 0) cfg.SCORE_MATCH_CONSECUTIVE
      else hay.bonus.getD p 0)

/-- The score of the position vector `p 0, ..., p i` up to its last matched column: the
leading gap penalty for the columns before `p 0`, the bonus of `p 0`, and one step for
every further position. -/
def align_score (cfg : Config) (hay : haystack_info) (p : Nat → Nat) : Nat → score_t
  | 0 => (p 0 : score_t) * cfg.SCORE_GAP_LEADING + hay.bonus.getD (p 0) 0
  | i + 1 => align_score cfg hay p i + align_step cfg hay (p i) (p (i + 1))

/-- The alignment score of the position vector `p 0, ..., p (n - 1)` for a needle of `n`
code points: the score up to the last matched column and the trailing gap penalty for the
columns behind it. -/
def align_total (cfg : Config) (q : needle_info) (hay : haystack_info) (p : Nat → Nat) :
    score_t :=
  align_score cfg hay p (q.len - 1) +
    ((hay.len : score_t) - 1 - p (q.len - 1)) * cfg.SCORE_GAP_TRAILING

/-- The positions `p 0 < p 1 < ... < p (n - 1)` are columns below `bound` whose code
points match the needle code points `0, ..., n - 1`, each as itself or as the stored
uppercase variant. -/
def alignment (q : needle_info) (hay : haystack_info) (p : Nat → Nat) (n bound : Nat) : Prop :=
  (∀ i, i < n → p i < bound ∧ hit q hay i (p i)) ∧ ∀ i, i + 1 < n → p i < p (i + 1)

instance alignment_decidable (q : needle_info) (hay : haystack_info) (p : Nat → Nat)
    (n bound : Nat) : Decidable (alignment q hay p n bound) :=
  decidable_of_iff
    ((∀ i, i < n → p i < bound ∧ hit q hay i (p i)) ∧ ∀ i, i < n → i + 1 < n → p i < p (i + 1))
    ⟨fun h => ⟨h.1, fun i hi => h.2 i (by omega) hi⟩, fun h => ⟨h.1, fun i _ hi => h.2 i hi⟩⟩

/-- The weights of `cfg`, every one multiplied by `c`. -/
def scale_config (c : score_t) (cfg : Config) : Config where
  SCORE_GAP_LEADING := c * cfg.SCORE_GAP_LEADING
  SCORE_GAP_TRAILING := c * cfg.SCORE_GAP_TRAILING
  SCORE_GAP_INNER := c * cfg.SCORE_GAP_INNER
  SCORE_MATCH_CONSECUTIVE := c * cfg.SCORE_MATCH_CONSECUTIVE
  COMPUTE_BONUS := fun last_ch ch => c * cfg.COMPUTE_BONUS last_ch ch

/-- The bytes of `"baa"`. -/
def baa : List Nat := [0x62, 0x61, 0x61]

/-- The bytes of `"babaa"`. -/
def babaa : List Nat := [0x62, 0x61, 0x62, 0x61, 0x61]

/-! ## The recurrence with rounded arithmetic
`score_t` is `double`: every sum and product of the recurrence is rounded to a binary64
number before it is stored or compared.  The functions below are the functions of
`match.c` once more, with a rounding `rnd` applied to the result of every arithmetic
operation; comparisons, `MAX` and assignments involve no rounding.  With the identity for
`rnd` they are the functions of the exact model (`fp_match_positions_exact`,
`fp_match_score_exact`); with `binary64` they compute what the code computes in IEEE 754
arithmetic, round to nearest, ties to even, one rounding per operation, as long as no
result leaves the normal range. -/

/-- The number of binary digits of `n`; the first argument bounds the recursion. -/
def bit_length : Nat → Nat → Nat
  | 0, _ => 0
  | fuel + 1, n => if n = 0 then 0 else bit_length fuel (n / 2) + 1

/-- The power `2 ^ k` for an integer exponent. -/
def pow2 (k : Int) : ℚ :=
  if 0 ≤ k then ((2 ^ k.toNat : Nat) : ℚ) else 1 / ((2 ^ (-k).toNat : Nat) : ℚ)

/-- The integer nearest to `x`; of two nearest integers the even one. -/
def round_half_even (x : ℚ) : Int :=
  if x - (Rat.floor x : ℚ) < 1 / 2 then Rat.floor x
  else if 1 / 2 < x - (Rat.floor x : ℚ) then Rat.floor x + 1
  else if Rat.floor x % 2 = 0 then Rat.floor x
  else Rat.floor x + 1

/-- The exponent `e` with `2 ^ e ≤ a < 2 ^ (e + 1)` for a positive rational `a`. -/
def binary_exponent (a : ℚ) : Int :=
  let e0 : Int :=
    (bit_length a.num.natAbs a.num.natAbs : Int) - (bit_length a.den a.den : Int)
  if pow2 e0 ≤ a then e0 else e0 - 1

/-- The binary64 number nearest to `x`, ties to the even significand: the rounding of
IEEE 754 in the normal range (53 binary digits; overflow and subnormal numbers are not
modelled). -/
def binary64 (x : ℚ) : ℚ :=
  if x = 0 then 0
  else if x < 0 then
    -((round_half_even (-x * pow2 (52 - binary_exponent (-x))) : ℚ) *
      pow2 (binary_exponent (-x) - 52))
  else
    (round_half_even (x * pow2 (52 - binary_exponent x)) : ℚ) * pow2 (binary_exponent x - 52)

/-- The constants of `cfg` as the compiler stores them: each one rounded. -/
def round_config (rnd : score_t → score_t) (cfg : Config) : Config where
  SCORE_GAP_LEADING := rnd cfg.SCORE_GAP_LEADING
  SCORE_GAP_TRAILING := rnd cfg.SCORE_GAP_TRAILING
  SCORE_GAP_INNER := rnd cfg.SCORE_GAP_INNER
  SCORE_MATCH_CONSECUTIVE := rnd cfg.SCORE_MATCH_CONSECUTIVE
  COMPUTE_BONUS := fun last_ch ch => rnd (cfg.COMPUTE_BONUS last_ch ch)

/-- The loop of `match_first_row` with rounded arithmetic:
`score = j * SCORE_GAP_LEADING + haystack->bonus[j]` is a product and a sum,
`prev_score + gap_score` a sum. -/
def fp_match_first_row_loop (rnd : score_t → score_t) (cfg : Config) (haystack : haystack_info)
    (needle_char needle_upper : Nat) (gap_score : score_t) :
    Nat → Nat → score_t → List (score_t × score_t)
  | 0, _, _ => []
  | fuel + 1, j, prev_score =>
    if haystack.chars.getD j 0 = needle_char ∨ haystack.chars.getD j 0 = needle_upper then
      let score := rnd (rnd ((j : score_t) * cfg.SCORE_GAP_LEADING) + haystack.bonus.getD j 0)
      let best := MAX score (rnd (prev_score + gap_score))
      (score, best) ::
        fp_match_first_row_loop rnd cfg haystack needle_char needle_upper gap_score fuel (j + 1)
          best
    else
      let best := rnd (prev_score + gap_score)
      (SCORE_MIN, best) ::
        fp_match_first_row_loop rnd cfg haystack needle_char needle_upper gap_score fuel (j + 1)
          best

/-- The function `match_first_row` with rounded arithmetic. -/
def fp_match_first_row (rnd : score_t → score_t) (cfg : Config) (needle : needle_info)
    (haystack : haystack_info) : List score_t × List score_t :=
  let n := haystack.len
  let needle_char := needle.chars.getD 0 0
  let needle_upper := needle.unicode_upper.getD 0 0
  let gap_score := if 1 = needle.len then cfg.SCORE_GAP_TRAILING else cfg.SCORE_GAP_INNER
  let cells :=
    fp_match_first_row_loop rnd cfg haystack needle_char needle_upper gap_score n 0 SCORE_MIN
  (cells.map Prod.fst, cells.map Prod.snd)

/-- The loop of `match_row` with rounded arithmetic: the three sums
`last_M[j - 1] + haystack->bonus[j]`, `last_D[j - 1] + SCORE_MATCH_CONSECUTIVE` and
`prev_score + gap_score`. -/
def fp_match_row_loop (rnd : score_t → score_t) (cfg : Config) (haystack : haystack_info)
    (needle_char needle_upper : Nat) (gap_score : score_t) (last_D last_M : List score_t) :
    Nat → Nat → score_t → List (score_t × score_t)
  | 0, _, _ => []
  | fuel + 1, j, prev_score =>
    let score :=
      if haystack.chars.getD j 0 = needle_char ∨ haystack.chars.getD j 0 = needle_upper then
        MAX (rnd (last_M.getD (j - 1) 0 + haystack.bonus.getD j 0))
          (rnd (last_D.getD (j - 1) 0 + cfg.SCORE_MATCH_CONSECUTIVE))
      else SCORE_MIN
    let best := MAX score (rnd (prev_score + gap_score))
    (score, best) ::
      fp_match_row_loop rnd cfg haystack needle_char needle_upper gap_score last_D last_M fuel
        (j + 1) best

/-- The function `match_row` with rounded arithmetic; cell `0` of `curr_M` is the sum
`SCORE_MIN + gap_score`. -/
def fp_match_row (rnd : score_t → score_t) (cfg : Config) (needle : needle_info)
    (haystack : haystack_info) (row : Nat) (last_D last_M : List score_t) :
    List score_t × List score_t :=
  let n := needle.len
  let m := haystack.len
  let needle_char := needle.chars.getD row 0
  let needle_upper := needle.unicode_upper.getD row 0
  let gap_score :=
    if (row : Int) = (n : Int) - 1 then cfg.SCORE_GAP_TRAILING else cfg.SCORE_GAP_INNER
  let cells := (SCORE_MIN, rnd (SCORE_MIN + gap_score)) ::
    fp_match_row_loop rnd cfg haystack needle_char needle_upper gap_score last_D last_M (m - 1) 1
      (rnd (SCORE_MIN + gap_score))
  (cells.map Prod.fst, cells.map Prod.snd)

/-- The loop of `match_score` with rounded arithmetic. -/
def fp_match_score_loop (rnd : score_t → score_t) (cfg : Config) (needle : needle_info)
    (haystack : haystack_info) :
    Nat → Nat → List score_t × List score_t → List score_t × List score_t
  | 0, _, last => last
  | fuel + 1, i, last =>
    fp_match_score_loop rnd cfg needle haystack fuel (i + 1)
      (fp_match_row rnd cfg needle haystack i last.1 last.2)

/-- The function `match_score` with rounded arithmetic. -/
def fp_match_score (rnd : score_t → score_t) (cfg : Config) (needle : needle_info)
    (haystack_str : List Nat) : score_t :=
  if needle.len = 0 ∨ byte_at haystack_str 0 = 0 then SCORE_MIN
  else
    let r := setup_haystack_and_match needle blank_haystack haystack_str
    if r.1 = false then SCORE_MIN
    else
      let haystack := precompute_bonus cfg r.2
      let n := needle.len
      let m := haystack.len
      if m > MATCH_MAX_LEN ∨ n > m then SCORE_MIN
      else if n = m then SCORE_MAX
      else
        let last := fp_match_score_loop rnd cfg needle haystack (n - 1) 1
          (fp_match_first_row rnd cfg needle haystack)
        last.2.getD (m - 1) 0

/-- The loop of `match_positions` with rounded arithmetic. -/
def fp_match_positions_loop (rnd : score_t → score_t) (cfg : Config) (needle : needle_info)
    (haystack : haystack_info) :
    Nat → Nat → List (List score_t) → List (List score_t) →
      List (List score_t) × List (List score_t)
  | 0, _, D, M => (D, M)
  | fuel + 1, i, D, M =>
    let curr := fp_match_row rnd cfg needle haystack i (D.getD (i - 1) []) (M.getD (i - 1) [])
    fp_match_positions_loop rnd cfg needle haystack fuel (i + 1) (D ++ [curr.1]) (M ++ [curr.2])

/-- The value assigned to `match_required` at the cell `(i, j)`, the sum
`D[i - 1][j - 1] + SCORE_MATCH_CONSECUTIVE` rounded. -/
def fp_next_match_required (rnd : score_t → score_t) (cfg : Config) (D M : List (List score_t))
    (i j : Nat) : Bool :=
  decide (i ≠ 0) && decide (j ≠ 0) &&
    decide (cell M i j = rnd (cell D (i - 1) (j - 1) + cfg.SCORE_MATCH_CONSECUTIVE))

/-- The outer loop of the backtrace with rounded arithmetic. -/
def fp_backtrace (rnd : score_t → score_t) (cfg : Config) (D M : List (List score_t)) :
    Nat → Nat → Bool → List (Option Nat) → List (Option Nat)
  | 0, _, _, positions => positions
  | i + 1, cols, match_required, positions =>
    match backtrace_row D M match_required i cols with
    | none => fp_backtrace rnd cfg D M i 0 match_required positions
    | some j =>
      fp_backtrace rnd cfg D M i j (fp_next_match_required rnd cfg D M i j)
        (positions.set i (some j))

/-- The function `match_positions` with rounded arithmetic. -/
def fp_match_positions (rnd : score_t → score_t) (cfg : Config) (needle : needle_info)
    (haystack_str : List Nat) (hay : haystack_info) : score_t × List (Option Nat) :=
  let r := setup_haystack_and_match needle hay haystack_str
  let haystack := precompute_bonus cfg r.2
  let n := needle.len
  let m := haystack.len
  let positions : List (Option Nat) := List.replicate n none
  if m > MATCH_MAX_LEN ∨ n > m then (SCORE_MIN, positions)
  else
    let first := fp_match_first_row rnd cfg needle haystack
    let DM := fp_match_positions_loop rnd cfg needle haystack (n - 1) 1 [first.1] [first.2]
    (cell DM.2 (n - 1) (m - 1), fp_backtrace rnd cfg DM.1 DM.2 n m false positions)

/-- The bytes of `"app/models/zrder.rb"`. -/
def zrder_rb : List Nat :=
  [0x61, 0x70, 0x70, 0x2F, 0x6D, 0x6F, 0x64, 0x65, 0x6C, 0x73, 0x2F, 0x7A, 0x72, 0x64, 0x65,
    0x72, 0x2E, 0x72, 0x62]

/-! ## The loops as scans -/

theorem MAX_eq_max (a b : score_t) : MAX a b = max a b := by
  unfold MAX
  split_ifs with h
  · exact (max_eq_left (le_of_lt h)).symm
  · exact (max_eq_right (not_lt.mp h)).symm

theorem le_MAX_left (a b : score_t) : a ≤ MAX a b := by
  rw [MAX_eq_max]; exact le_max_left a b

theorem le_MAX_right (a b : score_t) : b ≤ MAX a b := by
  rw [MAX_eq_max]; exact le_max_right a b

theorem MAX_le {a b c : score_t} (ha : a ≤ c) (hb : b ≤ c) : MAX a b ≤ c := by
  rw [MAX_eq_max]; exact max_le ha hb

theorem run_length (step : Nat → score_t → score_t × score_t) (fuel j : Nat) (prev : score_t) :
    (run step fuel j prev).length = fuel := by
  induction fuel generalizing j prev with
  | zero => rfl
  | succ f ih => simp [run, ih]

theorem run_getD_zero (step : Nat → score_t → score_t × score_t) (fuel j : Nat) (prev : score_t)
    (d : score_t × score_t) (h : 0 < fuel) : (run step fuel j prev).getD 0 d = step j prev := by
  cases fuel with
  | zero => omega
  | succ f => simp only [run, List.getD_cons_zero]

theorem run_getD_succ (step : Nat → score_t → score_t × score_t) (fuel j : Nat) (prev : score_t)
    (d : score_t × score_t) (k : Nat) (h : k + 1 < fuel) :
    (run step fuel j prev).getD (k + 1) d =
      step (j + k + 1) ((run step fuel j prev).getD k d).2 := by
  induction fuel generalizing j prev k with
  | zero => omega
  | succ f ih =>
    cases k with
    | zero =>
      have hf : 0 < f := by omega
      simp only [run, List.getD_cons_succ, List.getD_cons_zero, Nat.add_zero]
      exact run_getD_zero step f (j + 1) _ d hf
    | succ k =>
      have hk : k + 1 < f := by omega
      have := ih (j + 1) (step j prev).2 k hk
      simp only [run, List.getD_cons_succ] at this ⊢
      rw [this]
      have e : j + 1 + k + 1 = j + (k + 1) + 1 := by omega
      rw [e]

theorem match_first_row_loop_eq (cfg : Config) (haystack : haystack_info)
    (needle_char needle_upper : Nat) (gap_score : score_t) (fuel j : Nat) (prev : score_t) :
    match_first_row_loop cfg haystack needle_char needle_upper gap_score fuel j prev =
      run (first_step cfg haystack needle_char needle_upper gap_score) fuel j prev := by
  induction fuel generalizing j prev with
  | zero => rfl
  | succ f ih =>
    rw [match_first_row_loop, run]
    by_cases h : haystack.chars.getD j 0 = needle_char ∨ haystack.chars.getD j 0 = needle_upper
    · simp only [first_step, if_pos h, ih]
    · simp only [first_step, if_neg h, ih]

theorem match_row_loop_eq (cfg : Config) (haystack : haystack_info)
    (needle_char needle_upper : Nat) (gap_score : score_t) (last_D last_M : List score_t)
    (fuel j : Nat) (prev : score_t) :
    match_row_loop cfg haystack needle_char needle_upper gap_score last_D last_M fuel j prev =
      run (row_step cfg haystack needle_char needle_upper gap_score last_D last_M) fuel j prev := by
  induction fuel generalizing j prev with
  | zero => rfl
  | succ f ih =>
    unfold match_row_loop run
    simp only [ih]
    rfl

/-! ## The rows as a table -/

theorem getD_map_fst (l : List (score_t × score_t)) (j : Nat) :
    (l.map Prod.fst).getD j 0 = (l.getD j (0, 0)).1 :=
  List.getD_map l ((0 : score_t), (0 : score_t)) Prod.fst

theorem getD_map_snd (l : List (score_t × score_t)) (j : Nat) :
    (l.map Prod.snd).getD j 0 = (l.getD j (0, 0)).2 :=
  List.getD_map l ((0 : score_t), (0 : score_t)) Prod.snd

theorem first_gap (cfg : Config) (q : needle_info) :
    (if 1 = q.len then cfg.SCORE_GAP_TRAILING else cfg.SCORE_GAP_INNER) = gap_of cfg q 0 := by
  rfl

theorem row_gap (cfg : Config) (q : needle_info) (i : Nat) :
    (if ((i + 1 : Nat) : Int) = (q.len : Int) - 1 then cfg.SCORE_GAP_TRAILING
      else cfg.SCORE_GAP_INNER) = gap_of cfg q (i + 1) := by
  unfold gap_of
  by_cases h : ((i + 1 : Nat) : Int) = (q.len : Int) - 1
  · rw [if_pos h, if_pos (by omega)]
  · rw [if_neg h, if_neg (by omega)]

theorem rows_zero (cfg : Config) (q : needle_info) (hay : haystack_info) :
    rows cfg q hay 0 =
      ((run (first_step cfg hay (q.chars.getD 0 0) (q.unicode_upper.getD 0 0) (gap_of cfg q 0))
          hay.len 0 SCORE_MIN).map Prod.fst,
        (run (first_step cfg hay (q.chars.getD 0 0) (q.unicode_upper.getD 0 0) (gap_of cfg q 0))
          hay.len 0 SCORE_MIN).map Prod.snd) := by
  simp only [rows, match_first_row, match_first_row_loop_eq, first_gap]

theorem rows_succ (cfg : Config) (q : needle_info) (hay : haystack_info) (i : Nat) :
    rows cfg q hay (i + 1) =
      (((SCORE_MIN, SCORE_MIN + gap_of cfg q (i + 1)) ::
          run (row_step cfg hay (q.chars.getD (i + 1) 0) (q.unicode_upper.getD (i + 1) 0)
            (gap_of cfg q (i + 1)) (rows cfg q hay i).1 (rows cfg q hay i).2)
            (hay.len - 1) 1 (SCORE_MIN + gap_of cfg q (i + 1))).map Prod.fst,
        ((SCORE_MIN, SCORE_MIN + gap_of cfg q (i + 1)) ::
          run (row_step cfg hay (q.chars.getD (i + 1) 0) (q.unicode_upper.getD (i + 1) 0)
            (gap_of cfg q (i + 1)) (rows cfg q hay i).1 (rows cfg q hay i).2)
            (hay.len - 1) 1 (SCORE_MIN + gap_of cfg q (i + 1))).map Prod.snd) := by
  simp only [rows, match_row, match_row_loop_eq, row_gap]

theorem first_cells (cfg : Config) (q : needle_info) (hay : haystack_info) (j : Nat)
    (hj : j < hay.len) :
    (Dc cfg q hay 0 j, Mc cfg q hay 0 j) =
      first_step cfg hay (q.chars.getD 0 0) (q.unicode_upper.getD 0 0) (gap_of cfg q 0) j
        (if j = 0 then SCORE_MIN else Mc cfg q hay 0 (j - 1)) := by
  unfold Dc Mc
  rw [rows_zero]
  simp only [getD_map_fst, getD_map_snd, Prod.mk.eta]
  cases j with
  | zero => rw [run_getD_zero _ _ _ _ _ hj]; simp
  | succ k => rw [run_getD_succ _ _ _ _ _ _ hj]; simp

theorem Dc_zero (cfg : Config) (q : needle_info) (hay : haystack_info) (j : Nat)
    (hj : j < hay.len) :
    Dc cfg q hay 0 j =
      if hit q hay 0 j then (j : score_t) * cfg.SCORE_GAP_LEADING + hay.bonus.getD j 0
      else SCORE_MIN := by
  have h := congrArg Prod.fst (first_cells cfg q hay j hj)
  simp only [first_step] at h
  rw [h]
  unfold hit
  split_ifs <;> rfl

theorem Mc_zero_zero (cfg : Config) (q : needle_info) (hay : haystack_info)
    (hm : 0 < hay.len) :
    Mc cfg q hay 0 0 =
      if hit q hay 0 0 then MAX (Dc cfg q hay 0 0) (SCORE_MIN + gap_of cfg q 0)
      else SCORE_MIN + gap_of cfg q 0 := by
  have h := congrArg Prod.snd (first_cells cfg q hay 0 hm)
  have hd := Dc_zero cfg q hay 0 hm
  simp only [first_step, if_true] at h
  rw [h]
  unfold hit at hd ⊢
  split_ifs with hh
  · rw [hd, if_pos hh]
  · rfl

theorem Mc_zero_succ (cfg : Config) (q : needle_info) (hay : haystack_info) (j : Nat)
    (hj : j + 1 < hay.len) :
    Mc cfg q hay 0 (j + 1) =
      if hit q hay 0 (j + 1) then MAX (Dc cfg q hay 0 (j + 1)) (Mc cfg q hay 0 j + gap_of cfg q 0)
      else Mc cfg q hay 0 j + gap_of cfg q 0 := by
  have h := congrArg Prod.snd (first_cells cfg q hay (j + 1) hj)
  have hd := Dc_zero cfg q hay (j + 1) hj
  simp only [first_step, Nat.succ_ne_zero, if_false, Nat.add_sub_cancel] at h
  rw [h]
  unfold hit at hd ⊢
  split_ifs with hh
  · rw [hd, if_pos hh]
  · rfl

theorem Dc_succ_zero (cfg : Config) (q : needle_info) (hay : haystack_info) (i : Nat) :
    Dc cfg q hay (i + 1) 0 = SCORE_MIN := by
  unfold Dc; rw [rows_succ]; rfl

theorem Mc_succ_zero (cfg : Config) (q : needle_info) (hay : haystack_info) (i : Nat) :
    Mc cfg q hay (i + 1) 0 = SCORE_MIN + gap_of cfg q (i + 1) := by
  unfold Mc; rw [rows_succ]; rfl

theorem row_cells (cfg : Config) (q : needle_info) (hay : haystack_info) (i j : Nat)
    (hj : j + 1 < hay.len) :
    (Dc cfg q hay (i + 1) (j + 1), Mc cfg q hay (i + 1) (j + 1)) =
      row_step cfg hay (q.chars.getD (i + 1) 0) (q.unicode_upper.getD (i + 1) 0)
        (gap_of cfg q (i + 1)) (rows cfg q hay i).1 (rows cfg q hay i).2 (j + 1)
        (Mc cfg q hay (i + 1) j) := by
  unfold Dc Mc
  rw [rows_succ]
  simp only [getD_map_fst, getD_map_snd, Prod.mk.eta, List.getD_cons_succ]
  cases j with
  | zero =>
    rw [run_getD_zero _ _ _ _ _ (by omega)]
    simp only [List.getD_cons_zero]
  | succ k =>
    rw [run_getD_succ _ _ _ _ _ _ (by omega)]
    simp only [List.getD_cons_succ]
    have e : 1 + k + 1 = k + 1 + 1 := by omega
    rw [e]

theorem Dc_succ_succ (cfg : Config) (q : needle_info) (hay : haystack_info) (i j : Nat)
    (hj : j + 1 < hay.len) :
    Dc cfg q hay (i + 1) (j + 1) =
      if hit q hay (i + 1) (j + 1) then
        MAX (Mc cfg q hay i j + hay.bonus.getD (j + 1) 0)
          (Dc cfg q hay i j + cfg.SCORE_MATCH_CONSECUTIVE)
      else SCORE_MIN := by
  have h := congrArg Prod.fst (row_cells cfg q hay i j hj)
  simp only [row_step, Nat.add_sub_cancel] at h
  rw [h]
  rfl

theorem Mc_succ_succ (cfg : Config) (q : needle_info) (hay : haystack_info) (i j : Nat)
    (hj : j + 1 < hay.len) :
    Mc cfg q hay (i + 1) (j + 1) =
      MAX (Dc cfg q hay (i + 1) (j + 1)) (Mc cfg q hay (i + 1) j + gap_of cfg q (i + 1)) := by
  have h := congrArg Prod.snd (row_cells cfg q hay i j hj)
  have hd := congrArg Prod.fst (row_cells cfg q hay i j hj)
  simp only [row_step] at h hd
  rw [h, hd]

/-! ## The callers of the row functions -/

theorem match_score_loop_rows (cfg : Config) (q : needle_info) (hay : haystack_info)
    (fuel i : Nat) :
    match_score_loop cfg q hay fuel (i + 1) (rows cfg q hay i) = rows cfg q hay (i + fuel) := by
  induction fuel generalizing i with
  | zero => rfl
  | succ f ih =>
    rw [match_score_loop]
    have := ih (i + 1)
    rw [rows] at this
    rw [this]
    congr 1
    omega

theorem match_score_eq (cfg : Config) (q : needle_info) (h : List Nat) :
    match_score cfg q h =
      if q.len = 0 ∨ byte_at h 0 = 0 then SCORE_MIN
      else if query_has_match q h = false then SCORE_MIN
      else if (hay_of cfg q h).len > MATCH_MAX_LEN ∨ q.len > (hay_of cfg q h).len then SCORE_MIN
      else if q.len = (hay_of cfg q h).len then SCORE_MAX
      else Mc cfg q (hay_of cfg q h) (q.len - 1) ((hay_of cfg q h).len - 1) := by
  unfold match_score
  simp only []
  have e := match_score_loop_rows cfg q (hay_of cfg q h) (q.len - 1) 0
  simp only [Nat.zero_add] at e
  change match_score_loop cfg q (hay_of cfg q h) (q.len - 1) 1 (match_first_row cfg q (hay_of cfg q h))
    = _ at e
  unfold hay_of at e ⊢
  rw [e]
  rfl

theorem hay_len_eq (cfg : Config) (q : needle_info) (h : List Nat) :
    (hay_of cfg q h).len = (setup_haystack_and_match q blank_haystack h).2.len := rfl

theorem hay_chars_eq (cfg : Config) (q : needle_info) (h : List Nat) :
    (hay_of cfg q h).chars = (setup_haystack_and_match q blank_haystack h).2.chars := rfl

/-- The buffer does not depend on what it held before the call, once the haystack is not
empty. -/
theorem hay_of_any (cfg : Config) (q : needle_info) (h : List Nat) (hay : haystack_info)
    (hne : byte_at h 0 ≠ 0) :
    precompute_bonus cfg (setup_haystack_and_match q hay h).2 = hay_of cfg q h := by
  unfold hay_of setup_haystack_and_match precompute_bonus
  rw [if_neg hne, if_neg hne]

theorem has_match_any (q : needle_info) (h : List Nat) (hay : haystack_info) :
    (setup_haystack_and_match q hay h).1 = query_has_match q h := by
  unfold query_has_match setup_haystack_and_match
  split_ifs <;> rfl

theorem tableD_getD (cfg : Config) (q : needle_info) (hay : haystack_info) (k r : Nat)
    (hr : r < k) : (tableD cfg q hay k).getD r [] = (rows cfg q hay r).1 := by
  unfold tableD
  rw [List.getD_eq_getElem _ _ (by simpa using hr)]
  simp

theorem tableM_getD (cfg : Config) (q : needle_info) (hay : haystack_info) (k r : Nat)
    (hr : r < k) : (tableM cfg q hay k).getD r [] = (rows cfg q hay r).2 := by
  unfold tableM
  rw [List.getD_eq_getElem _ _ (by simpa using hr)]
  simp

theorem cell_tableD (cfg : Config) (q : needle_info) (hay : haystack_info) (k i j : Nat)
    (hi : i < k) : cell (tableD cfg q hay k) i j = Dc cfg q hay i j := by
  unfold cell Dc
  rw [tableD_getD cfg q hay k i hi]

theorem cell_tableM (cfg : Config) (q : needle_info) (hay : haystack_info) (k i j : Nat)
    (hi : i < k) : cell (tableM cfg q hay k) i j = Mc cfg q hay i j := by
  unfold cell Mc
  rw [tableM_getD cfg q hay k i hi]

theorem match_positions_loop_tables (cfg : Config) (q : needle_info) (hay : haystack_info)
    (fuel i : Nat) :
    match_positions_loop cfg q hay fuel (i + 1) (tableD cfg q hay (i + 1))
        (tableM cfg q hay (i + 1)) =
      (tableD cfg q hay (i + 1 + fuel), tableM cfg q hay (i + 1 + fuel)) := by
  induction fuel generalizing i with
  | zero => rfl
  | succ f ih =>
    rw [match_positions_loop]
    simp only [Nat.add_sub_cancel]
    rw [tableD_getD cfg q hay (i + 1) i (by omega), tableM_getD cfg q hay (i + 1) i (by omega)]
    have e1 : tableD cfg q hay (i + 1) ++ [(match_row cfg q hay (i + 1) (rows cfg q hay i).1
        (rows cfg q hay i).2).1] = tableD cfg q hay (i + 1 + 1) := by
      unfold tableD
      rw [List.range_succ (n := i + 1), List.map_append]
      rfl
    have e2 : tableM cfg q hay (i + 1) ++ [(match_row cfg q hay (i + 1) (rows cfg q hay i).1
        (rows cfg q hay i).2).2] = tableM cfg q hay (i + 1 + 1) := by
      unfold tableM
      rw [List.range_succ (n := i + 1), List.map_append]
      rfl
    rw [e1, e2, ih (i + 1)]
    have e : i + 1 + 1 + f = i + 1 + (f + 1) := by omega
    rw [e]

theorem match_positions_eq (cfg : Config) (q : needle_info) (h : List Nat) (hay : haystack_info)
    (hne : byte_at h 0 ≠ 0) :
    match_positions cfg q h hay =
      if (hay_of cfg q h).len > MATCH_MAX_LEN ∨ q.len > (hay_of cfg q h).len then
        (SCORE_MIN, List.replicate q.len none)
      else
        (cell (tableM cfg q (hay_of cfg q h) (1 + (q.len - 1))) (q.len - 1)
            ((hay_of cfg q h).len - 1),
          backtrace cfg (tableD cfg q (hay_of cfg q h) (1 + (q.len - 1)))
            (tableM cfg q (hay_of cfg q h) (1 + (q.len - 1))) q.len (hay_of cfg q h).len false
            (List.replicate q.len none)) := by
  unfold match_positions
  simp only []
  rw [hay_of_any cfg q h hay hne]
  have e := match_positions_loop_tables cfg q (hay_of cfg q h) (q.len - 1) 0
  rw [Nat.zero_add] at e
  have e0 : tableD cfg q (hay_of cfg q h) 1 = [(match_first_row cfg q (hay_of cfg q h)).1] := rfl
  have e1 : tableM cfg q (hay_of cfg q h) 1 = [(match_first_row cfg q (hay_of cfg q h)).2] := rfl
  rw [e0, e1] at e
  rw [e]

/-! ## The scan of `setup_haystack_and_match` -/

theorem setup_loop_eq (q : needle_info) (room : Nat) (str : List Nat) (k : Nat)
    (acc : List Nat) :
    setup_loop q room str k acc =
      ((decode_upto room str).foldl (needle_step q) k, acc ++ decode_upto room str) := by
  induction room generalizing str k acc with
  | zero => simp [setup_loop, decode_upto]
  | succ r ih =>
    rw [setup_loop, decode_upto]
    by_cases h0 : byte_at str 0 = 0
    · simp [h0]
    · rw [if_neg h0, if_neg h0]
      simp only []
      rw [ih]
      simp only [List.foldl_cons, List.append_assoc, List.singleton_append]
      rfl

theorem decode_upto_length (room : Nat) (str : List Nat) :
    (decode_upto room str).length ≤ room := by
  induction room generalizing str with
  | zero => simp [decode_upto]
  | succ r ih =>
    rw [decode_upto]
    split_ifs
    · simp
    · simp only [List.length_cons]
      have := ih (str.drop (utf8_to_codepoint str).2)
      omega

theorem setup_chars (q : needle_info) (hay : haystack_info) (h : List Nat)
    (hne : byte_at h 0 ≠ 0) :
    (setup_haystack_and_match q hay h).2.chars = decode_upto MATCH_MAX_LEN h ∧
      (setup_haystack_and_match q hay h).2.len = (decode_upto MATCH_MAX_LEN h).length := by
  unfold setup_haystack_and_match
  rw [if_neg hne]
  simp only [setup_loop_eq, List.nil_append, and_self]

theorem has_match_eq (q : needle_info) (h : List Nat) :
    query_has_match q h =
      if byte_at h 0 = 0 then false
      else decide (q.chars.getD ((decode_upto MATCH_MAX_LEN h).foldl (needle_step q) 0) 0 = 0) := by
  unfold query_has_match setup_haystack_and_match
  split_ifs
  · rfl
  · simp only [setup_loop_eq]

theorem has_match_nonempty (q : needle_info) (h : List Nat) (hm : query_has_match q h = true) :
    byte_at h 0 ≠ 0 := by
  intro h0
  rw [has_match_eq, if_pos h0] at hm
  exact Bool.false_ne_true hm

theorem hay_len_chars (cfg : Config) (q : needle_info) (h : List Nat) (hne : byte_at h 0 ≠ 0) :
    (hay_of cfg q h).len = (hay_of cfg q h).chars.length := by
  rw [hay_len_eq, hay_chars_eq]
  have := setup_chars q blank_haystack h hne
  rw [this.1, this.2]

theorem hay_len_le (cfg : Config) (q : needle_info) (h : List Nat) (hne : byte_at h 0 ≠ 0) :
    (hay_of cfg q h).len ≤ MATCH_MAX_LEN := by
  rw [hay_len_eq, (setup_chars q blank_haystack h hne).2]
  exact decode_upto_length _ _

theorem hay_len_pos (cfg : Config) (q : needle_info) (h : List Nat) (hne : byte_at h 0 ≠ 0) :
    0 < (hay_of cfg q h).len := by
  rw [hay_len_eq, (setup_chars q blank_haystack h hne).2]
  have : MATCH_MAX_LEN = 511 + 1 := rfl
  rw [this, decode_upto, if_neg hne]
  simp

/-! ## Embeddings of a needle prefix into a haystack prefix -/

theorem emb_mono_col (q : needle_info) (hay : haystack_info) (i j : Nat)
    (h : emb q hay i j) : emb q hay i (j + 1) := by
  cases i with
  | zero => trivial
  | succ i => exact Or.inl h

theorem emb_mono_row (q : needle_info) (hay : haystack_info) (i j : Nat)
    (h : emb q hay (i + 1) j) : emb q hay i j := by
  induction j with
  | zero => exact absurd h (by simp [emb])
  | succ j ih =>
    rcases h with h | ⟨_, h⟩
    · exact emb_mono_col q hay i j (ih h)
    · exact emb_mono_col q hay i j h

theorem emb_le_row (q : needle_info) (hay : haystack_info) (i k j : Nat) (hik : i ≤ k)
    (h : emb q hay k j) : emb q hay i j := by
  induction k with
  | zero =>
    have : i = 0 := by omega
    subst this; exact h
  | succ k ih =>
    rcases Nat.lt_or_ge i (k + 1) with hlt | hge
    · exact ih (by omega) (emb_mono_row q hay k j h)
    · have : i = k + 1 := by omega
      subst this; exact h

theorem emb_le_col (q : needle_info) (hay : haystack_info) (i j l : Nat) (hjl : j ≤ l)
    (h : emb q hay i j) : emb q hay i l := by
  induction l with
  | zero =>
    have : j = 0 := by omega
    subst this; exact h
  | succ l ih =>
    rcases Nat.lt_or_ge j (l + 1) with hlt | hge
    · exact emb_mono_col q hay i l (ih (by omega))
    · have : j = l + 1 := by omega
      subst this; exact h

theorem emb_le (q : needle_info) (hay : haystack_info) (i j : Nat) (h : emb q hay i j) :
    i ≤ j := by
  induction j generalizing i with
  | zero =>
    cases i with
    | zero => exact Nat.le_refl 0
    | succ i => exact absurd h (by simp [emb])
  | succ j ih =>
    cases i with
    | zero => exact Nat.zero_le _
    | succ i =>
      rcases h with h | ⟨_, h⟩
      · have := ih (i + 1) h; omega
      · have := ih i h; omega

theorem greedy_emb (q : needle_info) (hay : haystack_info) (rest p : List Nat) (k : Nat)
    (hc : hay.chars = p ++ rest) (hk : emb q hay k p.length) :
    emb q hay (rest.foldl (needle_step q) k) hay.chars.length := by
  induction rest generalizing p k with
  | nil =>
    rw [hc]; simpa using hk
  | cons c r ih =>
    have hc2 : hay.chars = (p ++ [c]) ++ r := by rw [hc]; simp
    have hget : hay.chars.getD p.length 0 = c := by
      rw [hc, List.getD_append_right _ _ _ _ (Nat.le_refl _)]
      simp
    refine ih (p ++ [c]) (needle_step q k c) hc2 ?_
    rw [List.length_append, List.length_singleton]
    unfold needle_step
    split_ifs with hs
    · right
      refine ⟨?_, hk⟩
      unfold hit
      rw [hget]
      exact hs.2
    · exact emb_mono_col q hay k p.length hk

theorem has_match_emb (cfg : Config) (q : needle_info) (h : List Nat) (hz : no_zero q)
    (hm : query_has_match q h = true) :
    emb q (hay_of cfg q h) q.len (hay_of cfg q h).len := by
  have hne := has_match_nonempty q h hm
  rw [has_match_eq, if_neg hne] at hm
  have hk := of_decide_eq_true hm
  have hch : (hay_of cfg q h).chars = [] ++ decode_upto MATCH_MAX_LEN h := by
    rw [hay_chars_eq, (setup_chars q blank_haystack h hne).1]; rfl
  have := greedy_emb q (hay_of cfg q h) (decode_upto MATCH_MAX_LEN h) [] 0 hch trivial
  rw [← hay_len_chars cfg q h hne] at this
  refine emb_le_row q _ q.len _ _ ?_ this
  by_contra hlt
  exact hz _ (by omega) hk

/-! ## Bounds on the bonus array -/

theorem bonus_loop_getD (cfg : Config) (P : score_t → Prop) (h0 : P 0)
    (hP : ∀ a b, P (cfg.COMPUTE_BONUS a b)) (chars : List Nat) (fuel i last j : Nat) :
    P ((precompute_bonus_loop cfg chars fuel i last).getD j 0) := by
  induction fuel generalizing i last j with
  | zero => simpa [precompute_bonus_loop] using h0
  | succ f ih =>
    rw [precompute_bonus_loop]
    cases j with
    | zero => simpa using hP _ _
    | succ j => simpa using ih (i + 1) (chars.getD i 0) j

theorem hay_bonus_nonneg (cfg : Config) (q : needle_info) (h : List Nat)
    (hb : ∀ a b, 0 ≤ cfg.COMPUTE_BONUS a b) (j : Nat) :
    0 ≤ (hay_of cfg q h).bonus.getD j 0 :=
  bonus_loop_getD cfg (fun x => 0 ≤ x) (le_refl 0) hb _ _ _ _ _

theorem hay_bonus_le (cfg : Config) (q : needle_info) (h : List Nat) (K : score_t)
    (hK : 0 ≤ K) (hb : ∀ a b, cfg.COMPUTE_BONUS a b ≤ K) (j : Nat) :
    (hay_of cfg q h).bonus.getD j 0 ≤ K :=
  bonus_loop_getD cfg (fun x => x ≤ K) hK hb _ _ _ _ _

/-! ## A lower bound for the cells that an embedding reaches -/

theorem gap_of_ge (cfg : Config) (q : needle_info) (G : score_t)
    (ht : G ≤ cfg.SCORE_GAP_TRAILING) (hi : G ≤ cfg.SCORE_GAP_INNER) (i : Nat) :
    G ≤ gap_of cfg q i := by
  unfold gap_of; split_ifs <;> assumption

theorem gap_of_le (cfg : Config) (q : needle_info) (U : score_t)
    (ht : cfg.SCORE_GAP_TRAILING ≤ U) (hi : cfg.SCORE_GAP_INNER ≤ U) (i : Nat) :
    gap_of cfg q i ≤ U := by
  unfold gap_of; split_ifs <;> assumption

theorem reach_lower (cfg : Config) (q : needle_info) (hay : haystack_info) (G : score_t)
    (hb : ∀ j, 0 ≤ hay.bonus.getD j 0)
    (hl : G ≤ cfg.SCORE_GAP_LEADING) (ht : G ≤ cfg.SCORE_GAP_TRAILING)
    (hi : G ≤ cfg.SCORE_GAP_INNER) (i : Nat) :
    ∀ j, j < hay.len →
      (emb q hay (i + 1) (j + 1) → ((j : score_t) - i) * G ≤ Mc cfg q hay i j) ∧
      (hit q hay i j → emb q hay i j → ((j : score_t) - i) * G ≤ Dc cfg q hay i j) := by
  induction i with
  | zero =>
    have hD : ∀ j, j < hay.len → hit q hay 0 j → ((j : score_t) - (0 : Nat)) * G ≤ Dc cfg q hay 0 j := by
      intro j hj hh
      rw [Dc_zero cfg q hay j hj, if_pos hh]
      have h1 : (j : score_t) * G ≤ (j : score_t) * cfg.SCORE_GAP_LEADING :=
        mul_le_mul_of_nonneg_left hl (Nat.cast_nonneg j)
      have h2 := hb j
      push_cast
      linarith
    intro j
    induction j with
    | zero =>
      intro hj
      refine ⟨?_, fun hh _ => hD 0 hj hh⟩
      intro he
      rcases he with he | ⟨hh, _⟩
      · exact absurd he (by simp [emb])
      · rw [Mc_zero_zero cfg q hay hj, if_pos hh]
        exact le_trans (hD 0 hj hh) (le_MAX_left _ _)
    | succ j ih =>
      intro hj
      refine ⟨?_, fun hh _ => hD (j + 1) hj hh⟩
      intro he
      rw [Mc_zero_succ cfg q hay j hj]
      by_cases hh : hit q hay 0 (j + 1)
      · rw [if_pos hh]
        exact le_trans (hD (j + 1) hj hh) (le_MAX_left _ _)
      · rw [if_neg hh]
        rcases he with he | ⟨hh2, _⟩
        · have h1 := (ih (by omega)).1 he
          have h2 := gap_of_ge cfg q G ht hi 0
          push_cast at h1 ⊢
          linarith
        · exact absurd hh2 hh
  | succ i ihrow =>
    have hD : ∀ j, j < hay.len → hit q hay (i + 1) j → emb q hay (i + 1) j →
        ((j : score_t) - ((i + 1 : Nat) : score_t)) * G ≤ Dc cfg q hay (i + 1) j := by
      intro j hj hh he
      cases j with
      | zero => exact absurd he (by simp [emb])
      | succ j =>
        rw [Dc_succ_succ cfg q hay i j hj, if_pos hh]
        have h1 := (ihrow j (by omega)).1 he
        have h2 := hb (j + 1)
        refine le_trans ?_ (le_MAX_left _ _)
        push_cast at h1 ⊢
        linarith
    intro j
    induction j with
    | zero =>
      intro hj
      refine ⟨?_, hD 0 hj⟩
      intro he
      rcases he with he | ⟨_, he⟩
      · exact absurd he (by simp [emb])
      · exact absurd he (by simp [emb])
    | succ j ih =>
      intro hj
      refine ⟨?_, hD (j + 1) hj⟩
      intro he
      rw [Mc_succ_succ cfg q hay i j hj]
      rcases he with he | ⟨hh, he⟩
      · have h1 := (ih (by omega)).1 he
        have h2 := gap_of_ge cfg q G ht hi (i + 1)
        refine le_trans ?_ (le_MAX_right _ _)
        push_cast at h1 ⊢
        linarith
      · exact le_trans (hD (j + 1) hj hh he) (le_MAX_left _ _)

/-- Whenever the quick match succeeds for a needle without code point `0`, and no gap
penalty, taken over a whole haystack, costs more than the distance from `0` to
`SCORE_MIN`, the score is above `SCORE_MIN`. -/
theorem score_gt_min (cfg : Config) (q : needle_info) (h : List Nat)
    (hn : q.len ≠ 0) (hz : no_zero q) (hm : query_has_match q h = true)
    (hb : ∀ a b, 0 ≤ cfg.COMPUTE_BONUS a b)
    (hl : SCORE_MIN ≤ MATCH_MAX_LEN * cfg.SCORE_GAP_LEADING)
    (ht : SCORE_MIN ≤ MATCH_MAX_LEN * cfg.SCORE_GAP_TRAILING)
    (hi : SCORE_MIN ≤ MATCH_MAX_LEN * cfg.SCORE_GAP_INNER) :
    SCORE_MIN < match_score cfg q h := by
  have hne := has_match_nonempty q h hm
  have hlen := hay_len_le cfg q h hne
  have he := has_match_emb cfg q h hz hm
  have hnm := emb_le q _ _ _ he
  rw [match_score_eq, if_neg (by simp [hn, hne]), if_neg (by simp [hm]),
    if_neg (by omega)]
  split_ifs with hnm2
  · norm_num [SCORE_MIN, SCORE_MAX]
  · obtain ⟨n, hn1⟩ : ∃ n, q.len = n + 1 := ⟨q.len - 1, by omega⟩
    obtain ⟨m, hm1⟩ : ∃ m, (hay_of cfg q h).len = m + 1 := ⟨(hay_of cfg q h).len - 1, by omega⟩
    rw [hn1, hm1] at he
    have key := (reach_lower cfg q (hay_of cfg q h) (SCORE_MIN / MATCH_MAX_LEN)
      (hay_bonus_nonneg cfg q h hb) ?_ ?_ ?_ n m (by omega)).1 he
    · rw [hn1, hm1]
      simp only [Nat.add_sub_cancel]
      refine lt_of_lt_of_le ?_ key
      have h1 : (m : score_t) - n ≤ 511 := by
        have : m ≤ n + 511 := by unfold MATCH_MAX_LEN at hlen; omega
        have : (m : score_t) ≤ (n : score_t) + 511 := by exact_mod_cast this
        linarith
      have h2 : (0 : score_t) ≤ (m : score_t) - n := by
        have : n ≤ m := by omega
        have : (n : score_t) ≤ (m : score_t) := by exact_mod_cast this
        linarith
      unfold SCORE_MIN MATCH_MAX_LEN
      push_cast
      nlinarith
    all_goals
      unfold MATCH_MAX_LEN at hl ht hi ⊢
      push_cast at hl ht hi ⊢
      linarith

/-! ## Needle preparation -/

theorem upper_variant_eq_spec_fold (c : Nat) : upper_variant c = spec_fold c := by
  unfold upper_variant spec_fold
  split_ifs <;> first | rfl | omega

theorem upper_variant_idem (c : Nat) : upper_variant (upper_variant c) = upper_variant c := by
  unfold upper_variant
  split_ifs <;> omega

theorem getD_set_eq (l : List Nat) (i a : Nat) (h : i < l.length) : (l.set i a).getD i 0 = a := by
  simp [h]

theorem getD_set_ne (l : List Nat) (i j a : Nat) (h : i ≠ j) :
    (l.set i a).getD j 0 = l.getD j 0 := by
  simp [h]

theorem realloc_length (old : List Nat) (new_capacity : Nat) (fresh : Nat → Nat)
    (h : old.length ≤ new_capacity) : (realloc old new_capacity fresh).length = new_capacity := by
  unfold realloc
  rw [List.take_of_length_le h]
  simp
  omega

theorem realloc_getD (old : List Nat) (new_capacity : Nat) (fresh : Nat → Nat) (i : Nat)
    (h : old.length ≤ new_capacity) (hi : i < old.length) :
    (realloc old new_capacity fresh).getD i 0 = old.getD i 0 := by
  unfold realloc
  rw [List.take_of_length_le h, List.getD_append _ _ _ _ hi]

theorem grow_capacity_gt (fuel c needed : Nat) (hc : 0 < c) (hf : needed < c + fuel) :
    needed < grow_capacity fuel c needed ∧ c ≤ grow_capacity fuel c needed := by
  induction fuel generalizing c with
  | zero => simp only [grow_capacity]; omega
  | succ f ih =>
    rw [grow_capacity]
    split_ifs with h
    · have := ih (c * 2) (by omega) (by omega)
      omega
    · omega

theorem resize_spec (fc fu : Nat → Nat) (info : needle_info) (pos : Nat)
    (hc : info.chars.length = info.capacity) (hu : info.unicode_upper.length = info.capacity)
    (hp : pos < info.capacity) :
    (resize_if_needed fc fu info (pos + 1)).chars.length =
        (resize_if_needed fc fu info (pos + 1)).capacity ∧
      (resize_if_needed fc fu info (pos + 1)).unicode_upper.length =
        (resize_if_needed fc fu info (pos + 1)).capacity ∧
      pos + 1 < (resize_if_needed fc fu info (pos + 1)).capacity ∧
      ∀ i, i < info.capacity →
        (resize_if_needed fc fu info (pos + 1)).chars.getD i 0 = info.chars.getD i 0 ∧
        (resize_if_needed fc fu info (pos + 1)).unicode_upper.getD i 0 =
          info.unicode_upper.getD i 0 := by
  unfold resize_if_needed
  split_ifs with h
  · have hg := grow_capacity_gt (pos + 1 + 1) (info.capacity * 2) (pos + 1) (by omega) (by omega)
    have hle : info.capacity ≤ grow_capacity (pos + 1 + 1) (info.capacity * 2) (pos + 1) := by
      omega
    refine ⟨?_, ?_, hg.1, ?_⟩
    · exact realloc_length _ _ _ (by rw [hc]; exact hle)
    · exact realloc_length _ _ _ (by rw [hu]; exact hle)
    · intro i hi
      exact ⟨realloc_getD _ _ _ _ (by rw [hc]; exact hle) (by rw [hc]; exact hi),
        realloc_getD _ _ _ _ (by rw [hu]; exact hle) (by rw [hu]; exact hi)⟩
  · exact ⟨hc, hu, by omega, fun i _ => ⟨rfl, rfl⟩⟩

theorem prepare_loop_succ (fc fu : Nat → Nat) (fuel : Nat) (s : List Nat) (pos : Nat)
    (info : needle_info) (h : byte_at s 0 ≠ 0) :
    prepare_needle_loop fc fu (fuel + 1) s pos info =
      prepare_needle_loop fc fu fuel (s.drop (utf8_to_codepoint s).2) (pos + 1)
        (prepare_round fc fu s pos info) := by
  rw [prepare_needle_loop, if_neg h]
  rfl

theorem prepare_round_inv (fc fu : Nat → Nat) (s : List Nat) (pos : Nat) (info : needle_info)
    (hinv : prep_inv pos info) :
    prep_inv (pos + 1) (prepare_round fc fu s pos info) ∧
      (prepare_round fc fu s pos info).chars.getD pos 0 = (utf8_to_codepoint s).1 ∧
      ∀ i, i < pos → (prepare_round fc fu s pos info).chars.getD i 0 = info.chars.getD i 0 := by
  obtain ⟨hc, hu, hp, hpair⟩ := hinv
  obtain ⟨rc, ru, rp, rget⟩ := resize_spec fc fu info pos hc hu hp
  have hposc : pos < (resize_if_needed fc fu info (pos + 1)).chars.length := by omega
  have hposu : pos < (resize_if_needed fc fu info (pos + 1)).unicode_upper.length := by omega
  refine ⟨⟨?_, ?_, rp, ?_⟩, ?_, ?_⟩
  · simp only [prepare_round, List.length_set]; exact rc
  · simp only [prepare_round, List.length_set]; exact ru
  · intro i hi
    simp only [prepare_round]
    rcases Nat.lt_or_ge i pos with hlt | hge
    · rw [getD_set_ne _ _ _ _ (by omega), getD_set_ne _ _ _ _ (by omega),
        (rget i (by omega)).1, (rget i (by omega)).2]
      exact hpair i hlt
    · have : i = pos := by omega
      subst this
      rw [getD_set_eq _ _ _ hposu, getD_set_eq _ _ _ hposc]
  · simp only [prepare_round]
    exact getD_set_eq _ _ _ hposc
  · intro i hi
    simp only [prepare_round]
    rw [getD_set_ne _ _ _ _ (by omega), (rget i (by omega)).1]

theorem prepare_loop_spec (fc fu : Nat → Nat) (fuel : Nat) (s : List Nat) (pos : Nat)
    (info : needle_info) (hinv : prep_inv pos info) :
    pos ≤ (prepare_needle_loop fc fu fuel s pos info).len ∧
      (prepare_needle_loop fc fu fuel s pos info).len <
        (prepare_needle_loop fc fu fuel s pos info).chars.length ∧
      (prepare_needle_loop fc fu fuel s pos info).len <
        (prepare_needle_loop fc fu fuel s pos info).unicode_upper.length ∧
      (∀ i, i < (prepare_needle_loop fc fu fuel s pos info).len →
        (prepare_needle_loop fc fu fuel s pos info).unicode_upper.getD i 0 =
          upper_variant ((prepare_needle_loop fc fu fuel s pos info).chars.getD i 0)) ∧
      ∀ i, i < pos →
        (prepare_needle_loop fc fu fuel s pos info).chars.getD i 0 = info.chars.getD i 0 := by
  induction fuel generalizing s pos info with
  | zero =>
    obtain ⟨hc, hu, hp, hpair⟩ := hinv
    show pos ≤ pos ∧ pos < info.chars.length ∧ pos < info.unicode_upper.length ∧
      (∀ i, i < pos → info.unicode_upper.getD i 0 = upper_variant (info.chars.getD i 0)) ∧
      ∀ i, i < pos → info.chars.getD i 0 = info.chars.getD i 0
    exact ⟨Nat.le_refl _, by omega, by omega, hpair, fun i _ => rfl⟩
  | succ f ih =>
    by_cases h0 : byte_at s 0 = 0
    · obtain ⟨hc, hu, hp, hpair⟩ := hinv
      rw [prepare_needle_loop, if_pos h0]
      show pos ≤ pos ∧ pos < info.chars.length ∧ pos < info.unicode_upper.length ∧
        (∀ i, i < pos → info.unicode_upper.getD i 0 = upper_variant (info.chars.getD i 0)) ∧
        ∀ i, i < pos → info.chars.getD i 0 = info.chars.getD i 0
      exact ⟨Nat.le_refl _, by omega, by omega, hpair, fun i _ => rfl⟩
    · rw [prepare_loop_succ fc fu f s pos info h0]
      obtain ⟨rinv, _, rkeep⟩ := prepare_round_inv fc fu s pos info hinv
      obtain ⟨h1, h2, h3, h4, h5⟩ := ih (s.drop (utf8_to_codepoint s).2) (pos + 1) _ rinv
      refine ⟨by omega, h2, h3, h4, ?_⟩
      intro i hi
      rw [h5 i (by omega), rkeep i hi]

theorem ascii_decode (b : Nat) (rest : List Nat) (h1 : 1 ≤ b) (h2 : b ≤ 127) :
    byte_at (b :: rest) 0 ≠ 0 ∧ utf8_to_codepoint (b :: rest) = (b, 1) := by
  have hb : byte_at (b :: rest) 0 = b := by
    unfold byte_at
    simp only [List.getD_cons_zero]
    omega
  refine ⟨by rw [hb]; omega, ?_⟩
  unfold utf8_to_codepoint
  simp only [hb]
  rw [if_pos (by omega)]

theorem prepare_loop_ascii (fc fu : Nat → Nat) (fuel : Nat) (s : List Nat) (pos : Nat)
    (info : needle_info) (hinv : prep_inv pos info) (hs : ∀ b, b ∈ s → 1 ≤ b ∧ b ≤ 127)
    (hf : s.length ≤ fuel) :
    (prepare_needle_loop fc fu fuel s pos info).len = pos + s.length ∧
      ∀ i, i < s.length →
        (prepare_needle_loop fc fu fuel s pos info).chars.getD (pos + i) 0 = s.getD i 0 := by
  induction fuel generalizing s pos info with
  | zero =>
    have : s = [] := List.eq_nil_of_length_eq_zero (by omega)
    subst this
    simp [prepare_needle_loop]
  | succ f ih =>
    cases s with
    | nil =>
      rw [prepare_needle_loop, if_pos (by simp [byte_at])]
      simp
    | cons b rest =>
      obtain ⟨hb1, hb2⟩ := hs b (List.mem_cons_self _ _)
      obtain ⟨hne, hdec⟩ := ascii_decode b rest hb1 hb2
      rw [prepare_loop_succ fc fu f (b :: rest) pos info hne]
      obtain ⟨rinv, rpos, _⟩ := prepare_round_inv fc fu (b :: rest) pos info hinv
      rw [hdec] at rpos ⊢
      simp only [List.drop_succ_cons, List.drop_zero]
      obtain ⟨h1, h2⟩ := ih rest (pos + 1) _ rinv
        (fun c hc => hs c (List.mem_cons_of_mem _ hc)) (by simpa using hf)
      obtain ⟨_, _, _, _, h5⟩ := prepare_loop_spec fc fu f rest (pos + 1) _ rinv
      refine ⟨by rw [h1, List.length_cons]; omega, ?_⟩
      intro i hi
      cases i with
      | zero =>
        show (prepare_needle_loop fc fu f rest (pos + 1)
          (prepare_round fc fu (b :: rest) pos info)).chars.getD pos 0 = b
        rw [h5 pos (by omega), rpos]
      | succ i =>
        have := h2 i (by simpa using hi)
        rw [List.getD_cons_succ, ← this]
        congr 1
        omega

theorem prep_inv_init : prep_inv 0
    { len := 0, capacity := INITIAL_CAPACITY, chars := List.replicate INITIAL_CAPACITY 0,
      unicode_upper := List.replicate INITIAL_CAPACITY 0 } := by
  refine ⟨by simp, by simp, by simp [INITIAL_CAPACITY], ?_⟩
  intro i hi
  omega

/-- The cells `chars[i]` and `unicode_upper[i]` of a prepared needle are paired by
`upper_variant`, and they lie inside the arrays together with the cell behind them. -/
theorem prepare_needle_paired (s : List Nat) (fc fu : Nat → Nat) :
    (prepare_needle s fc fu).len < (prepare_needle s fc fu).chars.length ∧
      (prepare_needle s fc fu).len < (prepare_needle s fc fu).unicode_upper.length ∧
      ∀ i, i < (prepare_needle s fc fu).len →
        (prepare_needle s fc fu).unicode_upper.getD i 0 =
          upper_variant ((prepare_needle s fc fu).chars.getD i 0) := by
  obtain ⟨_, h2, h3, h4, _⟩ := prepare_loop_spec fc fu s.length s 0 _ prep_inv_init
  exact ⟨h2, h3, h4⟩

/-! ## An upper bound for all cells -/

theorem cells_le (cfg : Config) (q : needle_info) (hay : haystack_info) (K : score_t)
    (hK : 0 ≤ K) (hb : ∀ j, hay.bonus.getD j 0 ≤ K) (hc : cfg.SCORE_MATCH_CONSECUTIVE ≤ K)
    (hl : cfg.SCORE_GAP_LEADING ≤ 0) (ht : cfg.SCORE_GAP_TRAILING ≤ 0)
    (hi : cfg.SCORE_GAP_INNER ≤ 0) (i : Nat) :
    ∀ j, j < hay.len →
      Dc cfg q hay i j ≤ ((i : score_t) + 1) * K ∧ Mc cfg q hay i j ≤ ((i : score_t) + 1) * K := by
  have hmin : SCORE_MIN ≤ 0 := by norm_num [SCORE_MIN]
  have hgap : ∀ r, gap_of cfg q r ≤ 0 := gap_of_le cfg q 0 ht hi
  induction i with
  | zero =>
    have hD : ∀ j, j < hay.len → Dc cfg q hay 0 j ≤ (((0 : Nat) : score_t) + 1) * K := by
      intro j hj
      rw [Dc_zero cfg q hay j hj]
      have h1 : (j : score_t) * cfg.SCORE_GAP_LEADING ≤ 0 :=
        mul_nonpos_of_nonneg_of_nonpos (Nat.cast_nonneg j) hl
      have h2 := hb j
      split_ifs
      · push_cast; linarith
      · push_cast; linarith
    intro j
    induction j with
    | zero =>
      intro hj
      refine ⟨hD 0 hj, ?_⟩
      rw [Mc_zero_zero cfg q hay hj]
      have h1 := hD 0 hj
      have h2 := hgap 0
      split_ifs
      · exact MAX_le h1 (by push_cast; linarith)
      · push_cast; linarith
    | succ j ih =>
      intro hj
      refine ⟨hD (j + 1) hj, ?_⟩
      rw [Mc_zero_succ cfg q hay j hj]
      have h1 := hD (j + 1) hj
      have h2 := hgap 0
      have h3 := (ih (by omega)).2
      split_ifs
      · exact MAX_le h1 (by linarith)
      · linarith
  | succ i ihrow =>
    have hpos : 0 ≤ ((i : score_t) + 1) * K := mul_nonneg (by positivity) hK
    have hD : ∀ j, j < hay.len →
        Dc cfg q hay (i + 1) j ≤ (((i + 1 : Nat) : score_t) + 1) * K := by
      intro j hj
      cases j with
      | zero => rw [Dc_succ_zero]; push_cast; linarith
      | succ j =>
        rw [Dc_succ_succ cfg q hay i j hj]
        have h1 := ihrow j (by omega)
        have h2 := hb (j + 1)
        split_ifs
        · refine MAX_le ?_ ?_
          · push_cast; linarith [h1.2]
          · push_cast; linarith [h1.1]
        · push_cast; linarith
    intro j
    induction j with
    | zero =>
      intro hj
      refine ⟨hD 0 hj, ?_⟩
      rw [Mc_succ_zero]
      have h2 := hgap (i + 1)
      push_cast; linarith
    | succ j ih =>
      intro hj
      refine ⟨hD (j + 1) hj, ?_⟩
      rw [Mc_succ_succ cfg q hay i j hj]
      have h2 := hgap (i + 1)
      exact MAX_le (hD (j + 1) hj) (by linarith [(ih (by omega)).2])

/-! ## A run of consecutive matches from the first column -/

theorem diag_lower (cfg : Config) (q : needle_info) (hay : haystack_info) (k : Nat)
    (hh : ∀ i, i ≤ k → hit q hay i i) (hk : k < hay.len) :
    Dc cfg q hay 0 0 + (k : score_t) * cfg.SCORE_MATCH_CONSECUTIVE ≤ Dc cfg q hay k k := by
  induction k with
  | zero => simp
  | succ k ih =>
    rw [Dc_succ_succ cfg q hay k k hk, if_pos (hh (k + 1) (Nat.le_refl _))]
    have h1 := ih (fun i hi => hh i (by omega)) (by omega)
    refine le_trans ?_ (le_MAX_right _ _)
    push_cast
    linarith

theorem score_eq_cell (cfg : Config) (q : needle_info) (h : List Nat) (hn : q.len ≠ 0)
    (hm : query_has_match q h = true) (hlt : q.len < (hay_of cfg q h).len) :
    match_score cfg q h =
      Mc cfg q (hay_of cfg q h) (q.len - 1) ((hay_of cfg q h).len - 1) := by
  have hne := has_match_nonempty q h hm
  have hlen := hay_len_le cfg q h hne
  rw [match_score_eq, if_neg (by simp [hn, hne]), if_neg (by simp [hm]), if_neg (by omega),
    if_neg (by omega)]

/-- The score of a needle of `n + 1` code points that match the first `n + 1` of the
`n + 2` code points of the haystack one by one. -/
theorem consecutive_run_score (cfg : Config) (q : needle_info) (h : List Nat) (n : Nat)
    (hq : q.len = n + 1) (hlen : (hay_of cfg q h).len = n + 2)
    (hm : query_has_match q h = true)
    (hh : ∀ i, i ≤ n → hit q (hay_of cfg q h) i i) :
    (hay_of cfg q h).bonus.getD 0 0 + (n : score_t) * cfg.SCORE_MATCH_CONSECUTIVE +
      cfg.SCORE_GAP_TRAILING ≤ match_score cfg q h := by
  rw [score_eq_cell cfg q h (by omega) hm (by omega), hq, hlen]
  have e1 : n + 1 - 1 = n := by omega
  have e2 : n + 2 - 1 = n + 1 := by omega
  rw [e1, e2]
  have hd := diag_lower cfg q (hay_of cfg q h) n hh (by omega)
  rw [Dc_zero cfg q (hay_of cfg q h) 0 (by omega), if_pos (hh 0 (Nat.zero_le _))] at hd
  have hg : gap_of cfg q n = cfg.SCORE_GAP_TRAILING := by
    unfold gap_of; rw [if_pos hq.symm]
  have hM : Dc cfg q (hay_of cfg q h) n n ≤ Mc cfg q (hay_of cfg q h) n n := by
    cases n with
    | zero =>
      rw [Mc_zero_zero cfg q (hay_of cfg q h) (by omega), if_pos (hh 0 (Nat.le_refl _))]
      exact le_MAX_left _ _
    | succ k =>
      rw [Mc_succ_succ cfg q (hay_of cfg q h) k k (by omega)]
      exact le_MAX_left _ _
  have hlast : Mc cfg q (hay_of cfg q h) n n + cfg.SCORE_GAP_TRAILING ≤
      Mc cfg q (hay_of cfg q h) n (n + 1) := by
    rw [← hg]
    cases n with
    | zero =>
      rw [Mc_zero_succ cfg q (hay_of cfg q h) 0 (by omega)]
      split_ifs
      · exact le_MAX_right _ _
      · exact le_refl _
    | succ k =>
      rw [Mc_succ_succ cfg q (hay_of cfg q h) k (k + 1) (by omega)]
      exact le_MAX_right _ _
  push_cast at hd
  linarith

/-! ## Cells that no embedding reaches -/

theorem MAX_eq_left {a b : score_t} (h : b ≤ a) : MAX a b = a := by
  unfold MAX
  split_ifs with hab
  · rfl
  · exact le_antisymm h (not_lt.mp hab)

theorem emb_zero (q : needle_info) (hay : haystack_info) (j : Nat) : emb q hay 0 j := by
  cases j <;> simp [emb]

theorem Dc_no_hit (cfg : Config) (q : needle_info) (hay : haystack_info) (i j : Nat)
    (hj : j < hay.len) (hh : ¬ hit q hay i j) : Dc cfg q hay i j = SCORE_MIN := by
  cases i with
  | zero => rw [Dc_zero cfg q hay j hj, if_neg hh]
  | succ i =>
    cases j with
    | zero => exact Dc_succ_zero cfg q hay i
    | succ j => rw [Dc_succ_succ cfg q hay i j hj, if_neg hh]

theorem sentinel_upper (cfg : Config) (q : needle_info) (hay : haystack_info) (K : score_t)
    (hK : 0 ≤ K) (hb : ∀ j, hay.bonus.getD j 0 ≤ K) (hc : cfg.SCORE_MATCH_CONSECUTIVE ≤ K)
    (ht : cfg.SCORE_GAP_TRAILING ≤ 0) (hi : cfg.SCORE_GAP_INNER ≤ 0) (i : Nat) :
    ∀ j, j < hay.len →
      (¬ emb q hay (i + 1) (j + 1) → Mc cfg q hay i j ≤ SCORE_MIN + (i : score_t) * K) ∧
      (¬ (hit q hay i j ∧ emb q hay i j) → Dc cfg q hay i j ≤ SCORE_MIN + (i : score_t) * K) := by
  have hgap : ∀ r, gap_of cfg q r ≤ 0 := gap_of_le cfg q 0 ht hi
  induction i with
  | zero =>
    have hD : ∀ j, j < hay.len → ¬ (hit q hay 0 j ∧ emb q hay 0 j) →
        Dc cfg q hay 0 j ≤ SCORE_MIN + ((0 : Nat) : score_t) * K := by
      intro j hj hn
      have hh : ¬ hit q hay 0 j := fun h => hn ⟨h, emb_zero q hay _⟩
      rw [Dc_no_hit cfg q hay 0 j hj hh]
      simp
    intro j
    induction j with
    | zero =>
      intro hj
      refine ⟨?_, hD 0 hj⟩
      intro he
      have hh : ¬ hit q hay 0 0 := fun h => he (Or.inr ⟨h, emb_zero q hay _⟩)
      rw [Mc_zero_zero cfg q hay hj, if_neg hh]
      have := hgap 0
      push_cast
      linarith
    | succ j ih =>
      intro hj
      refine ⟨?_, hD (j + 1) hj⟩
      intro he
      have hh : ¬ hit q hay 0 (j + 1) := fun h => he (Or.inr ⟨h, emb_zero q hay _⟩)
      have he2 : ¬ emb q hay (0 + 1) (j + 1) := fun h => he (Or.inl h)
      rw [Mc_zero_succ cfg q hay j hj, if_neg hh]
      have h1 := (ih (by omega)).1 he2
      have := hgap 0
      push_cast at h1 ⊢
      linarith
  | succ i ihrow =>
    have hiK : 0 ≤ (i : score_t) * K := mul_nonneg (Nat.cast_nonneg i) hK
    have hD : ∀ j, j < hay.len → ¬ (hit q hay (i + 1) j ∧ emb q hay (i + 1) j) →
        Dc cfg q hay (i + 1) j ≤ SCORE_MIN + ((i + 1 : Nat) : score_t) * K := by
      intro j hj hn
      by_cases hh : hit q hay (i + 1) j
      · have he : ¬ emb q hay (i + 1) j := fun h => hn ⟨hh, h⟩
        cases j with
        | zero => rw [Dc_succ_zero]; push_cast; linarith
        | succ j =>
          rw [Dc_succ_succ cfg q hay i j hj, if_pos hh]
          have h1 := (ihrow j (by omega)).1 he
          have h2 := (ihrow j (by omega)).2 (fun h => he (Or.inr h))
          have h3 := hb (j + 1)
          refine MAX_le ?_ ?_
          · push_cast; linarith
          · push_cast; linarith
      · rw [Dc_no_hit cfg q hay (i + 1) j hj hh]
        push_cast; linarith
    intro j
    induction j with
    | zero =>
      intro hj
      refine ⟨?_, hD 0 hj⟩
      intro _
      rw [Mc_succ_zero]
      have := hgap (i + 1)
      push_cast; linarith
    | succ j ih =>
      intro hj
      refine ⟨?_, hD (j + 1) hj⟩
      intro he
      rw [Mc_succ_succ cfg q hay i j hj]
      have h1 := hD (j + 1) hj (fun h => he (Or.inr h))
      have h2 := (ih (by omega)).1 (fun h => he (Or.inl h))
      have := hgap (i + 1)
      exact MAX_le h1 (by linarith)

/-- In a row that an embedding reaches there is a column at which the embedding ends, at
which `D` equals `M`, and at which `D` is above the sentinel, as soon as every value built
on the sentinel stays below every value of an embedding (`hS`). -/
theorem reach_exists (cfg : Config) (q : needle_info) (hay : haystack_info) (G K : score_t)
    (hb0 : ∀ j, 0 ≤ hay.bonus.getD j 0) (hK : 0 ≤ K) (hbK : ∀ j, hay.bonus.getD j 0 ≤ K)
    (hc : cfg.SCORE_MATCH_CONSECUTIVE ≤ K)
    (hl : G ≤ cfg.SCORE_GAP_LEADING) (ht : G ≤ cfg.SCORE_GAP_TRAILING)
    (hi : G ≤ cfg.SCORE_GAP_INNER) (ht0 : cfg.SCORE_GAP_TRAILING ≤ 0)
    (hi0 : cfg.SCORE_GAP_INNER ≤ 0) (i : Nat)
    (hS : ∀ j, j < hay.len → SCORE_MIN + (i : score_t) * K < ((j : score_t) - i) * G) :
    ∀ j, j < hay.len → emb q hay (i + 1) (j + 1) →
      ∃ j1, j1 ≤ j ∧ hit q hay i j1 ∧ emb q hay i j1 ∧
        Dc cfg q hay i j1 = Mc cfg q hay i j1 ∧ SCORE_MIN < Dc cfg q hay i j1 := by
  have hgap : ∀ r, gap_of cfg q r ≤ 0 := gap_of_le cfg q 0 ht0 hi0
  have hiK : 0 ≤ (i : score_t) * K := mul_nonneg (Nat.cast_nonneg i) hK
  have hlow := reach_lower cfg q hay G hb0 hl ht hi i
  have hup := sentinel_upper cfg q hay K hK hbK hc ht0 hi0 i
  intro j
  induction j with
  | zero =>
    intro hj he
    rcases he with he | ⟨hh, he⟩
    · exact absurd he (by simp [emb])
    · have hi0 : i = 0 := by
        have := emb_le q hay i 0 he; omega
      subst hi0
      have hd := (hlow 0 hj).2 hh he
      have hs := hS 0 hj
      refine ⟨0, Nat.le_refl _, hh, he, ?_, by linarith⟩
      rw [Mc_zero_zero cfg q hay hj, if_pos hh]
      have := hgap 0
      exact (MAX_eq_left (by push_cast at hs hd; linarith)).symm
  | succ j ih =>
    intro hj he
    by_cases he1 : emb q hay (i + 1) (j + 1)
    · obtain ⟨j1, h1, h2⟩ := ih (by omega) he1
      exact ⟨j1, by omega, h2⟩
    · rcases he with he | ⟨hh, he⟩
      · exact absurd he he1
      · have hd := (hlow (j + 1) hj).2 hh he
        have hs := hS (j + 1) hj
        have hm := (hup j (by omega)).1 he1
        refine ⟨j + 1, Nat.le_refl _, hh, he, ?_, by linarith⟩
        cases i with
        | zero =>
          rw [Mc_zero_succ cfg q hay j hj, if_pos hh]
          have := hgap 0
          exact (MAX_eq_left (by linarith)).symm
        | succ i =>
          rw [Mc_succ_succ cfg q hay i j hj]
          have := hgap (i + 1)
          exact (MAX_eq_left (by linarith)).symm

/-! ## The backtrace -/

theorem backtrace_row_some (D M : List (List score_t)) (mr : Bool) (i cols j0 : Nat)
    (h0 : j0 < cols) (hh : backtrace_hit D M mr i j0 = true) :
    ∃ j, backtrace_row D M mr i cols = some j ∧ j0 ≤ j ∧ j < cols ∧
      backtrace_hit D M mr i j = true := by
  induction cols with
  | zero => omega
  | succ c ih =>
    rw [backtrace_row]
    by_cases hc : backtrace_hit D M mr i c = true
    · rw [if_pos hc]
      exact ⟨c, rfl, by omega, by omega, hc⟩
    · rw [if_neg hc]
      have hne : j0 ≠ c := fun e => hc (e ▸ hh)
      obtain ⟨j, h1, h2, h3, h4⟩ := ih (by omega)
      exact ⟨j, h1, h2, by omega, h4⟩

theorem backtrace_row_lt (D M : List (List score_t)) (mr : Bool) (i cols j : Nat)
    (h : backtrace_row D M mr i cols = some j) : j < cols := by
  induction cols with
  | zero => simp [backtrace_row] at h
  | succ c ih =>
    rw [backtrace_row] at h
    split_ifs at h
    · have : c = j := by simpa using h
      omega
    · have := ih h
      omega

theorem positions_getD_set (pos : List (Option Nat)) (i r : Nat) (x : Option Nat)
    (hi : i < pos.length) :
    (pos.set i x).getD r none = if r = i then x else pos.getD r none := by
  by_cases h : r = i
  · subst h
    simp [hi]
  · rw [if_neg h]
    simp [Ne.symm h]

/-- The backtrace fills every row it visits, with strictly increasing columns at which the
haystack matches the needle, when it starts in a row and with a number of columns that an
embedding reaches.  `hT1` and `hT3` are the two facts about the matrices it relies on. -/
theorem backtrace_spec (cfg : Config) (q : needle_info) (hay : haystack_info) (n : Nat)
    (hT1 : ∀ i j, i < n → j < hay.len → SCORE_MIN < Dc cfg q hay i j → hit q hay i j)
    (hT3 : ∀ i j, i < n → j < hay.len → emb q hay (i + 1) (j + 1) →
      ∃ j1, j1 ≤ j ∧ hit q hay i j1 ∧ emb q hay i j1 ∧
        Dc cfg q hay i j1 = Mc cfg q hay i j1 ∧ SCORE_MIN < Dc cfg q hay i j1)
    (rows : Nat) :
    ∀ (cols : Nat) (mr : Bool) (pos : List (Option Nat)), rows ≤ n → cols ≤ hay.len →
      pos.length = n → emb q hay rows cols →
      (∀ r, rows ≤ r →
        (backtrace cfg (tableD cfg q hay n) (tableM cfg q hay n) rows cols mr pos).getD r none =
          pos.getD r none) ∧
      (∀ r, r < rows → ∃ j,
        (backtrace cfg (tableD cfg q hay n) (tableM cfg q hay n) rows cols mr pos).getD r none =
          some j ∧ j < cols ∧ hit q hay r j) := by
  induction rows with
  | zero =>
    intro cols mr pos _ _ _ _
    exact ⟨fun r _ => rfl, fun r hr => absurd hr (Nat.not_lt_zero r)⟩
  | succ i ih =>
    intro cols mr pos hrows hcols hlen he
    cases cols with
    | zero => exact absurd he (by simp [emb])
    | succ c =>
      obtain ⟨j0, hj0, hh0, he0, hdm, hgt⟩ := hT3 i c (by omega) (by omega) he
      have hcand : backtrace_hit (tableD cfg q hay n) (tableM cfg q hay n) mr i j0 = true := by
        unfold backtrace_hit
        rw [cell_tableD cfg q hay n i j0 (by omega), cell_tableM cfg q hay n i j0 (by omega),
          decide_eq_true hgt, decide_eq_true hdm]
        simp
      obtain ⟨j, hrow, hj0j, hjc, hhit⟩ :=
        backtrace_row_some _ _ mr i (c + 1) j0 (by omega) hcand
      have hDj : SCORE_MIN < Dc cfg q hay i j := by
        unfold backtrace_hit at hhit
        rw [cell_tableD cfg q hay n i j (by omega)] at hhit
        simp only [Bool.and_eq_true, decide_eq_true_eq] at hhit
        exact hhit.1
      have hhj : hit q hay i j := hT1 i j (by omega) (by omega) hDj
      have hej : emb q hay i j := emb_le_col q hay i j0 j hj0j he0
      have hstep : backtrace cfg (tableD cfg q hay n) (tableM cfg q hay n) (i + 1) (c + 1) mr pos =
          backtrace cfg (tableD cfg q hay n) (tableM cfg q hay n) i j
            (next_match_required cfg (tableD cfg q hay n) (tableM cfg q hay n) i j)
            (pos.set i (some j)) := by
        rw [backtrace, hrow]
      rw [hstep]
      obtain ⟨ih1, ih2⟩ := ih j (next_match_required cfg (tableD cfg q hay n)
        (tableM cfg q hay n) i j) (pos.set i (some j)) (by omega) (by omega)
        (by rw [List.length_set]; exact hlen) hej
      refine ⟨?_, ?_⟩
      · intro r hr
        rw [ih1 r (by omega), positions_getD_set pos i r _ (by omega), if_neg (by omega)]
      · intro r hr
        rcases Nat.lt_or_ge r i with hlt | hge
        · obtain ⟨j1, h1, h2, h3⟩ := ih2 r hlt
          exact ⟨j1, h1, by omega, h3⟩
        · have hri : r = i := by omega
          subst hri
          refine ⟨j, ?_, hjc, hhj⟩
          rw [ih1 r (Nat.le_refl _), positions_getD_set pos r r _ (by omega), if_pos rfl]

/-- The columns that the backtrace writes increase strictly with the row, whatever the
matrices hold. -/
theorem backtrace_increasing (cfg : Config) (D M : List (List score_t)) (rows : Nat) :
    ∀ (cols : Nat) (mr : Bool) (pos : List (Option Nat)), rows ≤ pos.length →
      (∀ r, rows ≤ r → (backtrace cfg D M rows cols mr pos).getD r none = pos.getD r none) ∧
      (∀ r j, r < rows → (backtrace cfg D M rows cols mr pos).getD r none = some j →
        pos.getD r none = none → j < cols) ∧
      (∀ r r1 j j1, r < r1 → r1 < rows → pos.getD r none = none → pos.getD r1 none = none →
        (backtrace cfg D M rows cols mr pos).getD r none = some j →
        (backtrace cfg D M rows cols mr pos).getD r1 none = some j1 → j < j1) := by
  induction rows with
  | zero =>
    intro cols mr pos _
    exact ⟨fun r _ => rfl, fun r j hr => absurd hr (Nat.not_lt_zero r),
      fun r r1 j j1 _ hr => absurd hr (Nat.not_lt_zero r1)⟩
  | succ i ih =>
    intro cols mr pos hlen
    rw [backtrace]
    cases hrow : backtrace_row D M mr i cols with
    | none =>
      simp only []
      obtain ⟨ih1, ih2, ih3⟩ := ih 0 mr pos (by omega)
      refine ⟨fun r hr => ih1 r (by omega), ?_, ?_⟩
      · intro r j hr hj hn
        rcases Nat.lt_or_ge r i with hlt | hge
        · have := ih2 r j hlt hj hn; omega
        · rw [ih1 r hge, hn] at hj
          exact absurd hj (by simp)
      · intro r r1 j j1 hrr hr1 hn hn1 hj hj1
        rcases Nat.lt_or_ge r1 i with hlt | hge
        · exact ih3 r r1 j j1 hrr hlt hn hn1 hj hj1
        · rw [ih1 r1 hge, hn1] at hj1
          exact absurd hj1 (by simp)
    | some jj =>
      simp only []
      have hjj := backtrace_row_lt D M mr i cols jj hrow
      obtain ⟨ih1, ih2, ih3⟩ := ih jj (next_match_required cfg D M i jj) (pos.set i (some jj))
        (by rw [List.length_set]; omega)
      have hset : ∀ r, r ≠ i → (pos.set i (some jj)).getD r none = pos.getD r none := by
        intro r hr
        rw [positions_getD_set pos i r _ (by omega), if_neg hr]
      have hself : (pos.set i (some jj)).getD i none = some jj := by
        rw [positions_getD_set pos i i _ (by omega), if_pos rfl]
      refine ⟨?_, ?_, ?_⟩
      · intro r hr
        rw [ih1 r (by omega), hset r (by omega)]
      · intro r j hr hj hn
        rcases Nat.lt_or_ge r i with hlt | hge
        · have := ih2 r j hlt hj (by rw [hset r (by omega)]; exact hn)
          omega
        · have hri : r = i := by omega
          subst hri
          rw [ih1 r (Nat.le_refl _), hself] at hj
          have : jj = j := by simpa using hj
          omega
      · intro r r1 j j1 hrr hr1 hn hn1 hj hj1
        rcases Nat.lt_or_ge r1 i with hlt | hge
        · exact ih3 r r1 j j1 hrr hlt (by rw [hset r (by omega)]; exact hn)
            (by rw [hset r1 (by omega)]; exact hn1) hj hj1
        · have hri : r1 = i := by omega
          subst hri
          rw [ih1 r1 (Nat.le_refl _), hself] at hj1
          have e : jj = j1 := by simpa using hj1
          have := ih2 r j hrr hj (by rw [hset r (by omega)]; exact hn)
          omega

/-! ## Folding the haystack -/

theorem decode_nil_iff (h : List Nat) : decode_upto MATCH_MAX_LEN h = [] ↔ byte_at h 0 = 0 := by
  have e : MATCH_MAX_LEN = 511 + 1 := rfl
  rw [e, decode_upto]
  split_ifs with h0
  · simp [h0]
  · simp [h0]

theorem needle_step_ge (q : needle_info) (k x : Nat) : k ≤ needle_step q k x := by
  unfold needle_step
  split_ifs <;> omega

theorem foldl_step_ge (q : needle_info) (l : List Nat) (k : Nat) :
    k ≤ l.foldl (needle_step q) k := by
  induction l generalizing k with
  | nil => exact Nat.le_refl _
  | cons x l ih =>
    exact le_trans (needle_step_ge q k x) (ih _)

theorem foldl_step_le (q : needle_info) (hterm : q.chars.getD q.len 0 = 0) (l : List Nat)
    (k : Nat) (hk : k ≤ q.len) : l.foldl (needle_step q) k ≤ q.len := by
  induction l generalizing k with
  | nil => exact hk
  | cons x l ih =>
    refine ih _ ?_
    unfold needle_step
    split_ifs with hc
    · rcases Nat.lt_or_ge k q.len with hlt | hge
      · omega
      · have : k = q.len := by omega
        subst this
        exact absurd hterm hc.1
    · exact hk

/-- The offset reached by the scan after `j` columns is at least the length of every needle
prefix that embeds into these columns. -/
theorem emb_le_greedy (q : needle_info) (hay : haystack_info) (hz : no_zero q) (j : Nat)
    (hj : j ≤ hay.chars.length) :
    ∀ i, i ≤ q.len → emb q hay i j → i ≤ (hay.chars.take j).foldl (needle_step q) 0 := by
  induction j with
  | zero =>
    intro i _ he
    have := emb_le q hay i 0 he
    omega
  | succ j ih =>
    intro i hi he
    cases i with
    | zero => exact Nat.zero_le _
    | succ i =>
      have hjl : j < hay.chars.length := by omega
      have htake : hay.chars.take (j + 1) = hay.chars.take j ++ [hay.chars.getD j 0] := by
        rw [List.take_succ, List.getD_eq_getElem?_getD, List.getElem?_eq_getElem hjl]
        rfl
      rw [htake, List.foldl_append, List.foldl_cons, List.foldl_nil]
      rcases he with he | ⟨hh, he⟩
      · exact le_trans (ih (by omega) (i + 1) hi he) (needle_step_ge q _ _)
      · have h1 := ih (by omega) i (by omega) he
        rcases Nat.lt_or_ge i ((hay.chars.take j).foldl (needle_step q) 0) with hlt | hge
        · exact le_trans hlt (needle_step_ge q _ _)
        · have e : (hay.chars.take j).foldl (needle_step q) 0 = i := by omega
          rw [e]
          unfold needle_step
          rw [if_pos ⟨hz i (by omega), hh⟩]

/-- For a needle without code point `0` whose cell behind the last code point is `0`, the
quick match succeeds exactly when the needle embeds into the decoded haystack. -/
theorem has_match_iff_emb (cfg : Config) (q : needle_info) (h : List Nat) (hz : no_zero q)
    (hterm : q.chars.getD q.len 0 = 0) (hne : byte_at h 0 ≠ 0) :
    query_has_match q h = true ↔ emb q (hay_of cfg q h) q.len (hay_of cfg q h).len := by
  constructor
  · exact has_match_emb cfg q h hz
  · intro he
    have hch : (hay_of cfg q h).chars = decode_upto MATCH_MAX_LEN h := by
      rw [hay_chars_eq, (setup_chars q blank_haystack h hne).1]
    have hlen := hay_len_chars cfg q h hne
    have h1 := emb_le_greedy q (hay_of cfg q h) hz (hay_of cfg q h).len (by omega) q.len
      (Nat.le_refl _) he
    rw [hlen, List.take_length, hch] at h1
    have h2 := foldl_step_le q hterm (decode_upto MATCH_MAX_LEN h) 0 (Nat.zero_le _)
    rw [has_match_eq, if_neg hne]
    have e : (decode_upto MATCH_MAX_LEN h).foldl (needle_step q) 0 = q.len := by omega
    rw [e]
    exact decide_eq_true hterm

theorem emb_columns (q : needle_info) (hay : haystack_info) (j : Nat) :
    ∀ i, emb q hay i j →
      ∃ js : List Nat, js.length = i ∧ js.Pairwise (fun a b => a < b) ∧
        (∀ c, c ∈ js → c < j) ∧ ∀ r, r < i → hit q hay r (js.getD r 0) := by
  induction j with
  | zero =>
    intro i he
    have : i = 0 := by
      have := emb_le q hay i 0 he; omega
    subst this
    exact ⟨[], rfl, List.Pairwise.nil, by simp, fun r hr => absurd hr (Nat.not_lt_zero r)⟩
  | succ j ih =>
    intro i he
    cases i with
    | zero =>
      exact ⟨[], rfl, List.Pairwise.nil, by simp, fun r hr => absurd hr (Nat.not_lt_zero r)⟩
    | succ i =>
      rcases he with he | ⟨hh, he⟩
      · obtain ⟨js, h1, h2, h3, h4⟩ := ih (i + 1) he
        exact ⟨js, h1, h2, fun c hc => Nat.lt_succ_of_lt (h3 c hc), h4⟩
      · obtain ⟨js, h1, h2, h3, h4⟩ := ih i he
        refine ⟨js ++ [j], by simp [h1], ?_, ?_, ?_⟩
        · rw [List.pairwise_append]
          refine ⟨h2, List.pairwise_singleton _ _, ?_⟩
          intro a ha b hb
          have : b = j := by simpa using hb
          rw [this]
          exact h3 a ha
        · intro c hc
          rcases List.mem_append.mp hc with hc | hc
          · exact Nat.lt_succ_of_lt (h3 c hc)
          · have : c = j := by simpa using hc
            omega
        · intro r hr
          rcases Nat.lt_or_ge r i with hlt | hge
          · rw [List.getD_append _ _ _ _ (by omega)]
            exact h4 r hlt
          · have : r = i := by omega
            subst this
            rw [List.getD_append_right _ _ _ _ (by omega), h1]
            simpa using hh

theorem columns_emb (q : needle_info) (hay : haystack_info) (i : Nat) :
    ∀ (js : List Nat) (j : Nat), js.length = i → js.Pairwise (fun a b => a < b) →
      (∀ c, c ∈ js → c < j) → (∀ r, r < i → hit q hay r (js.getD r 0)) → emb q hay i j := by
  induction i with
  | zero =>
    intro js j _ _ _ _
    exact emb_zero q hay j
  | succ i ih =>
    intro js j h1 h2 h3 h4
    have hne : js ≠ [] := by
      intro e
      rw [e] at h1
      simp at h1
    obtain ⟨t, a, rfl⟩ : ∃ t a, js = t ++ [a] :=
      ⟨js.dropLast, js.getLast hne, (List.dropLast_append_getLast hne).symm⟩
    have hlen : t.length = i := by simpa using h1
    rw [List.pairwise_append] at h2
    obtain ⟨ht, _, hta⟩ := h2
    have ha : a < j := h3 a (by simp)
    have hhit : hit q hay i a := by
      have := h4 i (Nat.lt_succ_self i)
      rw [List.getD_append_right _ _ _ _ (by omega), hlen] at this
      simpa using this
    have hprefix : emb q hay i a := by
      refine ih t a hlen ht (fun c hc => hta c hc a (by simp)) ?_
      intro r hr
      have := h4 r (by omega)
      rw [List.getD_append _ _ _ _ (by omega)] at this
      exact this
    have hstep : emb q hay (i + 1) (a + 1) := Or.inr ⟨hhit, hprefix⟩
    exact emb_le_col q hay (i + 1) (a + 1) j (by omega) hstep

/-- An embedding in the sense of `emb` is a strictly increasing list of columns, one per
needle code point, at which the haystack matches. -/
theorem emb_iff_columns (q : needle_info) (hay : haystack_info) (i j : Nat) :
    emb q hay i j ↔
      ∃ js : List Nat, js.length = i ∧ js.Pairwise (fun a b => a < b) ∧
        (∀ c, c ∈ js → c < j) ∧ ∀ r, r < i → hit q hay r (js.getD r 0) :=
  ⟨emb_columns q hay j i, fun ⟨js, h1, h2, h3, h4⟩ => columns_emb q hay i js j h1 h2 h3 h4⟩

/-- The contract of the quick match, for a needle without code point `0` whose cell behind
the last code point is `0` and a haystack that is not empty: `query_has_match` is true
exactly when strictly increasing columns of the decoded haystack exist, one per needle code
point, each holding that code point or its stored uppercase variant. -/
theorem has_match_iff_columns (q : needle_info) (h : List Nat) (hz : no_zero q)
    (hterm : q.chars.getD q.len 0 = 0) (hne : byte_at h 0 ≠ 0) :
    query_has_match q h = true ↔
      ∃ js : List Nat, js.length = q.len ∧ js.Pairwise (fun a b => a < b) ∧
        (∀ c, c ∈ js → c < (setup_haystack_and_match q blank_haystack h).2.len) ∧
        ∀ r, r < q.len →
          (setup_haystack_and_match q blank_haystack h).2.chars.getD (js.getD r 0) 0 =
            q.chars.getD r 0 ∨
          (setup_haystack_and_match q blank_haystack h).2.chars.getD (js.getD r 0) 0 =
            q.unicode_upper.getD r 0 := by
  rw [has_match_iff_emb sample_config q h hz hterm hne, emb_iff_columns]
  rfl

/-! ## Needle and haystack of the same length -/

theorem emb_diag_iff (q : needle_info) (hay : haystack_info) (i : Nat) :
    emb q hay i i ↔ ∀ r, r < i → hit q hay r r := by
  induction i with
  | zero =>
    constructor
    · intro _ r hr
      exact absurd hr (Nat.not_lt_zero r)
    · intro _
      exact emb_zero q hay 0
  | succ i ih =>
    constructor
    · rintro (he | ⟨hh, he⟩)
      · have := emb_le q hay (i + 1) i he
        omega
      · intro r hr
        rcases Nat.lt_or_ge r i with hlt | hge
        · exact ih.mp he r hlt
        · have : r = i := by omega
          subst this
          exact hh
    · intro hall
      exact Or.inr ⟨hall i (Nat.lt_succ_self i), ih.mpr (fun r hr => hall r (by omega))⟩

/-- The shortcut `n == m` of `match_score`, for a needle of at least one code point, none of
them `0`, whose cell behind the last code point is `0`: on a haystack of as many code points
the score is `SCORE_MAX` when every haystack code point matches the needle code point of the
same index, and `SCORE_MIN` otherwise. -/
theorem equal_length_score (cfg : Config) (q : needle_info) (h : List Nat) (hn : q.len ≠ 0)
    (hz : no_zero q) (hterm : q.chars.getD q.len 0 = 0)
    (hlen : (setup_haystack_and_match q blank_haystack h).2.len = q.len) :
    ((∀ i, i < q.len → hit q (hay_of cfg q h) i i) → match_score cfg q h = SCORE_MAX) ∧
      (¬ (∀ i, i < q.len → hit q (hay_of cfg q h) i i) → match_score cfg q h = SCORE_MIN) := by
  have hne : byte_at h 0 ≠ 0 := by
    intro h0
    unfold setup_haystack_and_match at hlen
    rw [if_pos h0] at hlen
    exact hn hlen.symm
  have hl : (hay_of cfg q h).len = q.len := hlen
  have hiff := has_match_iff_emb cfg q h hz hterm hne
  rw [hl, emb_diag_iff] at hiff
  constructor
  · intro hall
    rw [match_score_eq, if_neg (by simp [hn, hne]), if_neg (by simp [hiff.mpr hall]),
      if_neg (by rw [hl]; unfold MATCH_MAX_LEN; have := hay_len_le cfg q h hne;
                 unfold MATCH_MAX_LEN at this; omega),
      if_pos hl.symm]
  · intro hnot
    have hm : query_has_match q h = false := by
      cases hq : query_has_match q h with
      | false => rfl
      | true => exact absurd (hiff.mp hq) hnot
    rw [match_score_eq, if_neg (by simp [hn, hne]), if_pos hm]

/-! ## The cell behind the last code point of a prepared needle -/

theorem realloc_getD_fresh (old : List Nat) (new_capacity : Nat) (fresh : Nat → Nat) (i : Nat)
    (h : old.length ≤ new_capacity) (hi : old.length ≤ i) (hi2 : i < new_capacity) :
    (realloc old new_capacity fresh).getD i 0 = fresh i := by
  unfold realloc
  rw [List.take_of_length_le h, List.getD_append_right _ _ _ _ hi,
    List.getD_eq_getElem _ _ (by simp; omega)]
  simp
  congr 1
  omega

theorem resize_tail (fc fu : Nat → Nat) (info : needle_info) (pos : Nat)
    (hc : info.chars.length = info.capacity) (hp : pos < info.capacity)
    (ht : tail_inv fc pos info) : tail_inv fc pos (resize_if_needed fc fu info (pos + 1)) := by
  obtain ⟨hcap, hcell⟩ := ht
  unfold resize_if_needed
  split_ifs with h
  · have hg := grow_capacity_gt (pos + 1 + 1) (info.capacity * 2) (pos + 1) (by omega) (by omega)
    have hle : info.chars.length ≤ grow_capacity (pos + 1 + 1) (info.capacity * 2) (pos + 1) := by
      omega
    refine ⟨by simp only []; omega, ?_⟩
    intro i hi hlt
    simp only [] at hlt ⊢
    rw [realloc_length _ _ _ hle] at hlt
    rcases Nat.lt_or_ge i info.chars.length with h1 | h1
    · rw [realloc_getD _ _ _ _ hle h1]
      exact hcell i hi h1
    · rw [realloc_getD_fresh _ _ _ _ hle h1 hlt, if_neg (by omega)]
  · exact ⟨hcap, hcell⟩

theorem prepare_loop_tail (fc fu : Nat → Nat) (fuel : Nat) (s : List Nat) (pos : Nat)
    (info : needle_info) (hinv : prep_inv pos info) (ht : tail_inv fc pos info) :
    (prepare_needle_loop fc fu fuel s pos info).chars.getD
        (prepare_needle_loop fc fu fuel s pos info).len 0 =
      if (prepare_needle_loop fc fu fuel s pos info).len < INITIAL_CAPACITY then 0
      else fc (prepare_needle_loop fc fu fuel s pos info).len := by
  induction fuel generalizing s pos info with
  | zero =>
    show info.chars.getD pos 0 = if pos < INITIAL_CAPACITY then 0 else fc pos
    exact ht.2 pos (Nat.le_refl _) (by rw [hinv.1]; exact hinv.2.2.1)
  | succ f ih =>
    by_cases h0 : byte_at s 0 = 0
    · rw [prepare_needle_loop, if_pos h0]
      show info.chars.getD pos 0 = if pos < INITIAL_CAPACITY then 0 else fc pos
      exact ht.2 pos (Nat.le_refl _) (by rw [hinv.1]; exact hinv.2.2.1)
    · rw [prepare_loop_succ fc fu f s pos info h0]
      obtain ⟨rinv, _, _⟩ := prepare_round_inv fc fu s pos info hinv
      refine ih _ (pos + 1) _ rinv ?_
      obtain ⟨rcap, rcell⟩ := resize_tail fc fu info pos hinv.1 hinv.2.2.1 ht
      refine ⟨rcap, ?_⟩
      intro i hi hlt
      simp only [prepare_round, List.length_set] at hlt ⊢
      rw [getD_set_ne _ _ _ _ (by omega)]
      exact rcell i (by omega) hlt

/-- The cell `chars[len]` of a prepared needle, on which the quick match ends its scan: it is
`0` for a needle of fewer than `INITIAL_CAPACITY` code points, and otherwise the content of
a cell that `realloc` handed out and that was never written. -/
theorem prepare_needle_terminator (s : List Nat) (fc fu : Nat → Nat) :
    (prepare_needle s fc fu).chars.getD (prepare_needle s fc fu).len 0 =
      if (prepare_needle s fc fu).len < INITIAL_CAPACITY then 0
      else fc (prepare_needle s fc fu).len := by
  refine prepare_loop_tail fc fu s.length s 0 _ prep_inv_init ⟨Nat.le_refl _, ?_⟩
  intro i _ hi
  have hi2 : i < INITIAL_CAPACITY := by simpa using hi
  rw [if_pos hi2]
  simp [hi2]

/-- The contract of the quick match for prepared needles whose terminator cell is sound:
for a needle prepared from a string that decodes without code point `0`, with fewer than
`INITIAL_CAPACITY` code points or with a zero in the heap cell behind them, and a haystack
that is not empty, `query_has_match` is true exactly when strictly increasing columns of the
decoded haystack exist, one per needle code point, each holding that code point or its
uppercase variant. -/
theorem quick_match_contract (s : List Nat) (fc fu : Nat → Nat) (h : List Nat)
    (hz : no_zero (prepare_needle s fc fu))
    (hterm : (prepare_needle s fc fu).len < INITIAL_CAPACITY ∨
      fc (prepare_needle s fc fu).len = 0)
    (hne : byte_at h 0 ≠ 0) :
    query_has_match (prepare_needle s fc fu) h = true ↔
      ∃ js : List Nat, js.length = (prepare_needle s fc fu).len ∧
        js.Pairwise (fun a b => a < b) ∧
        (∀ c, c ∈ js →
          c < (setup_haystack_and_match (prepare_needle s fc fu) blank_haystack h).2.len) ∧
        ∀ r, r < (prepare_needle s fc fu).len →
          (setup_haystack_and_match (prepare_needle s fc fu) blank_haystack h).2.chars.getD
              (js.getD r 0) 0 = (prepare_needle s fc fu).chars.getD r 0 ∨
          (setup_haystack_and_match (prepare_needle s fc fu) blank_haystack h).2.chars.getD
              (js.getD r 0) 0 = (prepare_needle s fc fu).unicode_upper.getD r 0 := by
  refine has_match_iff_columns _ h hz ?_ hne
  rw [prepare_needle_terminator]
  rcases hterm with h1 | h1
  · rw [if_pos h1]
  · split_ifs
    · rfl
    · exact h1

/-! ## The fuel of the loop of `prepare_needle` -/

theorem advance_pos (s : List Nat) : 1 ≤ (utf8_to_codepoint s).2 := by
  unfold utf8_to_codepoint
  simp only []
  split_ifs <;> simp

theorem byte_at_nil (i : Nat) : byte_at [] i = 0 := by
  simp [byte_at]

/-- The loop of `prepare_needle` leaves through its test `*s`, never because the fuel is
used up: any fuel of at least the length of the string gives the same needle. -/
theorem prepare_loop_fuel (fc fu : Nat → Nat) (fuel1 : Nat) :
    ∀ (fuel2 : Nat) (s : List Nat) (pos : Nat) (info : needle_info),
      s.length ≤ fuel1 → s.length ≤ fuel2 →
      prepare_needle_loop fc fu fuel1 s pos info = prepare_needle_loop fc fu fuel2 s pos info := by
  induction fuel1 with
  | zero =>
    intro fuel2 s pos info h1 _
    have hs : s = [] := List.eq_nil_of_length_eq_zero (by omega)
    subst hs
    cases fuel2 with
    | zero => rfl
    | succ f => rw [prepare_needle_loop, prepare_needle_loop, if_pos (byte_at_nil 0)]
  | succ f ih =>
    intro fuel2 s pos info h1 h2
    by_cases h0 : byte_at s 0 = 0
    · cases fuel2 with
      | zero => rw [prepare_needle_loop, prepare_needle_loop, if_pos h0]
      | succ g => rw [prepare_needle_loop, prepare_needle_loop, if_pos h0, if_pos h0]
    · have hne : s ≠ [] := by
        intro e
        rw [e] at h0
        exact h0 (byte_at_nil 0)
      have hlen : 0 < s.length := List.length_pos.mpr hne
      have hadv := advance_pos s
      have hdrop : (s.drop (utf8_to_codepoint s).2).length ≤ s.length - 1 := by
        rw [List.length_drop]
        omega
      cases fuel2 with
      | zero => omega
      | succ g =>
        rw [prepare_loop_succ fc fu f s pos info h0, prepare_loop_succ fc fu g s pos info h0]
        exact ih g _ _ _ (by omega) (by omega)

/-! ## ASCII needles -/

/-- A needle prepared from an ASCII string (bytes 1..127) holds no code point `0`. -/
theorem ascii_no_zero (s : List Nat) (fc fu : Nat → Nat) (hs : ∀ b, b ∈ s → 1 ≤ b ∧ b ≤ 127) :
    no_zero (prepare_needle s fc fu) := by
  obtain ⟨hlen, hget⟩ := prepare_loop_ascii fc fu s.length s 0 _ prep_inv_init hs (Nat.le_refl _)
  rw [Nat.zero_add] at hlen
  intro i hi
  have hi2 : i < s.length := by
    rw [show (prepare_needle s fc fu).len = s.length from hlen] at hi
    exact hi
  have h1 := hget i hi2
  rw [Nat.zero_add] at h1
  rw [show (prepare_needle s fc fu).chars.getD i 0 = s.getD i 0 from h1,
    List.getD_eq_getElem _ _ hi2]
  have := (hs _ (List.getElem_mem hi2)).1
  omega

theorem sample_bonus_nonneg (a b : Nat) : 0 ≤ sample_config.COMPUTE_BONUS a b := by
  show 0 ≤ spec_bonus (9 / 10) (8 / 10) (7 / 10) (6 / 10) a b
  unfold spec_bonus
  simp only []
  split_ifs <;> norm_num

theorem sample_bonus_le (a b : Nat) : sample_config.COMPUTE_BONUS a b ≤ 9 / 10 := by
  show spec_bonus (9 / 10) (8 / 10) (7 / 10) (6 / 10) a b ≤ 9 / 10
  unfold spec_bonus
  simp only []
  split_ifs <;> norm_num

theorem score_min_of_no_match (cfg : Config) (q : needle_info) (h : List Nat)
    (hm : query_has_match q h = false) : match_score cfg q h = SCORE_MIN := by
  rw [match_score_eq]
  split_ifs <;> rfl

/-- C9: `prepare_needle` on an ASCII string (bytes 1..127, of any length) yields a needle
with `len = |s|`, `chars[i] = s[i]` and `unicode_upper[i] = fold(chars[i])`; for every input
string `unicode_upper[i] = fold(chars[i])` for all `i < len`; `fold` is the table of section
4.2, under which `U+00DF`, `U+00F7` and `U+00FF` map to themselves. -/
theorem prepare_needle_ascii (s : List Nat) (fresh_chars fresh_upper : Nat → Nat)
    (hs : ∀ b, b ∈ s → 1 ≤ b ∧ b ≤ 127) :
    (prepare_needle s fresh_chars fresh_upper).len = s.length ∧
      (∀ i, i < s.length →
        (prepare_needle s fresh_chars fresh_upper).chars.getD i 0 = s.getD i 0 ∧
        (prepare_needle s fresh_chars fresh_upper).unicode_upper.getD i 0 =
          spec_fold ((prepare_needle s fresh_chars fresh_upper).chars.getD i 0)) ∧
      (∀ (t : List Nat) (fc fu : Nat → Nat) (i : Nat), i < (prepare_needle t fc fu).len →
        (prepare_needle t fc fu).unicode_upper.getD i 0 =
          spec_fold ((prepare_needle t fc fu).chars.getD i 0)) ∧
      spec_fold 0xDF = 0xDF ∧ spec_fold 0xF7 = 0xF7 ∧ spec_fold 0xFF = 0xFF := by
  have hall : ∀ (t : List Nat) (fc fu : Nat → Nat) (i : Nat), i < (prepare_needle t fc fu).len →
      (prepare_needle t fc fu).unicode_upper.getD i 0 =
        spec_fold ((prepare_needle t fc fu).chars.getD i 0) := by
    intro t fc fu i hi
    rw [← upper_variant_eq_spec_fold]
    exact (prepare_needle_paired t fc fu).2.2 i hi
  obtain ⟨hlen, hget⟩ := prepare_loop_ascii fresh_chars fresh_upper s.length s 0 _ prep_inv_init hs
    (Nat.le_refl _)
  rw [Nat.zero_add] at hlen
  refine ⟨hlen, ?_, hall, by decide, by decide, by decide⟩
  intro i hi
  have h1 := hget i hi
  rw [Nat.zero_add] at h1
  exact ⟨h1, hall s fresh_chars fresh_upper i (by rw [show (prepare_needle s fresh_chars fresh_upper).len = s.length from hlen]; exact hi)⟩

/-- C9 at a needle of 33 letters `a`, one more than fits without growing the arrays, with a
stale heap. -/
theorem prepare_needle_ascii_witness :
    (∀ b, b ∈ List.replicate 33 0x61 → 1 ≤ b ∧ b ≤ 127) ∧
      ((prepare_needle (List.replicate 33 0x61) stale_heap zero_heap).len =
          (List.replicate 33 0x61).length ∧
        (∀ i, i < (List.replicate 33 0x61).length →
          (prepare_needle (List.replicate 33 0x61) stale_heap zero_heap).chars.getD i 0 =
            (List.replicate 33 0x61).getD i 0 ∧
          (prepare_needle (List.replicate 33 0x61) stale_heap zero_heap).unicode_upper.getD i 0 =
            spec_fold ((prepare_needle (List.replicate 33 0x61) stale_heap zero_heap).chars.getD i 0)) ∧
        (∀ (t : List Nat) (fc fu : Nat → Nat) (i : Nat), i < (prepare_needle t fc fu).len →
          (prepare_needle t fc fu).unicode_upper.getD i 0 =
            spec_fold ((prepare_needle t fc fu).chars.getD i 0)) ∧
        spec_fold 0xDF = 0xDF ∧ spec_fold 0xF7 = 0xF7 ∧ spec_fold 0xFF = 0xFF) :=
  ⟨by decide, prepare_needle_ascii (List.replicate 33 0x61) stale_heap zero_heap (by decide)⟩

/-- C10: `match_score` returns `SCORE_MIN` whenever the needle has length 0, or the haystack
is empty, or `query_has_match` is false; and `query_has_match` is false for every needle
when the haystack is empty. -/
theorem score_min_on_rejection (cfg : Config) (q : needle_info) (h : List Nat)
    (hr : q.len = 0 ∨ byte_at h 0 = 0 ∨ query_has_match q h = false) :
    match_score cfg q h = SCORE_MIN ∧
      ∀ (q1 : needle_info) (h1 : List Nat), byte_at h1 0 = 0 → query_has_match q1 h1 = false := by
  constructor
  · rcases hr with hr | hr | hr
    · rw [match_score, if_pos (Or.inl hr)]
    · rw [match_score, if_pos (Or.inr hr)]
    · exact score_min_of_no_match cfg q h hr
  · intro q1 h1 h0
    rw [has_match_eq, if_pos h0]

/-- C10 at the needle `"amor"` and the empty haystack. -/
theorem score_min_on_rejection_witness :
    ((prepare_needle amor zero_heap zero_heap).len = 0 ∨ byte_at [] 0 = 0 ∨
        query_has_match (prepare_needle amor zero_heap zero_heap) [] = false) ∧
      (match_score sample_config (prepare_needle amor zero_heap zero_heap) [] = SCORE_MIN ∧
        ∀ (q1 : needle_info) (h1 : List Nat), byte_at h1 0 = 0 →
          query_has_match q1 h1 = false) :=
  ⟨Or.inr (Or.inl (by decide)),
    score_min_on_rejection sample_config (prepare_needle amor zero_heap zero_heap) []
      (Or.inr (Or.inl (by decide)))⟩

/-- C2, as stated, fails: for the needle of length 0 and the haystack `"a"` the quick match
succeeds but the score is `SCORE_MIN`.  The same happens for the needle prepared from the
byte `0xFF` (code point `0`) on `"ab"`, and for the needle `"a"` on `"ab"` when the trailing
gap penalty is `-20`. -/
theorem empty_needle_matches_without_score :
    (prepare_needle [] zero_heap zero_heap).len = 0 ∧
      query_has_match (prepare_needle [] zero_heap zero_heap) [0x61] = true ∧
      ¬ SCORE_MIN < match_score sample_config (prepare_needle [] zero_heap zero_heap) [0x61] ∧
      query_has_match (prepare_needle [0xFF] zero_heap zero_heap) [0x61, 0x62] = true ∧
      ¬ SCORE_MIN <
        match_score sample_config (prepare_needle [0xFF] zero_heap zero_heap) [0x61, 0x62] ∧
      query_has_match (prepare_needle [0x61] zero_heap zero_heap) [0x61, 0x62] = true ∧
      ¬ SCORE_MIN <
        match_score steep_config (prepare_needle [0x61] zero_heap zero_heap) [0x61, 0x62] := by
  decide!

/-- C2, amended: for a needle of at least one code point, none of them `0`, and weights with
bonuses at least 0 and gap penalties at least `SCORE_MIN / MATCH_MAX_LEN`, the quick match
succeeds if and only if the score is above `SCORE_MIN`. -/
theorem has_match_iff_score (cfg : Config) (q : needle_info) (h : List Nat)
    (hn : q.len ≠ 0) (hz : no_zero q)
    (hb : ∀ a b, 0 ≤ cfg.COMPUTE_BONUS a b)
    (hl : SCORE_MIN ≤ MATCH_MAX_LEN * cfg.SCORE_GAP_LEADING)
    (ht : SCORE_MIN ≤ MATCH_MAX_LEN * cfg.SCORE_GAP_TRAILING)
    (hi : SCORE_MIN ≤ MATCH_MAX_LEN * cfg.SCORE_GAP_INNER) :
    query_has_match q h = true ↔ SCORE_MIN < match_score cfg q h := by
  constructor
  · intro hm
    exact score_gt_min cfg q h hn hz hm hb hl ht hi
  · intro hs
    by_contra hm
    rw [score_min_of_no_match cfg q h (by simpa using hm)] at hs
    exact lt_irrefl _ hs

theorem sample_gaps :
    SCORE_MIN ≤ MATCH_MAX_LEN * sample_config.SCORE_GAP_LEADING ∧
      SCORE_MIN ≤ MATCH_MAX_LEN * sample_config.SCORE_GAP_TRAILING ∧
      SCORE_MIN ≤ MATCH_MAX_LEN * sample_config.SCORE_GAP_INNER := by
  simp only [SCORE_MIN, MATCH_MAX_LEN, sample_config]
  norm_num

/-- C2, amended, at the needle `"amor"`, the haystack `"app/models/order.rb"` and the sample
weights. -/
theorem has_match_iff_score_witness :
    (prepare_needle amor zero_heap zero_heap).len ≠ 0 ∧
      no_zero (prepare_needle amor zero_heap zero_heap) ∧
      (∀ a b, 0 ≤ sample_config.COMPUTE_BONUS a b) ∧
      SCORE_MIN ≤ MATCH_MAX_LEN * sample_config.SCORE_GAP_LEADING ∧
      SCORE_MIN ≤ MATCH_MAX_LEN * sample_config.SCORE_GAP_TRAILING ∧
      SCORE_MIN ≤ MATCH_MAX_LEN * sample_config.SCORE_GAP_INNER ∧
      (query_has_match (prepare_needle amor zero_heap zero_heap) order_rb = true ↔
        SCORE_MIN < match_score sample_config (prepare_needle amor zero_heap zero_heap) order_rb) :=
  ⟨by decide, by unfold no_zero; decide, sample_bonus_nonneg, sample_gaps.1, sample_gaps.2.1,
    sample_gaps.2.2,
    has_match_iff_score sample_config (prepare_needle amor zero_heap zero_heap) order_rb
      (by decide) (by unfold no_zero; decide) sample_bonus_nonneg sample_gaps.1 sample_gaps.2.1
      sample_gaps.2.2⟩

/-- C5, as stated, fails: the needle prepared from the single byte `0xFF` (code point `0`)
passes the quick match on `"ab"` and the recurrence returns a score below `SCORE_MIN`.  So
does the needle `"a"` on `"ab"` when the trailing gap penalty is `-20`. -/
theorem score_below_min :
    match_score sample_config (prepare_needle [0xFF] zero_heap zero_heap) [0x61, 0x62] <
        SCORE_MIN ∧
      steep_config.SCORE_GAP_LEADING ≤ 0 ∧ steep_config.SCORE_GAP_TRAILING ≤ 0 ∧
      steep_config.SCORE_GAP_INNER ≤ 0 ∧
      match_score steep_config (prepare_needle [0x61] zero_heap zero_heap) [0x61, 0x62] <
        SCORE_MIN := by
  decide!

/-- C5, amended: for a needle without code point `0` and weights with bonuses at least 0 and
gap penalties at least `SCORE_MIN / MATCH_MAX_LEN`, the score is at least `SCORE_MIN`. -/
theorem score_ge_min (cfg : Config) (q : needle_info) (h : List Nat) (hz : no_zero q)
    (hb : ∀ a b, 0 ≤ cfg.COMPUTE_BONUS a b)
    (hl : SCORE_MIN ≤ MATCH_MAX_LEN * cfg.SCORE_GAP_LEADING)
    (ht : SCORE_MIN ≤ MATCH_MAX_LEN * cfg.SCORE_GAP_TRAILING)
    (hi : SCORE_MIN ≤ MATCH_MAX_LEN * cfg.SCORE_GAP_INNER) :
    SCORE_MIN ≤ match_score cfg q h := by
  by_cases hn : q.len = 0
  · rw [match_score, if_pos (Or.inl hn)]
  · by_cases hm : query_has_match q h = true
    · exact le_of_lt (score_gt_min cfg q h hn hz hm hb hl ht hi)
    · rw [score_min_of_no_match cfg q h (by simpa using hm)]

/-- C5, amended, at the needle `"amor"`, the haystack `"app/models/order.rb"` and the sample
weights. -/
theorem score_ge_min_witness :
    no_zero (prepare_needle amor zero_heap zero_heap) ∧
      (∀ a b, 0 ≤ sample_config.COMPUTE_BONUS a b) ∧
      SCORE_MIN ≤ MATCH_MAX_LEN * sample_config.SCORE_GAP_LEADING ∧
      SCORE_MIN ≤ MATCH_MAX_LEN * sample_config.SCORE_GAP_TRAILING ∧
      SCORE_MIN ≤ MATCH_MAX_LEN * sample_config.SCORE_GAP_INNER ∧
      SCORE_MIN ≤ match_score sample_config (prepare_needle amor zero_heap zero_heap) order_rb :=
  ⟨by unfold no_zero; decide, sample_bonus_nonneg, sample_gaps.1, sample_gaps.2.1,
    sample_gaps.2.2,
    score_ge_min sample_config (prepare_needle amor zero_heap zero_heap) order_rb
      (by unfold no_zero; decide) sample_bonus_nonneg sample_gaps.1 sample_gaps.2.1
      sample_gaps.2.2⟩

/-- C6: a haystack of 513 code points is not rejected.  For the needle `"aaa"` and the
haystack of 513 letters `a` the buffer holds `MATCH_MAX_LEN` code points after the scan, the
guard `m > MATCH_MAX_LEN` does not fire and the score is above `SCORE_MIN`. -/
theorem oversized_haystack_is_scored :
    (setup_haystack_and_match (prepare_needle [0x61, 0x61, 0x61] zero_heap zero_heap)
        blank_haystack (List.replicate 513 0x61)).2.len = MATCH_MAX_LEN ∧
      SCORE_MIN < match_score sample_config (prepare_needle [0x61, 0x61, 0x61] zero_heap zero_heap)
        (List.replicate 513 0x61) := by
  refine ⟨by decide!, ?_⟩
  exact score_gt_min sample_config _ _ (by decide) (by unfold no_zero; decide) (by decide!)
    sample_bonus_nonneg sample_gaps.1 sample_gaps.2.1 sample_gaps.2.2

/-- C4, as stated, fails: with gap penalties at most 0 and a consecutive bonus of 1, the
needle of 102 letters `a` scores more than `SCORE_MAX` on the haystack of 103 letters `a`. -/
theorem score_above_max :
    sample_config.SCORE_GAP_LEADING ≤ 0 ∧ sample_config.SCORE_GAP_TRAILING ≤ 0 ∧
      sample_config.SCORE_GAP_INNER ≤ 0 ∧ 0 < sample_config.SCORE_MATCH_CONSECUTIVE ∧
      SCORE_MAX < match_score sample_config
        (prepare_needle (List.replicate 102 0x61) zero_heap zero_heap)
        (List.replicate 103 0x61) := by
  have key := consecutive_run_score sample_config
    (prepare_needle (List.replicate 102 0x61) zero_heap zero_heap) (List.replicate 103 0x61) 101
    (by decide!) (by decide!) (by decide!) (by decide!)
  have hb : (hay_of sample_config (prepare_needle (List.replicate 102 0x61) zero_heap zero_heap)
      (List.replicate 103 0x61)).bonus.getD 0 0 = 9 / 10 := by decide!
  rw [hb] at key
  refine ⟨by norm_num [sample_config], by norm_num [sample_config], by norm_num [sample_config],
    by norm_num [sample_config], lt_of_lt_of_le ?_ key⟩
  norm_num [SCORE_MAX, sample_config]

/-- C4, amended: with gap penalties at most 0 and a bound `K ≥ 0` on every bonus and on
`SCORE_MATCH_CONSECUTIVE`, the score is at most `SCORE_MAX` for every needle of `n` code
points with `n * K ≤ SCORE_MAX`. -/
theorem score_le_max (cfg : Config) (q : needle_info) (h : List Nat) (K : score_t)
    (hK : 0 ≤ K) (hb : ∀ a b, cfg.COMPUTE_BONUS a b ≤ K)
    (hc : cfg.SCORE_MATCH_CONSECUTIVE ≤ K)
    (hl : cfg.SCORE_GAP_LEADING ≤ 0) (ht : cfg.SCORE_GAP_TRAILING ≤ 0)
    (hi : cfg.SCORE_GAP_INNER ≤ 0) (hq : (q.len : score_t) * K ≤ SCORE_MAX) :
    match_score cfg q h ≤ SCORE_MAX := by
  have hmm : SCORE_MIN ≤ SCORE_MAX := by norm_num [SCORE_MIN, SCORE_MAX]
  rw [match_score_eq]
  split_ifs with h1 h2 h3 h4
  · exact hmm
  · exact hmm
  · exact hmm
  · exact le_refl _
  · have hn : q.len ≠ 0 := fun e => h1 (Or.inl e)
    have hm : 0 < (hay_of cfg q h).len := by omega
    have key := (cells_le cfg q (hay_of cfg q h) K hK (hay_bonus_le cfg q h K hK hb) hc hl ht hi
      (q.len - 1) ((hay_of cfg q h).len - 1) (by omega)).2
    refine le_trans key (le_trans (le_of_eq ?_) hq)
    have e : ((q.len - 1 : Nat) : score_t) + 1 = (q.len : score_t) := by
      have : q.len - 1 + 1 = q.len := by omega
      exact_mod_cast this
    rw [e]

/-- C4, amended, at the needle `"amor"`, the haystack `"app/models/order.rb"`, the sample
weights and `K = 1`. -/
theorem score_le_max_witness :
    (0 : score_t) ≤ 1 ∧ (∀ a b, sample_config.COMPUTE_BONUS a b ≤ 1) ∧
      sample_config.SCORE_MATCH_CONSECUTIVE ≤ 1 ∧ sample_config.SCORE_GAP_LEADING ≤ 0 ∧
      sample_config.SCORE_GAP_TRAILING ≤ 0 ∧ sample_config.SCORE_GAP_INNER ≤ 0 ∧
      ((prepare_needle amor zero_heap zero_heap).len : score_t) * 1 ≤ SCORE_MAX ∧
      match_score sample_config (prepare_needle amor zero_heap zero_heap) order_rb ≤ SCORE_MAX :=
  ⟨by norm_num, fun a b => le_trans (sample_bonus_le a b) (by norm_num),
    by norm_num [sample_config], by norm_num [sample_config], by norm_num [sample_config],
    by norm_num [sample_config], by decide!,
    score_le_max sample_config (prepare_needle amor zero_heap zero_heap) order_rb 1
      (by norm_num) (fun a b => le_trans (sample_bonus_le a b) (by norm_num))
      (by norm_num [sample_config]) (by norm_num [sample_config]) (by norm_num [sample_config])
      (by norm_num [sample_config]) (by decide!)⟩

/-- C1: the needle of 32 letters `a`, for which `prepare_needle` grows the arrays with
`realloc` and leaves the cell `chars[32]` as the heap had it (here a stale `'a'`), against
the haystack of 32 letters `a`.  Needle code point `i` equals haystack code point `i` for
every `i < 32`, so the embedding `j_i = i` exists, and `query_has_match` returns false.  With
a zero in that cell the same strings give true. -/
theorem stale_terminator_rejects_match :
    (prepare_needle (List.replicate 32 0x61) stale_heap zero_heap).len = 32 ∧
      (setup_haystack_and_match (prepare_needle (List.replicate 32 0x61) stale_heap zero_heap)
        blank_haystack (List.replicate 32 0x61)).2.len = 32 ∧
      (∀ i, i < 32 →
        (setup_haystack_and_match (prepare_needle (List.replicate 32 0x61) stale_heap zero_heap)
          blank_haystack (List.replicate 32 0x61)).2.chars.getD i 0 =
        (prepare_needle (List.replicate 32 0x61) stale_heap zero_heap).chars.getD i 0) ∧
      query_has_match (prepare_needle (List.replicate 32 0x61) stale_heap zero_heap)
        (List.replicate 32 0x61) = false ∧
      query_has_match (prepare_needle (List.replicate 32 0x61) zero_heap zero_heap)
        (List.replicate 32 0x61) = true := by
  decide!

/-- C7: the needle of 32 letters `a` with a stale `'a'` in the cell `chars[32]` against the
haystack of 32 letters `a`: both have 32 code points, every haystack code point equals the
needle code point of the same index, and `match_score` returns `SCORE_MIN`.  With a zero in
that cell the same strings give `SCORE_MAX`. -/
theorem stale_terminator_scores_min :
    (prepare_needle (List.replicate 32 0x61) stale_heap zero_heap).len = 32 ∧
      (setup_haystack_and_match (prepare_needle (List.replicate 32 0x61) stale_heap zero_heap)
        blank_haystack (List.replicate 32 0x61)).2.len = 32 ∧
      (∀ i, i < 32 →
        (setup_haystack_and_match (prepare_needle (List.replicate 32 0x61) stale_heap zero_heap)
          blank_haystack (List.replicate 32 0x61)).2.chars.getD i 0 =
        (prepare_needle (List.replicate 32 0x61) stale_heap zero_heap).chars.getD i 0) ∧
      match_score sample_config (prepare_needle (List.replicate 32 0x61) stale_heap zero_heap)
        (List.replicate 32 0x61) = SCORE_MIN ∧
      match_score sample_config (prepare_needle (List.replicate 32 0x61) zero_heap zero_heap)
        (List.replicate 32 0x61) = SCORE_MAX := by
  decide!

theorem spec_fold_eq : spec_fold = upper_variant :=
  funext (fun c => (upper_variant_eq_spec_fold c).symm)

theorem setup_any (cfg : Config) (q : needle_info) (h : List Nat) (hay : haystack_info)
    (hne : byte_at h 0 ≠ 0) :
    (setup_haystack_and_match q hay h).2.len = (hay_of cfg q h).len ∧
      (setup_haystack_and_match q hay h).2.chars = (hay_of cfg q h).chars := by
  have e := hay_of_any cfg q h hay hne
  have e1 : (precompute_bonus cfg (setup_haystack_and_match q hay h).2).len =
      (hay_of cfg q h).len := congrArg haystack_info.len e
  have e2 : (precompute_bonus cfg (setup_haystack_and_match q hay h).2).chars =
      (hay_of cfg q h).chars := congrArg haystack_info.chars e
  exact ⟨e1, e2⟩

/-- In exact arithmetic: let the needle have at least one code point, none of them `0`,
each stored with its uppercase variant, and let `query_has_match` hold.  Let the weights
have bonuses between 0 and `K`, `SCORE_MATCH_CONSECUTIVE ≤ K`, gap penalties between `G` and
0 (the leading one at least `G`), and `SCORE_MIN + (n - 1) * K < (m - 1) * G` for the
haystack length `m`, so that no value built on the sentinel reaches the value of an
alignment.  Then `match_positions` writes every entry `positions[0..n-1]`, each index is
below the haystack length, the haystack code point there and the needle code point have the
same fold, and the indices increase strictly. -/
theorem positions_written (cfg : Config) (q : needle_info) (h : List Nat) (hay : haystack_info)
    (G K : score_t) (hn : q.len ≠ 0) (hz : no_zero q)
    (hu : ∀ i, i < q.len → q.unicode_upper.getD i 0 = upper_variant (q.chars.getD i 0))
    (hm : query_has_match q h = true)
    (hb0 : ∀ a b, 0 ≤ cfg.COMPUTE_BONUS a b) (hbK : ∀ a b, cfg.COMPUTE_BONUS a b ≤ K)
    (hc : cfg.SCORE_MATCH_CONSECUTIVE ≤ K)
    (hl : G ≤ cfg.SCORE_GAP_LEADING) (ht : G ≤ cfg.SCORE_GAP_TRAILING)
    (hi : G ≤ cfg.SCORE_GAP_INNER) (ht0 : cfg.SCORE_GAP_TRAILING ≤ 0)
    (hi0 : cfg.SCORE_GAP_INNER ≤ 0)
    (hS : SCORE_MIN + ((q.len : score_t) - 1) * K <
      (((setup_haystack_and_match q hay h).2.len : score_t) - 1) * G) :
    (∀ i, i < q.len → ∃ j,
      (match_positions cfg q h hay).2.getD i none = some j ∧
      j < (setup_haystack_and_match q hay h).2.len ∧
      spec_fold ((setup_haystack_and_match q hay h).2.chars.getD j 0) =
        spec_fold (q.chars.getD i 0)) ∧
    (∀ i i1 j j1, i < i1 → i1 < q.len →
      (match_positions cfg q h hay).2.getD i none = some j →
      (match_positions cfg q h hay).2.getD i1 none = some j1 → j < j1) := by
  have hne := has_match_nonempty q h hm
  have hlen := hay_len_le cfg q h hne
  have he := has_match_emb cfg q h hz hm
  have hnm := emb_le q _ _ _ he
  have hK : 0 ≤ K := le_trans (hb0 0 0) (hbK 0 0)
  have hG : G ≤ 0 := le_trans ht ht0
  obtain ⟨hslen, hschars⟩ := setup_any cfg q h hay hne
  have e1 : 1 + (q.len - 1) = q.len := by omega
  rw [hslen] at hS
  rw [match_positions_eq cfg q h hay hne, if_neg (by omega), e1, hslen, hschars, spec_fold_eq]
  simp only []
  have hT1 : ∀ i j, i < q.len → j < (hay_of cfg q h).len →
      SCORE_MIN < Dc cfg q (hay_of cfg q h) i j → hit q (hay_of cfg q h) i j := by
    intro i j _ hj hd
    by_contra hh
    rw [Dc_no_hit cfg q _ i j hj hh] at hd
    exact lt_irrefl _ hd
  have hT3 : ∀ i j, i < q.len → j < (hay_of cfg q h).len →
      emb q (hay_of cfg q h) (i + 1) (j + 1) →
      ∃ j1, j1 ≤ j ∧ hit q (hay_of cfg q h) i j1 ∧ emb q (hay_of cfg q h) i j1 ∧
        Dc cfg q (hay_of cfg q h) i j1 = Mc cfg q (hay_of cfg q h) i j1 ∧
        SCORE_MIN < Dc cfg q (hay_of cfg q h) i j1 := by
    intro i j hi1 hj
    refine reach_exists cfg q (hay_of cfg q h) G K (hay_bonus_nonneg cfg q h hb0) hK
      (hay_bonus_le cfg q h K hK hbK) hc hl ht hi ht0 hi0 i ?_ j hj
    intro j2 hj2
    have h1 : (i : score_t) * K ≤ ((q.len : score_t) - 1) * K := by
      refine mul_le_mul_of_nonneg_right ?_ hK
      have : (i : score_t) + 1 ≤ (q.len : score_t) := by exact_mod_cast hi1
      linarith
    have h2 : (((hay_of cfg q h).len : score_t) - 1) * G ≤ ((j2 : score_t) - i) * G := by
      have h3 : (j2 : score_t) - i ≤ ((hay_of cfg q h).len : score_t) - 1 := by
        have : (j2 : score_t) + 1 ≤ ((hay_of cfg q h).len : score_t) := by
          exact_mod_cast hj2
        have : (0 : score_t) ≤ (i : score_t) := Nat.cast_nonneg i
        linarith
      exact mul_le_mul_of_nonpos_right h3 hG
    linarith
  obtain ⟨_, hfill⟩ := backtrace_spec cfg q (hay_of cfg q h) q.len hT1 hT3 q.len
    (hay_of cfg q h).len false (List.replicate q.len none) (Nat.le_refl _) (Nat.le_refl _)
    (by simp) he
  obtain ⟨_, _, hinc⟩ := backtrace_increasing cfg (tableD cfg q (hay_of cfg q h) q.len)
    (tableM cfg q (hay_of cfg q h) q.len) q.len (hay_of cfg q h).len false
    (List.replicate q.len none) (by simp)
  have hnone : ∀ r, (List.replicate q.len (none : Option Nat)).getD r none = none := by
    intro r
    by_cases hr : r < q.len
    · simp [hr]
    · simp [hr]
  refine ⟨?_, ?_⟩
  · intro i hi1
    obtain ⟨j, h1, h2, h3⟩ := hfill i hi1
    refine ⟨j, h1, h2, ?_⟩
    rcases h3 with h3 | h3
    · rw [h3]
    · rw [h3, hu i hi1, upper_variant_idem]
  · intro i i1 j j1 hii hi1 hj hj1
    exact hinc i i1 j j1 hii hi1 (hnone i) (hnone i1) hj hj1

/-- The theorem `positions_written` at the needle `"amor"`, the haystack
`"app/models/order.rb"`, the sample weights, `G = -1/100` and `K = 1`. -/
theorem positions_written_witness :
    (prepare_needle amor zero_heap zero_heap).len ≠ 0 ∧
      no_zero (prepare_needle amor zero_heap zero_heap) ∧
      (∀ i, i < (prepare_needle amor zero_heap zero_heap).len →
        (prepare_needle amor zero_heap zero_heap).unicode_upper.getD i 0 =
          upper_variant ((prepare_needle amor zero_heap zero_heap).chars.getD i 0)) ∧
      query_has_match (prepare_needle amor zero_heap zero_heap) order_rb = true ∧
      (∀ a b, 0 ≤ sample_config.COMPUTE_BONUS a b) ∧
      (∀ a b, sample_config.COMPUTE_BONUS a b ≤ 1) ∧
      sample_config.SCORE_MATCH_CONSECUTIVE ≤ 1 ∧
      (-1 / 100 : score_t) ≤ sample_config.SCORE_GAP_LEADING ∧
      (-1 / 100 : score_t) ≤ sample_config.SCORE_GAP_TRAILING ∧
      (-1 / 100 : score_t) ≤ sample_config.SCORE_GAP_INNER ∧
      sample_config.SCORE_GAP_TRAILING ≤ 0 ∧ sample_config.SCORE_GAP_INNER ≤ 0 ∧
      SCORE_MIN + (((prepare_needle amor zero_heap zero_heap).len : score_t) - 1) * 1 <
        (((setup_haystack_and_match (prepare_needle amor zero_heap zero_heap) blank_haystack
          order_rb).2.len : score_t) - 1) * (-1 / 100) ∧
      ((∀ i, i < (prepare_needle amor zero_heap zero_heap).len → ∃ j,
        (match_positions sample_config (prepare_needle amor zero_heap zero_heap) order_rb
          blank_haystack).2.getD i none = some j ∧
        j < (setup_haystack_and_match (prepare_needle amor zero_heap zero_heap) blank_haystack
          order_rb).2.len ∧
        spec_fold ((setup_haystack_and_match (prepare_needle amor zero_heap zero_heap)
          blank_haystack order_rb).2.chars.getD j 0) =
          spec_fold ((prepare_needle amor zero_heap zero_heap).chars.getD i 0)) ∧
      (∀ i i1 j j1, i < i1 → i1 < (prepare_needle amor zero_heap zero_heap).len →
        (match_positions sample_config (prepare_needle amor zero_heap zero_heap) order_rb
          blank_haystack).2.getD i none = some j →
        (match_positions sample_config (prepare_needle amor zero_heap zero_heap) order_rb
          blank_haystack).2.getD i1 none = some j1 → j < j1)) :=
  ⟨by decide, by unfold no_zero; decide, (prepare_needle_paired amor zero_heap zero_heap).2.2,
    by decide, sample_bonus_nonneg, fun a b => le_trans (sample_bonus_le a b) (by norm_num),
    by norm_num [sample_config], by norm_num [sample_config], by norm_num [sample_config],
    by norm_num [sample_config], by norm_num [sample_config], by norm_num [sample_config],
    by decide!,
    positions_written sample_config (prepare_needle amor zero_heap zero_heap) order_rb
      blank_haystack (-1 / 100) 1 (by decide) (by unfold no_zero; decide)
      (prepare_needle_paired amor zero_heap zero_heap).2.2 (by decide) sample_bonus_nonneg
      (fun a b => le_trans (sample_bonus_le a b) (by norm_num)) (by norm_num [sample_config])
      (by norm_num [sample_config]) (by norm_num [sample_config]) (by norm_num [sample_config])
      (by norm_num [sample_config]) (by norm_num [sample_config]) (by decide!)⟩

theorem and_mask (x k : Nat) : x &&& (2 ^ k - 1) = x % 2 ^ k :=
  Nat.and_pow_two_sub_one_eq_mod x k

theorem shl_or (a b k : Nat) (hb : b < 2 ^ k) : (a <<< k) ||| b = a * 2 ^ k + b := by
  rw [Nat.shiftLeft_eq, Nat.mul_comm, ← Nat.mul_add_lt_is_or hb]

theorem byte_at_cons_zero (a : Nat) (l : List Nat) : byte_at (a :: l) 0 = a % 256 := rfl

theorem byte_at_cons_succ (a : Nat) (l : List Nat) (i : Nat) :
    byte_at (a :: l) (i + 1) = byte_at l i := rfl

theorem continuation_bits (b : Nat) (hb : b < 64) : (0x80 + b) % 256 &&& 0x3F = b := by
  rw [show (0x3F : Nat) = 2 ^ 6 - 1 from rfl, and_mask]; omega

theorem decode_two (a b : Nat) (rest : List Nat) (ha : a < 32) (hb : b < 64) :
    utf8_to_codepoint ((0xC0 + a) :: (0x80 + b) :: rest) = (a * 64 + b, 2) := by
  have e0 : byte_at ((0xC0 + a) :: (0x80 + b) :: rest) 0 = 0xC0 + a := by
    rw [byte_at_cons_zero]; omega
  unfold utf8_to_codepoint
  simp only [e0, byte_at_cons_succ, byte_at_cons_zero]
  rw [if_neg (by omega), if_pos (by omega)]
  have m1 : (0xC0 + a) &&& 0x1F = a := by
    rw [show (0x1F : Nat) = 2 ^ 5 - 1 from rfl, and_mask]; omega
  rw [m1, continuation_bits b hb, shl_or a b 6 (by omega)]
  norm_num

theorem decode_three (a b c : Nat) (rest : List Nat) (ha : a < 16) (hb : b < 64) (hc : c < 64) :
    utf8_to_codepoint ((0xE0 + a) :: (0x80 + b) :: (0x80 + c) :: rest) =
      (a * 4096 + b * 64 + c, 3) := by
  have e0 : byte_at ((0xE0 + a) :: (0x80 + b) :: (0x80 + c) :: rest) 0 = 0xE0 + a := by
    rw [byte_at_cons_zero]; omega
  unfold utf8_to_codepoint
  simp only [e0, byte_at_cons_succ, byte_at_cons_zero]
  rw [if_neg (by omega), if_neg (by omega), if_pos (by omega)]
  have m1 : (0xE0 + a) &&& 0x0F = a := by
    rw [show (0x0F : Nat) = 2 ^ 4 - 1 from rfl, and_mask]; omega
  rw [m1, continuation_bits b hb, continuation_bits c hc, Nat.or_assoc, shl_or b c 6 (by omega),
    shl_or a (b * 2 ^ 6 + c) 12 (by omega)]
  norm_num
  omega

theorem decode_four (a b c d : Nat) (rest : List Nat) (ha : a < 8) (hb : b < 64) (hc : c < 64)
    (hd : d < 64) :
    utf8_to_codepoint ((0xF0 + a) :: (0x80 + b) :: (0x80 + c) :: (0x80 + d) :: rest) =
      (a * 262144 + b * 4096 + c * 64 + d, 4) := by
  have e0 : byte_at ((0xF0 + a) :: (0x80 + b) :: (0x80 + c) :: (0x80 + d) :: rest) 0 =
      0xF0 + a := by
    rw [byte_at_cons_zero]; omega
  unfold utf8_to_codepoint
  simp only [e0, byte_at_cons_succ, byte_at_cons_zero]
  rw [if_neg (by omega), if_neg (by omega), if_neg (by omega), if_pos (by omega)]
  have m1 : (0xF0 + a) &&& 0x07 = a := by
    rw [show (0x07 : Nat) = 2 ^ 3 - 1 from rfl, and_mask]; omega
  rw [m1, continuation_bits b hb, continuation_bits c hc, continuation_bits d hd, Nat.or_assoc,
    Nat.or_assoc, shl_or c d 6 (by omega), shl_or b (c * 2 ^ 6 + d) 12 (by omega),
    shl_or a (b * 2 ^ 12 + (c * 2 ^ 6 + d)) 18 (by omega)]
  norm_num
  omega

/-! ## Alignments and their scores -/

theorem align_score_congr (cfg : Config) (hay : haystack_info) (p p1 : Nat → Nat) (i : Nat)
    (h : ∀ r, r ≤ i → p r = p1 r) : align_score cfg hay p i = align_score cfg hay p1 i := by
  induction i with
  | zero =>
    unfold align_score
    rw [h 0 (Nat.le_refl _)]
  | succ i ih =>
    rw [align_score, align_score, ih (fun r hr => h r (by omega)), h i (by omega),
      h (i + 1) (Nat.le_refl _)]

theorem alignment_mono (q : needle_info) (hay : haystack_info) (p : Nat → Nat)
    (n n1 bound bound1 : Nat) (hn : n1 ≤ n) (hb : bound ≤ bound1)
    (h : alignment q hay p n bound) : alignment q hay p n1 bound1 :=
  ⟨fun i hi => ⟨by have := (h.1 i (by omega)).1; omega, (h.1 i (by omega)).2⟩,
    fun i hi => h.2 i (by omega)⟩

theorem alignment_ge (q : needle_info) (hay : haystack_info) (p : Nat → Nat) (n bound : Nat)
    (h : alignment q hay p n bound) : ∀ i, i < n → i ≤ p i := by
  intro i
  induction i with
  | zero => intro _; exact Nat.zero_le _
  | succ i ih =>
    intro hi
    have := ih (by omega)
    have := h.2 i hi
    omega

theorem gap_of_inner (cfg : Config) (q : needle_info) (i : Nat) (hi : i + 1 < q.len) :
    gap_of cfg q i = cfg.SCORE_GAP_INNER := by
  unfold gap_of
  rw [if_neg (by omega)]

theorem gap_of_last (cfg : Config) (q : needle_info) (hn : q.len ≠ 0) :
    gap_of cfg q (q.len - 1) = cfg.SCORE_GAP_TRAILING := by
  unfold gap_of
  rw [if_pos (by omega)]

/-! ## Relations between neighbouring cells -/

theorem Dc_le_Mc (cfg : Config) (q : needle_info) (hay : haystack_info) (i j : Nat)
    (hj : j < hay.len) (h0 : i = 0 → hit q hay 0 j) (h1 : i ≠ 0 → j ≠ 0) :
    Dc cfg q hay i j ≤ Mc cfg q hay i j := by
  cases i with
  | zero =>
    cases j with
    | zero =>
      rw [Mc_zero_zero cfg q hay hj, if_pos (h0 rfl)]
      exact le_MAX_left _ _
    | succ j =>
      rw [Mc_zero_succ cfg q hay j hj, if_pos (h0 rfl)]
      exact le_MAX_left _ _
  | succ i =>
    cases j with
    | zero => exact absurd rfl (h1 (Nat.succ_ne_zero i))
    | succ j =>
      rw [Mc_succ_succ cfg q hay i j hj]
      exact le_MAX_left _ _

theorem Mc_step (cfg : Config) (q : needle_info) (hay : haystack_info) (i j : Nat)
    (hj : j + 1 < hay.len) :
    Mc cfg q hay i j + gap_of cfg q i ≤ Mc cfg q hay i (j + 1) := by
  cases i with
  | zero =>
    rw [Mc_zero_succ cfg q hay j hj]
    split_ifs
    · exact le_MAX_right _ _
    · exact le_refl _
  | succ i =>
    rw [Mc_succ_succ cfg q hay i j hj]
    exact le_MAX_right _ _

theorem Mc_upper (cfg : Config) (q : needle_info) (hay : haystack_info) (i j : Nat)
    (hj : j + 1 < hay.len) (X : score_t) (h1 : Dc cfg q hay i (j + 1) ≤ X)
    (h2 : Mc cfg q hay i j + gap_of cfg q i ≤ X) : Mc cfg q hay i (j + 1) ≤ X := by
  cases i with
  | zero =>
    rw [Mc_zero_succ cfg q hay j hj]
    split_ifs
    · exact MAX_le h1 h2
    · exact h2
  | succ i =>
    rw [Mc_succ_succ cfg q hay i j hj]
    exact MAX_le h1 h2

theorem Mc_upper_zero (cfg : Config) (q : needle_info) (hay : haystack_info) (i : Nat)
    (hj : 0 < hay.len) (X : score_t) (h1 : Dc cfg q hay i 0 ≤ X)
    (h2 : SCORE_MIN + gap_of cfg q i ≤ X) : Mc cfg q hay i 0 ≤ X := by
  cases i with
  | zero =>
    rw [Mc_zero_zero cfg q hay hj]
    split_ifs
    · exact MAX_le h1 h2
    · exact h2
  | succ i =>
    rw [Mc_succ_zero]
    exact h2

/-! ## Every alignment is dominated by the cells -/

theorem tail_le_Mc (cfg : Config) (q : needle_info) (hay : haystack_info) (i a : Nat)
    (S : score_t) (hh : i = 0 → hit q hay 0 a) (h1 : i ≠ 0 → a ≠ 0)
    (hD : S ≤ Dc cfg q hay i a) :
    ∀ j, a ≤ j → j < hay.len →
      S + ((j : score_t) - a) * gap_of cfg q i ≤ Mc cfg q hay i j := by
  intro j haj
  induction j, haj using Nat.le_induction with
  | base =>
    intro hj
    have := Dc_le_Mc cfg q hay i a hj hh h1
    rw [sub_self, zero_mul, add_zero]
    exact le_trans hD this
  | succ j haj ih =>
    intro hj
    have h2 := ih (by omega)
    have h3 := Mc_step cfg q hay i j hj
    have e : ((j + 1 : Nat) : score_t) - a = ((j : score_t) - a) + 1 := by push_cast; ring
    rw [e, add_mul, one_mul]
    linarith

theorem align_le_cells (cfg : Config) (q : needle_info) (hay : haystack_info) (p : Nat → Nat)
    (i : Nat) (hi : i < q.len) (hal : alignment q hay p (i + 1) hay.len) :
    align_score cfg hay p i ≤ Dc cfg q hay i (p i) ∧
      ∀ j, p i ≤ j → j < hay.len →
        align_score cfg hay p i + ((j : score_t) - p i) * gap_of cfg q i ≤ Mc cfg q hay i j := by
  induction i with
  | zero =>
    have hh := (hal.1 0 (by omega)).2
    have hb := (hal.1 0 (by omega)).1
    have hD : align_score cfg hay p 0 ≤ Dc cfg q hay 0 (p 0) := by
      rw [Dc_zero cfg q hay (p 0) hb, if_pos hh]
      exact le_refl _
    exact ⟨hD, tail_le_Mc cfg q hay 0 (p 0) _ (fun _ => hh) (fun h => absurd rfl h) hD⟩
  | succ i ih =>
    obtain ⟨ihD, ihM⟩ := ih (by omega) (alignment_mono q hay p _ _ _ _ (by omega)
      (Nat.le_refl _) hal)
    have hh := (hal.1 (i + 1) (by omega)).2
    have hb := (hal.1 (i + 1) (by omega)).1
    have hlt := hal.2 i (by omega)
    have hgap := gap_of_inner cfg q i hi
    obtain ⟨a, ha⟩ : ∃ a, p (i + 1) = a + 1 := ⟨p (i + 1) - 1, by omega⟩
    have hD : align_score cfg hay p (i + 1) ≤ Dc cfg q hay (i + 1) (p (i + 1)) := by
      rw [ha] at hh hb
      rw [align_score, align_step, ha, Dc_succ_succ cfg q hay i a hb, if_pos hh]
      by_cases hc : a + 1 = p i + 1
      · have hpa : p i = a := by omega
        rw [if_pos hc, hpa]
        rw [hpa] at ihD
        have hM := ihM a (by omega) (by omega)
        rw [hpa, sub_self, zero_mul, add_zero] at hM
        rcases le_total (hay.bonus.getD (a + 1) 0) cfg.SCORE_MATCH_CONSECUTIVE with hle | hle
        · rw [max_eq_right hle]
          refine le_trans ?_ (le_MAX_right _ _)
          push_cast
          linarith
        · rw [max_eq_left hle]
          refine le_trans ?_ (le_MAX_left _ _)
          push_cast
          linarith
      · rw [if_neg hc]
        have hM := ihM a (by omega) (by omega)
        rw [hgap] at hM
        refine le_trans ?_ (le_MAX_left _ _)
        push_cast
        linarith
    exact ⟨hD, tail_le_Mc cfg q hay (i + 1) (p (i + 1)) _ (fun h => absurd h (Nat.succ_ne_zero i))
      (fun _ => by omega) hD⟩

/-! ## Every cell that an embedding reaches is the score of an alignment -/

theorem alignment_extend (cfg : Config) (q : needle_info) (hay : haystack_info) (p : Nat → Nat)
    (i j : Nat) (hal : alignment q hay p (i + 1) (j + 1)) (hh : hit q hay (i + 1) (j + 1)) :
    alignment q hay (Function.update p (i + 1) (j + 1)) (i + 1 + 1) (j + 1 + 1) ∧
      Function.update p (i + 1) (j + 1) (i + 1) = j + 1 ∧
      align_score cfg hay (Function.update p (i + 1) (j + 1)) (i + 1) =
        align_score cfg hay p i + align_step cfg hay (p i) (j + 1) := by
  have hold : ∀ r, r ≤ i → Function.update p (i + 1) (j + 1) r = p r := by
    intro r hr
    exact Function.update_noteq (by omega) _ _
  have hnew : Function.update p (i + 1) (j + 1) (i + 1) = j + 1 := Function.update_same _ _ _
  refine ⟨⟨?_, ?_⟩, hnew, ?_⟩
  · intro r hr
    rcases Nat.lt_or_ge r (i + 1) with hlt | hge
    · rw [hold r (by omega)]
      exact ⟨by have := (hal.1 r hlt).1; omega, (hal.1 r hlt).2⟩
    · have e : r = i + 1 := by omega
      rw [e, hnew]
      exact ⟨Nat.lt_succ_self _, hh⟩
  · intro r hr
    rcases Nat.lt_or_ge (r + 1) (i + 1) with hlt | hge
    · rw [hold r (by omega), hold (r + 1) (by omega)]
      exact hal.2 r hlt
    · have e : r = i := by omega
      rw [e, hnew, hold i (Nat.le_refl _)]
      exact (hal.1 i (Nat.lt_succ_self i)).1
  · rw [align_score, hnew, hold i (Nat.le_refl _)]
    rw [align_score_congr cfg hay _ p i hold]

theorem attained_row (cfg : Config) (q : needle_info) (hay : haystack_info) (G K : score_t)
    (hb0 : ∀ j, 0 ≤ hay.bonus.getD j 0) (hK : 0 ≤ K) (hbK : ∀ j, hay.bonus.getD j 0 ≤ K)
    (hc : cfg.SCORE_MATCH_CONSECUTIVE ≤ K)
    (hl : G ≤ cfg.SCORE_GAP_LEADING) (ht : G ≤ cfg.SCORE_GAP_TRAILING)
    (hi : G ≤ cfg.SCORE_GAP_INNER) (ht0 : cfg.SCORE_GAP_TRAILING ≤ 0)
    (hi0 : cfg.SCORE_GAP_INNER ≤ 0) (i : Nat)
    (hS : ∀ j, j < hay.len → SCORE_MIN + (i : score_t) * K < ((j : score_t) - i) * G)
    (hD : ∀ j, j < hay.len → hit q hay i j → emb q hay i j →
      ∃ p, alignment q hay p (i + 1) (j + 1) ∧ p i = j ∧
        Dc cfg q hay i j ≤ align_score cfg hay p i) :
    ∀ j, j < hay.len → emb q hay (i + 1) (j + 1) →
      ∃ p, alignment q hay p (i + 1) (j + 1) ∧
        Mc cfg q hay i j ≤ align_score cfg hay p i + ((j : score_t) - p i) * gap_of cfg q i := by
  have hgap : ∀ r, gap_of cfg q r ≤ 0 := gap_of_le cfg q 0 ht0 hi0
  have hgapG : ∀ r, G ≤ gap_of cfg q r := gap_of_ge cfg q G ht hi
  have hiK : 0 ≤ (i : score_t) * K := mul_nonneg (Nat.cast_nonneg i) hK
  have hlow := reach_lower cfg q hay G hb0 hl ht hi i
  have hup := sentinel_upper cfg q hay K hK hbK hc ht0 hi0 i
  intro j
  induction j with
  | zero =>
    intro hj he
    rcases he with he | ⟨hh, he⟩
    · exact absurd he (by simp [emb])
    · obtain ⟨p, hp, hp0, hpD⟩ := hD 0 hj hh he
      refine ⟨p, hp, ?_⟩
      have hd := (hlow 0 hj).2 hh he
      have hs := hS 0 hj
      have hg := hgap i
      rw [hp0, sub_self, zero_mul, add_zero]
      refine Mc_upper_zero cfg q hay i hj _ hpD ?_
      linarith
  | succ j ih =>
    intro hj he
    have hs := hS (j + 1) hj
    have hg := hgap i
    have hgG := hgapG i
    have e1 : ((j + 1 : Nat) : score_t) = (j : score_t) + 1 := by push_cast; ring
    by_cases hr : hit q hay i (j + 1) ∧ emb q hay i (j + 1)
    · obtain ⟨p1, hp1, hp1j, hp1D⟩ := hD (j + 1) hj hr.1 hr.2
      have hd := (hlow (j + 1) hj).2 hr.1 hr.2
      by_cases he1 : emb q hay (i + 1) (j + 1)
      · obtain ⟨p2, hp2, hp2M⟩ := ih (by omega) he1
        by_cases hcmp : Mc cfg q hay i j + gap_of cfg q i ≤ Dc cfg q hay i (j + 1)
        · refine ⟨p1, hp1, ?_⟩
          rw [hp1j, sub_self, zero_mul, add_zero]
          exact Mc_upper cfg q hay i j hj _ hp1D (le_trans hcmp hp1D)
        · refine ⟨p2, alignment_mono q hay p2 _ _ _ _ (Nat.le_refl _) (by omega) hp2, ?_⟩
          have e2 : ((j + 1 : Nat) : score_t) - p2 i = ((j : score_t) - p2 i) + 1 := by
            rw [e1]; ring
          rw [e2, add_mul, one_mul]
          refine Mc_upper cfg q hay i j hj _ ?_ ?_
          · have := not_le.mp hcmp
            linarith
          · linarith
      · refine ⟨p1, hp1, ?_⟩
        have hm := (hup j (by omega)).1 he1
        rw [hp1j, sub_self, zero_mul, add_zero]
        refine Mc_upper cfg q hay i j hj _ hp1D ?_
        linarith
    · rcases he with he | he
      · obtain ⟨p2, hp2, hp2M⟩ := ih (by omega) he
        refine ⟨p2, alignment_mono q hay p2 _ _ _ _ (Nat.le_refl _) (by omega) hp2, ?_⟩
        have hd := (hup (j + 1) hj).2 hr
        have hm := (hlow j (by omega)).1 he
        have e2 : ((j + 1 : Nat) : score_t) - p2 i = ((j : score_t) - p2 i) + 1 := by
          rw [e1]; ring
        rw [e2, add_mul, one_mul]
        refine Mc_upper cfg q hay i j hj _ ?_ ?_
        · rw [e1] at hs
          have e3 : ((j : score_t) + 1 - i) * G = ((j : score_t) - i) * G + G := by ring
          rw [e3] at hs
          linarith
        · linarith
      · exact absurd he hr

theorem cells_attained (cfg : Config) (q : needle_info) (hay : haystack_info) (G K : score_t)
    (hb0 : ∀ j, 0 ≤ hay.bonus.getD j 0) (hK : 0 ≤ K) (hbK : ∀ j, hay.bonus.getD j 0 ≤ K)
    (hc : cfg.SCORE_MATCH_CONSECUTIVE ≤ K)
    (hl : G ≤ cfg.SCORE_GAP_LEADING) (ht : G ≤ cfg.SCORE_GAP_TRAILING)
    (hi : G ≤ cfg.SCORE_GAP_INNER) (ht0 : cfg.SCORE_GAP_TRAILING ≤ 0)
    (hi0 : cfg.SCORE_GAP_INNER ≤ 0)
    (hS : ∀ r j, r < q.len → j < hay.len →
      SCORE_MIN + (r : score_t) * K < ((j : score_t) - r) * G)
    (i : Nat) (hiq : i < q.len) :
    ∀ j, j < hay.len →
      (emb q hay (i + 1) (j + 1) →
        ∃ p, alignment q hay p (i + 1) (j + 1) ∧
          Mc cfg q hay i j ≤
            align_score cfg hay p i + ((j : score_t) - p i) * gap_of cfg q i) ∧
      (hit q hay i j → emb q hay i j →
        ∃ p, alignment q hay p (i + 1) (j + 1) ∧ p i = j ∧
          Dc cfg q hay i j ≤ align_score cfg hay p i) := by
  induction i with
  | zero =>
    have hD : ∀ j, j < hay.len → hit q hay 0 j → emb q hay 0 j →
        ∃ p, alignment q hay p (0 + 1) (j + 1) ∧ p 0 = j ∧
          Dc cfg q hay 0 j ≤ align_score cfg hay p 0 := by
      intro j hj hh _
      refine ⟨fun _ => j, ⟨?_, ?_⟩, rfl, ?_⟩
      · intro r hr
        have e : r = 0 := by omega
        rw [e]
        exact ⟨Nat.lt_succ_self j, hh⟩
      · intro r hr
        omega
      · rw [Dc_zero cfg q hay j hj, if_pos hh]
        exact le_refl _
    intro j hj
    exact ⟨attained_row cfg q hay G K hb0 hK hbK hc hl ht hi ht0 hi0 0 (fun j hj => hS 0 j hiq hj)
      hD j hj, hD j hj⟩
  | succ i ih =>
    have ih1 := ih (by omega)
    have hgap := gap_of_inner cfg q i hiq
    have hD : ∀ j, j < hay.len → hit q hay (i + 1) j → emb q hay (i + 1) j →
        ∃ p, alignment q hay p (i + 1 + 1) (j + 1) ∧ p (i + 1) = j ∧
          Dc cfg q hay (i + 1) j ≤ align_score cfg hay p (i + 1) := by
      intro j hj hh he
      cases j with
      | zero => exact absurd he (by simp [emb])
      | succ j =>
        obtain ⟨ihM, ihD⟩ := ih1 j (by omega)
        obtain ⟨p2, hp2, hp2M⟩ := ihM he
        rw [hgap] at hp2M
        rw [Dc_succ_succ cfg q hay i j hj, if_pos hh]
        by_cases hxy : Dc cfg q hay i j + cfg.SCORE_MATCH_CONSECUTIVE ≤
            Mc cfg q hay i j + hay.bonus.getD (j + 1) 0
        · obtain ⟨h1, h2, h3⟩ := alignment_extend cfg q hay p2 i j hp2 hh
          refine ⟨_, h1, h2, ?_⟩
          rw [h3, MAX_eq_left hxy, align_step]
          have e : ((j + 1 : Nat) : score_t) - p2 i - 1 = (j : score_t) - p2 i := by
            push_cast; ring
          rw [e]
          have hb : hay.bonus.getD (j + 1) 0 ≤
              (if j + 1 = p2 i + 1 then
                max (hay.bonus.getD (j + 1) 0) cfg.SCORE_MATCH_CONSECUTIVE
              else hay.bonus.getD (j + 1) 0) := by
            split_ifs
            · exact le_max_left _ _
            · exact le_refl _
          linarith
        · have hxy1 := not_le.mp hxy
          have hreach : hit q hay i j ∧ emb q hay i j := by
            by_contra hno
            have hd := (sentinel_upper cfg q hay K hK hbK hc ht0 hi0 i j (by omega)).2 hno
            have hm := (reach_lower cfg q hay G hb0 hl ht hi i j (by omega)).1 he
            have hs := hS (i + 1) (j + 1) hiq hj
            have hb := hb0 (j + 1)
            have e : ((j + 1 : Nat) : score_t) - ((i + 1 : Nat) : score_t) = (j : score_t) - i := by
              push_cast; ring
            rw [e] at hs
            have e2 : ((i + 1 : Nat) : score_t) * K = (i : score_t) * K + K := by
              push_cast; ring
            rw [e2] at hs
            linarith
          obtain ⟨p1, hp1, hp1j, hp1D⟩ := ihD hreach.1 hreach.2
          obtain ⟨h1, h2, h3⟩ := alignment_extend cfg q hay p1 i j hp1 hh
          refine ⟨_, h1, h2, ?_⟩
          have hmax : MAX (Mc cfg q hay i j + hay.bonus.getD (j + 1) 0)
              (Dc cfg q hay i j + cfg.SCORE_MATCH_CONSECUTIVE) =
              Dc cfg q hay i j + cfg.SCORE_MATCH_CONSECUTIVE := by
            unfold MAX
            rw [if_neg (not_lt.mpr (le_of_lt hxy1))]
          rw [h3, hmax, align_step, hp1j, if_pos rfl]
          have e : ((j + 1 : Nat) : score_t) - j - 1 = 0 := by push_cast; ring
          rw [e, zero_mul, zero_add]
          have := le_max_right (hay.bonus.getD (j + 1) 0) cfg.SCORE_MATCH_CONSECUTIVE
          linarith
    intro j hj
    exact ⟨attained_row cfg q hay G K hb0 hK hbK hc hl ht hi ht0 hi0 (i + 1)
      (fun j hj => hS (i + 1) j hiq hj) hD j hj, hD j hj⟩

/-! ## Alignments and embeddings -/

theorem alignment_lt (q : needle_info) (hay : haystack_info) (p : Nat → Nat) (n bound : Nat)
    (h : alignment q hay p n bound) : ∀ s, s < n → ∀ r, r < s → p r < p s := by
  intro s
  induction s with
  | zero => intro _ r hr; omega
  | succ s ih =>
    intro hs r hr
    have h1 := h.2 s hs
    rcases Nat.lt_or_ge r s with hlt | hge
    · have := ih (by omega) r hlt
      omega
    · have e : r = s := by omega
      rw [e]
      exact h1

theorem alignment_emb (q : needle_info) (hay : haystack_info) (p : Nat → Nat) (n : Nat) :
    ∀ bound, alignment q hay p n bound → emb q hay n bound := by
  induction n with
  | zero => intro bound _; exact emb_zero q hay bound
  | succ n ih =>
    intro bound h
    have hlt := alignment_lt q hay p _ _ h n (Nat.lt_succ_self n)
    have hn := h.1 n (Nat.lt_succ_self n)
    have hpre : alignment q hay p n (p n) :=
      ⟨fun i hi => ⟨hlt i hi, (h.1 i (by omega)).2⟩, fun i hi => h.2 i (by omega)⟩
    have hstep : emb q hay (n + 1) (p n + 1) := Or.inr ⟨hn.2, ih _ hpre⟩
    exact emb_le_col q hay (n + 1) (p n + 1) bound (by omega) hstep

theorem alignment_snoc (q : needle_info) (hay : haystack_info) (p : Nat → Nat) (n j : Nat)
    (hal : alignment q hay p n j) (hh : hit q hay n j) :
    alignment q hay (Function.update p n j) (n + 1) (j + 1) ∧ Function.update p n j n = j := by
  have hold : ∀ r, r < n → Function.update p n j r = p r := by
    intro r hr
    exact Function.update_noteq (by omega) _ _
  have hnew : Function.update p n j n = j := Function.update_same _ _ _
  refine ⟨⟨?_, ?_⟩, hnew⟩
  · intro r hr
    rcases Nat.lt_or_ge r n with hlt | hge
    · rw [hold r hlt]
      exact ⟨by have := (hal.1 r hlt).1; omega, (hal.1 r hlt).2⟩
    · have e : r = n := by omega
      rw [e, hnew]
      exact ⟨Nat.lt_succ_self _, hh⟩
  · intro r hr
    rcases Nat.lt_or_ge (r + 1) n with hlt | hge
    · rw [hold r (by omega), hold (r + 1) hlt]
      exact hal.2 r hlt
    · have e : r + 1 = n := by omega
      rw [e, hnew, hold r (by omega)]
      exact (hal.1 r (by omega)).1

theorem emb_alignment (q : needle_info) (hay : haystack_info) (j : Nat) :
    ∀ i, emb q hay i j → ∃ p, alignment q hay p i j := by
  induction j with
  | zero =>
    intro i he
    have : i = 0 := by
      have := emb_le q hay i 0 he; omega
    subst this
    exact ⟨fun _ => 0, fun r hr => absurd hr (Nat.not_lt_zero r), fun r hr => by omega⟩
  | succ j ih =>
    intro i he
    cases i with
    | zero => exact ⟨fun _ => 0, fun r hr => absurd hr (Nat.not_lt_zero r), fun r hr => by omega⟩
    | succ i =>
      rcases he with he | ⟨hh, he⟩
      · obtain ⟨p, hp⟩ := ih (i + 1) he
        exact ⟨p, alignment_mono q hay p _ _ _ _ (Nat.le_refl _) (by omega) hp⟩
      · obtain ⟨p, hp⟩ := ih i he
        exact ⟨_, (alignment_snoc q hay p i j hp hh).1⟩

/-- The embeddings of `emb` are the position vectors of `alignment`. -/
theorem emb_iff_alignment (q : needle_info) (hay : haystack_info) (i j : Nat) :
    emb q hay i j ↔ ∃ p, alignment q hay p i j :=
  ⟨emb_alignment q hay j i, fun ⟨p, hp⟩ => alignment_emb q hay p i j hp⟩

/-- A cell `(i, j)` is the end of an alignment exactly when its column matches and the
needle prefix before row `i` embeds into the columns before `j`. -/
theorem ends_iff_alignment (q : needle_info) (hay : haystack_info) (i j : Nat) :
    (hit q hay i j ∧ emb q hay i j) ↔ ∃ p, alignment q hay p (i + 1) (j + 1) ∧ p i = j := by
  constructor
  · intro ⟨hh, he⟩
    obtain ⟨p, hp⟩ := emb_alignment q hay j i he
    exact ⟨_, alignment_snoc q hay p i j hp hh⟩
  · intro ⟨p, hp, hpj⟩
    have hlt := alignment_lt q hay p _ _ hp i (Nat.lt_succ_self i)
    have hn := hp.1 i (Nat.lt_succ_self i)
    rw [hpj] at hn hlt
    refine ⟨hn.2, alignment_emb q hay p i j ?_⟩
    exact ⟨fun r hr => ⟨hlt r hr, (hp.1 r (by omega)).2⟩, fun r hr => hp.2 r (by omega)⟩

/-! ## The quick match on a folded haystack -/

theorem needle_step_mono (q : needle_info)
    (hu : ∀ i, i < q.len → q.unicode_upper.getD i 0 = upper_variant (q.chars.getD i 0))
    (hterm : q.chars.getD q.len 0 = 0) (k k1 x : Nat) (hk : k ≤ k1) (hk1 : k1 ≤ q.len) :
    needle_step q k x ≤ needle_step q k1 (upper_variant x) ∧
      needle_step q k1 (upper_variant x) ≤ q.len := by
  have hle : ∀ y, needle_step q k1 y ≤ q.len := by
    intro y
    unfold needle_step
    split_ifs with hc
    · rcases Nat.lt_or_ge k1 q.len with hlt | hge
      · omega
      · have : k1 = q.len := by omega
        subst this
        exact absurd hterm hc.1
    · exact hk1
  refine ⟨?_, hle _⟩
  rcases Nat.lt_or_ge k k1 with hlt | hge
  · have h1 : needle_step q k x ≤ k + 1 := by
      unfold needle_step
      split_ifs <;> omega
    have h2 := needle_step_ge q k1 (upper_variant x)
    omega
  · have e : k1 = k := by omega
    subst e
    by_cases hc : q.chars.getD k1 0 ≠ 0 ∧ (x = q.chars.getD k1 0 ∨ x = q.unicode_upper.getD k1 0)
    · have hlen : k1 < q.len := by
        rcases Nat.lt_or_ge k1 q.len with hlt | hge
        · exact hlt
        · have : k1 = q.len := by omega
          subst this
          exact absurd hterm hc.1
      have hx : upper_variant x = q.unicode_upper.getD k1 0 := by
        rcases hc.2 with h1 | h1
        · rw [h1, hu k1 hlen]
        · rw [h1, hu k1 hlen, upper_variant_idem]
      have e1 : needle_step q k1 x = k1 + 1 := by
        unfold needle_step
        rw [if_pos hc]
      have e2 : needle_step q k1 (upper_variant x) = k1 + 1 := by
        unfold needle_step
        rw [if_pos ⟨hc.1, Or.inr hx⟩]
      rw [e1, e2]
    · have e1 : needle_step q k1 x = k1 := by
        unfold needle_step
        rw [if_neg hc]
      rw [e1]
      exact needle_step_ge q k1 _

theorem foldl_step_mono (q : needle_info)
    (hu : ∀ i, i < q.len → q.unicode_upper.getD i 0 = upper_variant (q.chars.getD i 0))
    (hterm : q.chars.getD q.len 0 = 0) (l : List Nat) (k k1 : Nat) (hk : k ≤ k1)
    (hk1 : k1 ≤ q.len) :
    l.foldl (needle_step q) k ≤ (l.map upper_variant).foldl (needle_step q) k1 := by
  induction l generalizing k k1 with
  | nil => exact hk
  | cons x l ih =>
    simp only [List.map_cons, List.foldl_cons]
    obtain ⟨h1, h2⟩ := needle_step_mono q hu hterm k k1 x hk hk1
    exact ih _ _ h1 h2

theorem foldl_step_stuck (q : needle_info) (z : Nat) (hz : q.chars.getD z 0 = 0) (l : List Nat)
    (k : Nat) (hk : k ≤ z) : l.foldl (needle_step q) k ≤ z := by
  induction l generalizing k with
  | nil => exact hk
  | cons x l ih =>
    refine ih _ ?_
    unfold needle_step
    split_ifs with hc
    · rcases Nat.lt_or_ge k z with hlt | hge
      · omega
      · have : k = z := by omega
        subst this
        exact absurd hz hc.1
    · exact hk

/-- For a needle whose stored uppercase variants are those of `upper_variant` and whose
cell behind the last code point is `0`, the quick match survives the folding of every
haystack code point. -/
theorem fold_monotone (q : needle_info)
    (hu : ∀ i, i < q.len → q.unicode_upper.getD i 0 = upper_variant (q.chars.getD i 0))
    (hterm : q.chars.getD q.len 0 = 0) (h h1 : List Nat)
    (hfold : decode_upto MATCH_MAX_LEN h1 = (decode_upto MATCH_MAX_LEN h).map upper_variant)
    (hm : query_has_match q h = true) : query_has_match q h1 = true := by
  have hne := has_match_nonempty q h hm
  have hne1 : byte_at h1 0 ≠ 0 := by
    intro h0
    have e1 := (decode_nil_iff h1).mpr h0
    rw [hfold, List.map_eq_nil_iff] at e1
    exact hne ((decode_nil_iff h).mp e1)
  rw [has_match_eq, if_neg hne] at hm
  have hk := of_decide_eq_true hm
  rw [has_match_eq, if_neg hne1, hfold]
  apply decide_eq_true
  have h1 := foldl_step_mono q hu hterm (decode_upto MATCH_MAX_LEN h) 0 0 (Nat.le_refl _)
    (Nat.zero_le _)
  have h2 := foldl_step_stuck q _ hk ((decode_upto MATCH_MAX_LEN h).map upper_variant) 0
    (Nat.zero_le _)
  have e : ((decode_upto MATCH_MAX_LEN h).map upper_variant).foldl (needle_step q) 0 =
      (decode_upto MATCH_MAX_LEN h).foldl (needle_step q) 0 := by omega
  rw [e]
  exact hk

/-! ## The loop of `match_score`, round by round -/

/-- The loop of `match_score` after `fuel1 + fuel2` rounds is the loop continued for `fuel2`
rounds from the rows it holds after `fuel1` rounds. -/
theorem match_score_loop_split (cfg : Config) (q : needle_info) (hay : haystack_info)
    (fuel1 fuel2 : Nat) :
    ∀ (i : Nat) (last : List score_t × List score_t),
      match_score_loop cfg q hay (fuel1 + fuel2) i last =
        match_score_loop cfg q hay fuel2 (i + fuel1) (match_score_loop cfg q hay fuel1 i last) := by
  induction fuel1 with
  | zero =>
    intro i last
    rw [Nat.zero_add]
    rfl
  | succ f ih =>
    intro i last
    have e : f + 1 + fuel2 = (f + fuel2) + 1 := by omega
    rw [e, match_score_loop, match_score_loop, ih]
    have e2 : i + 1 + f = i + (f + 1) := by omega
    rw [e2]

/-! ## The score as a bound for all alignments; scaled weights -/

/-- Whatever the weights are, no alignment scores more than `match_score` returns. -/
theorem alignment_le_score (cfg : Config) (q : needle_info) (h : List Nat) (hn : q.len ≠ 0)
    (hm : query_has_match q h = true) (hlt : q.len < (hay_of cfg q h).len) (p : Nat → Nat)
    (hal : alignment q (hay_of cfg q h) p q.len (hay_of cfg q h).len) :
    align_total cfg q (hay_of cfg q h) p ≤ match_score cfg q h := by
  rw [score_eq_cell cfg q h hn hm hlt]
  have e : q.len - 1 + 1 = q.len := by omega
  have hal1 : alignment q (hay_of cfg q h) p (q.len - 1 + 1) (hay_of cfg q h).len := by
    rw [e]; exact hal
  have hb := (hal.1 (q.len - 1) (by omega)).1
  have key := (align_le_cells cfg q (hay_of cfg q h) p (q.len - 1) (by omega) hal1).2
    ((hay_of cfg q h).len - 1) (by omega) (by omega)
  rw [gap_of_last cfg q hn] at key
  unfold align_total
  have e2 : (((hay_of cfg q h).len - 1 : Nat) : score_t) = ((hay_of cfg q h).len : score_t) - 1 := by
    rw [Nat.cast_sub (by omega)]
    simp
  rw [e2] at key
  exact key

theorem bonus_loop_scale (c : score_t) (cfg : Config) (chars : List Nat) (fuel : Nat) :
    ∀ i last_ch j,
      (precompute_bonus_loop (scale_config c cfg) chars fuel i last_ch).getD j 0 =
        c * (precompute_bonus_loop cfg chars fuel i last_ch).getD j 0 := by
  induction fuel with
  | zero =>
    intro i last_ch j
    simp [precompute_bonus_loop]
  | succ f ih =>
    intro i last_ch j
    rw [precompute_bonus_loop, precompute_bonus_loop]
    cases j with
    | zero => rfl
    | succ j =>
      simp only [List.getD_cons_succ]
      exact ih _ _ _

theorem hay_bonus_scale (c : score_t) (cfg : Config) (q : needle_info) (h : List Nat) (j : Nat) :
    (hay_of (scale_config c cfg) q h).bonus.getD j 0 = c * (hay_of cfg q h).bonus.getD j 0 :=
  bonus_loop_scale c cfg _ _ _ _ _

theorem align_score_scale (c : score_t) (hc : 0 ≤ c) (cfg : Config) (q : needle_info)
    (h : List Nat) (p : Nat → Nat) (i : Nat) :
    align_score (scale_config c cfg) (hay_of (scale_config c cfg) q h) p i =
      c * align_score cfg (hay_of cfg q h) p i := by
  induction i with
  | zero =>
    rw [align_score, align_score, hay_bonus_scale]
    simp only [scale_config]
    ring
  | succ i ih =>
    rw [align_score, align_score, ih, align_step, align_step, hay_bonus_scale]
    simp only [scale_config]
    rw [← mul_max_of_nonneg _ _ hc]
    split_ifs <;> ring

theorem align_total_scale (c : score_t) (hc : 0 ≤ c) (cfg : Config) (q : needle_info)
    (h : List Nat) (p : Nat → Nat) :
    align_total (scale_config c cfg) q (hay_of (scale_config c cfg) q h) p =
      c * align_total cfg q (hay_of cfg q h) p := by
  unfold align_total
  rw [align_score_scale c hc]
  have e : (hay_of (scale_config c cfg) q h).len = (hay_of cfg q h).len := rfl
  rw [e]
  simp only [scale_config]
  ring

theorem alignment_scale (c : score_t) (cfg : Config) (q : needle_info) (h : List Nat)
    (p : Nat → Nat) (n bound : Nat) (hal : alignment q (hay_of cfg q h) p n bound) :
    alignment q (hay_of (scale_config c cfg) q h) p n bound := hal

/-! ## The entries that the backtrace writes -/

/-- Under the bound that keeps every value built on the sentinel below every alignment, the
backtrace writes, for every needle code point, a column of the haystack that matches it. -/
theorem positions_fill (cfg : Config) (q : needle_info) (h : List Nat) (hay : haystack_info)
    (G K : score_t) (hn : q.len ≠ 0) (hz : no_zero q) (hm : query_has_match q h = true)
    (hb0 : ∀ a b, 0 ≤ cfg.COMPUTE_BONUS a b) (hbK : ∀ a b, cfg.COMPUTE_BONUS a b ≤ K)
    (hc : cfg.SCORE_MATCH_CONSECUTIVE ≤ K)
    (hl : G ≤ cfg.SCORE_GAP_LEADING) (ht : G ≤ cfg.SCORE_GAP_TRAILING)
    (hi : G ≤ cfg.SCORE_GAP_INNER) (ht0 : cfg.SCORE_GAP_TRAILING ≤ 0)
    (hi0 : cfg.SCORE_GAP_INNER ≤ 0)
    (hS : SCORE_MIN + ((q.len : score_t) - 1) * K <
      (((hay_of cfg q h).len : score_t) - 1) * G) :
    ∀ i, i < q.len → ∃ j,
      (match_positions cfg q h hay).2.getD i none = some j ∧
      j < (hay_of cfg q h).len ∧ hit q (hay_of cfg q h) i j := by
  have hne := has_match_nonempty q h hm
  have hlen := hay_len_le cfg q h hne
  have he := has_match_emb cfg q h hz hm
  have hnm := emb_le q _ _ _ he
  have hK : 0 ≤ K := le_trans (hb0 0 0) (hbK 0 0)
  have hG : G ≤ 0 := le_trans ht ht0
  have e1 : 1 + (q.len - 1) = q.len := by omega
  rw [match_positions_eq cfg q h hay hne, if_neg (by omega), e1]
  simp only []
  have hT1 : ∀ i j, i < q.len → j < (hay_of cfg q h).len →
      SCORE_MIN < Dc cfg q (hay_of cfg q h) i j → hit q (hay_of cfg q h) i j := by
    intro i j _ hj hd
    by_contra hh
    rw [Dc_no_hit cfg q _ i j hj hh] at hd
    exact lt_irrefl _ hd
  have hT3 : ∀ i j, i < q.len → j < (hay_of cfg q h).len →
      emb q (hay_of cfg q h) (i + 1) (j + 1) →
      ∃ j1, j1 ≤ j ∧ hit q (hay_of cfg q h) i j1 ∧ emb q (hay_of cfg q h) i j1 ∧
        Dc cfg q (hay_of cfg q h) i j1 = Mc cfg q (hay_of cfg q h) i j1 ∧
        SCORE_MIN < Dc cfg q (hay_of cfg q h) i j1 := by
    intro i j hi1 hj
    refine reach_exists cfg q (hay_of cfg q h) G K (hay_bonus_nonneg cfg q h hb0) hK
      (hay_bonus_le cfg q h K hK hbK) hc hl ht hi ht0 hi0 i ?_ j hj
    intro j2 hj2
    have h1 : (i : score_t) * K ≤ ((q.len : score_t) - 1) * K := by
      refine mul_le_mul_of_nonneg_right ?_ hK
      have : (i : score_t) + 1 ≤ (q.len : score_t) := by exact_mod_cast hi1
      linarith
    have h2 : (((hay_of cfg q h).len : score_t) - 1) * G ≤ ((j2 : score_t) - i) * G := by
      have h3 : (j2 : score_t) - i ≤ ((hay_of cfg q h).len : score_t) - 1 := by
        have : (j2 : score_t) + 1 ≤ ((hay_of cfg q h).len : score_t) := by
          exact_mod_cast hj2
        have : (0 : score_t) ≤ (i : score_t) := Nat.cast_nonneg i
        linarith
      exact mul_le_mul_of_nonpos_right h3 hG
    linarith
  exact (backtrace_spec cfg q (hay_of cfg q h) q.len hT1 hT3 q.len
    (hay_of cfg q h).len false (List.replicate q.len none) (Nat.le_refl _) (Nat.le_refl _)
    (by simp) he).2

theorem fp_first_row_loop_exact (cfg : Config) (haystack : haystack_info)
    (needle_char needle_upper : Nat) (gap_score : score_t) (fuel : Nat) :
    ∀ j prev_score,
      fp_match_first_row_loop (fun x => x) cfg haystack needle_char needle_upper gap_score fuel j
          prev_score =
        match_first_row_loop cfg haystack needle_char needle_upper gap_score fuel j
          prev_score := by
  induction fuel with
  | zero => intro j prev_score; rfl
  | succ f ih =>
    intro j prev_score
    rw [fp_match_first_row_loop, match_first_row_loop]
    simp only [ih]

theorem fp_row_loop_exact (cfg : Config) (haystack : haystack_info)
    (needle_char needle_upper : Nat) (gap_score : score_t) (last_D last_M : List score_t)
    (fuel : Nat) :
    ∀ j prev_score,
      fp_match_row_loop (fun x => x) cfg haystack needle_char needle_upper gap_score last_D
          last_M fuel j prev_score =
        match_row_loop cfg haystack needle_char needle_upper gap_score last_D last_M fuel j
          prev_score := by
  induction fuel with
  | zero => intro j prev_score; rfl
  | succ f ih =>
    intro j prev_score
    rw [fp_match_row_loop, match_row_loop]
    simp only [ih]

theorem fp_first_row_exact (cfg : Config) (needle : needle_info) (haystack : haystack_info) :
    fp_match_first_row (fun x => x) cfg needle haystack = match_first_row cfg needle haystack := by
  unfold fp_match_first_row match_first_row
  simp only [fp_first_row_loop_exact]

theorem fp_row_exact (cfg : Config) (needle : needle_info) (haystack : haystack_info)
    (row : Nat) (last_D last_M : List score_t) :
    fp_match_row (fun x => x) cfg needle haystack row last_D last_M =
      match_row cfg needle haystack row last_D last_M := by
  unfold fp_match_row match_row
  simp only [fp_row_loop_exact]

theorem fp_score_loop_exact (cfg : Config) (needle : needle_info) (haystack : haystack_info)
    (fuel : Nat) :
    ∀ i last,
      fp_match_score_loop (fun x => x) cfg needle haystack fuel i last =
        match_score_loop cfg needle haystack fuel i last := by
  induction fuel with
  | zero => intro i last; rfl
  | succ f ih =>
    intro i last
    rw [fp_match_score_loop, match_score_loop, fp_row_exact, ih]

theorem fp_positions_loop_exact (cfg : Config) (needle : needle_info)
    (haystack : haystack_info) (fuel : Nat) :
    ∀ i D M,
      fp_match_positions_loop (fun x => x) cfg needle haystack fuel i D M =
        match_positions_loop cfg needle haystack fuel i D M := by
  induction fuel with
  | zero => intro i D M; rfl
  | succ f ih =>
    intro i D M
    rw [fp_match_positions_loop, match_positions_loop]
    simp only [fp_row_exact, ih]

theorem fp_backtrace_exact (cfg : Config) (D M : List (List score_t)) (rows : Nat) :
    ∀ cols match_required positions,
      fp_backtrace (fun x => x) cfg D M rows cols match_required positions =
        backtrace cfg D M rows cols match_required positions := by
  induction rows with
  | zero => intro cols match_required positions; rfl
  | succ i ih =>
    intro cols match_required positions
    rw [fp_backtrace, backtrace]
    cases backtrace_row D M match_required i cols with
    | none => exact ih _ _ _
    | some j => exact ih _ _ _

/-- With the identity as rounding, the rounded `match_score` is the exact one. -/
theorem fp_match_score_exact (cfg : Config) (needle : needle_info) (haystack_str : List Nat) :
    fp_match_score (fun x => x) cfg needle haystack_str = match_score cfg needle haystack_str := by
  unfold fp_match_score match_score
  simp only [fp_score_loop_exact, fp_first_row_exact]

/-- With the identity as rounding, the rounded `match_positions` is the exact one. -/
theorem fp_match_positions_exact (cfg : Config) (needle : needle_info)
    (haystack_str : List Nat) (hay : haystack_info) :
    fp_match_positions (fun x => x) cfg needle haystack_str hay =
      match_positions cfg needle haystack_str hay := by
  unfold fp_match_positions match_positions
  simp only [fp_positions_loop_exact, fp_first_row_exact, fp_backtrace_exact]

/-- The rounded `match_positions` does not depend on what the local buffer held before the
call, once the haystack is not empty. -/
theorem fp_match_positions_any (rnd : score_t → score_t) (cfg : Config) (needle : needle_info)
    (haystack_str : List Nat) (hay : haystack_info) (hne : byte_at haystack_str 0 ≠ 0) :
    fp_match_positions rnd cfg needle haystack_str hay =
      fp_match_positions rnd cfg needle haystack_str blank_haystack := by
  unfold fp_match_positions
  simp only []
  rw [hay_of_any cfg needle haystack_str hay hne,
    hay_of_any cfg needle haystack_str blank_haystack hne]

/-- C11: for every code point `c` up to `U+10FFFF`, `utf8_to_codepoint` applied to the
standard UTF-8 encoding of `c`, whatever bytes follow it, returns the code point `c` and an
advance equal to the number of bytes of the encoding, which is 1 for `c < 0x80`, 2 for
`c < 0x800`, 3 for `c < 0x10000` and 4 otherwise. -/
theorem decode_encode (c : Nat) (rest : List Nat) (h1 : 1 ≤ c) (h2 : c ≤ 0x10FFFF) :
    utf8_to_codepoint (utf8_encode c ++ rest) = (c, (utf8_encode c).length) ∧
      (utf8_encode c).length =
        if c < 0x80 then 1 else if c < 0x800 then 2 else if c < 0x10000 then 3 else 4 := by
  unfold utf8_encode
  by_cases c1 : c < 0x80
  · rw [if_pos c1, if_pos c1]
    refine ⟨?_, rfl⟩
    exact (ascii_decode c rest h1 (by omega)).2
  · rw [if_neg c1, if_neg c1]
    by_cases c2 : c < 0x800
    · rw [if_pos c2, if_pos c2]
      refine ⟨?_, rfl⟩
      have := decode_two (c / 64) (c % 64) rest (by omega) (by omega)
      rw [show c / 64 * 64 + c % 64 = c by omega] at this
      exact this
    · rw [if_neg c2, if_neg c2]
      by_cases c3 : c < 0x10000
      · rw [if_pos c3, if_pos c3]
        refine ⟨?_, rfl⟩
        have := decode_three (c / 4096) (c / 64 % 64) (c % 64) rest (by omega) (by omega)
          (by omega)
        rw [show c / 4096 * 4096 + c / 64 % 64 * 64 + c % 64 = c by omega] at this
        exact this
      · rw [if_neg c3, if_neg c3]
        refine ⟨?_, rfl⟩
        have := decode_four (c / 262144) (c / 4096 % 64) (c / 64 % 64) (c % 64) rest (by omega)
          (by omega) (by omega) (by omega)
        rw [show c / 262144 * 262144 + c / 4096 % 64 * 4096 + c / 64 % 64 * 64 + c % 64 = c
          by omega] at this
        exact this

/-- C11 at the code point `U+20AC` (the euro sign, bytes `E2 82 AC`) followed by the
byte `0x41`. -/
theorem decode_encode_witness :
    1 ≤ 0x20AC ∧ 0x20AC ≤ 0x10FFFF ∧ utf8_encode 0x20AC = [0xE2, 0x82, 0xAC] ∧
      (utf8_to_codepoint (utf8_encode 0x20AC ++ [0x41]) = (0x20AC, (utf8_encode 0x20AC).length) ∧
        (utf8_encode 0x20AC).length =
          if 0x20AC < 0x80 then 1 else if 0x20AC < 0x800 then 2
          else if 0x20AC < 0x10000 then 3 else 4) :=
  ⟨by decide, by decide, by decide, decode_encode 0x20AC [0x41] (by decide) (by decide)⟩

/-- A first byte in `0x80..0xBF` takes the branch that the code marks as the three-byte
sequence `1110xxxx`: its test is `first < 0xF0` alone. -/
theorem continuation_lead_advance (first : Nat) (rest : List Nat) (h1 : 0x80 ≤ first)
    (h2 : first ≤ 0xBF) : (utf8_to_codepoint (first :: rest)).2 = 3 := by
  have e0 : byte_at (first :: rest) 0 = first := by
    rw [byte_at_cons_zero]; omega
  unfold utf8_to_codepoint
  simp only [e0]
  rw [if_neg (by omega), if_neg (by omega), if_pos (by omega)]

/-- A first byte in `0xF8..0xFF` is answered with code point `0` and an advance of 1. -/
theorem high_lead_rejected (first : Nat) (rest : List Nat) (h1 : 0xF8 ≤ first)
    (h2 : first ≤ 0xFF) : utf8_to_codepoint (first :: rest) = (0, 1) := by
  have e0 : byte_at (first :: rest) 0 = first := by
    rw [byte_at_cons_zero]; omega
  unfold utf8_to_codepoint
  simp only [e0]
  rw [if_neg (by omega), if_neg (by omega), if_neg (by omega), if_neg (by omega)]

/-- C12: the bytes `80 41 42` start with a continuation byte, which is not a lead byte, and
`utf8_to_codepoint` returns the code point `0x42` with an advance of 3 bytes instead of
`(0, 1)`; so it does for `BF BF BF` with the code point `0xFFFF`.  Every first byte in
`0x80..0xBF` advances by 3.  A first byte in `0xF8..0xFF` does give `(0, 1)`. -/
theorem continuation_lead_byte_decoded :
    utf8_to_codepoint [0x80, 0x41, 0x42] = (0x42, 3) ∧
      utf8_to_codepoint [0xBF, 0xBF, 0xBF] = (0xFFFF, 3) ∧
      (∀ first, first < 256 → 0x80 ≤ first → first ≤ 0xBF →
        (utf8_to_codepoint [first, 0x41, 0x42]).2 = 3) ∧
      (∀ first, first < 256 → 0xF8 ≤ first →
        utf8_to_codepoint [first, 0x41, 0x42] = (0, 1)) := by
  refine ⟨by decide, by decide, ?_, ?_⟩
  · intro first _ h1 h2
    exact continuation_lead_advance first _ h1 h2
  · intro first h0 h1
    exact high_lead_rejected first _ h1 (by omega)

/-- The needle `"amor"` is prepared without a call of `realloc`: the heap plays no part. -/
theorem amor_any_heap (fresh_chars fresh_upper : Nat → Nat) :
    prepare_needle amor fresh_chars fresh_upper = prepare_needle amor zero_heap zero_heap := by
  have h : ∀ (fc fu : Nat → Nat) (info : needle_info) (pos : Nat), pos + 1 < info.capacity →
      resize_if_needed fc fu info (pos + 1) = info := by
    intro fc fu info pos hp
    unfold resize_if_needed
    rw [if_neg (by omega)]
  simp only [prepare_needle, amor, prepare_needle_loop, List.length_cons, List.length_nil,
    byte_at_cons_zero, byte_at_nil, INITIAL_CAPACITY]
  norm_num [h, utf8_to_codepoint, byte_at_cons_zero, resize_if_needed]

/-- C13, as stated, fails: the needle `"amor"` matches the haystack `"app/models/zrder.rb"`
(`a` at column 0, `m` at 4, `o` at 5, the `o` of `models`, and `r` at 12), so
`query_has_match` returns true, and with the sample weights `match_score` returns
`651/200`, which is not `SCORE_MIN`. -/
theorem zrder_has_match :
    query_has_match (prepare_needle amor zero_heap zero_heap) zrder_rb = true ∧
      match_score sample_config (prepare_needle amor zero_heap zero_heap) zrder_rb = 651 / 200 ∧
      match_score sample_config (prepare_needle amor zero_heap zero_heap) zrder_rb ≠ SCORE_MIN ∧
      zrder_rb.getD 0 0 = amor.getD 0 0 ∧ zrder_rb.getD 4 0 = amor.getD 1 0 ∧
      zrder_rb.getD 5 0 = amor.getD 2 0 ∧ zrder_rb.getD 12 0 = amor.getD 3 0 := by
  decide!

/-- C13, amended: for the needle prepared from `"amor"`, on whatever heap, and the haystack
`"app/models/zrder.rb"`, `query_has_match` returns true, and `match_score` returns a value
above `SCORE_MIN` for all weights with bonuses at least 0 and gap penalties at least
`SCORE_MIN / MATCH_MAX_LEN`. -/
theorem zrder_score (cfg : Config) (fresh_chars fresh_upper : Nat → Nat)
    (hb : ∀ a b, 0 ≤ cfg.COMPUTE_BONUS a b)
    (hl : SCORE_MIN ≤ MATCH_MAX_LEN * cfg.SCORE_GAP_LEADING)
    (ht : SCORE_MIN ≤ MATCH_MAX_LEN * cfg.SCORE_GAP_TRAILING)
    (hi : SCORE_MIN ≤ MATCH_MAX_LEN * cfg.SCORE_GAP_INNER) :
    query_has_match (prepare_needle amor fresh_chars fresh_upper) zrder_rb = true ∧
      SCORE_MIN < match_score cfg (prepare_needle amor fresh_chars fresh_upper) zrder_rb := by
  rw [amor_any_heap]
  have hm : query_has_match (prepare_needle amor zero_heap zero_heap) zrder_rb = true := by
    decide
  exact ⟨hm, score_gt_min cfg _ zrder_rb (by decide) (by unfold no_zero; decide) hm hb hl ht hi⟩

/-- C13, amended, at the sample weights and the heap with a stale cell. -/
theorem zrder_score_witness :
    (∀ a b, 0 ≤ sample_config.COMPUTE_BONUS a b) ∧
      SCORE_MIN ≤ MATCH_MAX_LEN * sample_config.SCORE_GAP_LEADING ∧
      SCORE_MIN ≤ MATCH_MAX_LEN * sample_config.SCORE_GAP_TRAILING ∧
      SCORE_MIN ≤ MATCH_MAX_LEN * sample_config.SCORE_GAP_INNER ∧
      (query_has_match (prepare_needle amor stale_heap zero_heap) zrder_rb = true ∧
        SCORE_MIN < match_score sample_config (prepare_needle amor stale_heap zero_heap)
          zrder_rb) :=
  ⟨sample_bonus_nonneg, sample_gaps.1, sample_gaps.2.1, sample_gaps.2.2,
    zrder_score sample_config stale_heap zero_heap sample_bonus_nonneg sample_gaps.1
      sample_gaps.2.1 sample_gaps.2.2⟩

/-- C17: for a needle of `n ≥ 1` code points and a haystack of `m` code points with
`query_has_match` and `n < m` (`m ≤ 512` holds by construction), the score returned by
`match_positions`, the cell `M[n-1][m-1]` of the full matrices, equals the score returned by
`match_score`, the cell `last_M[m-1]` of the rolling rows; and for every `i < n` the pair of
rolling rows `(last_D, last_M)` that `match_score` holds after the rounds `1, ..., i` of its
loop is the pair of the rows `i` of the full matrices `D` and `M` of `match_positions`, and
it is the pair from which the loop of `match_score` runs its remaining `n - 1 - i` rounds. -/
theorem rolling_rows_refine (cfg : Config) (q : needle_info) (h : List Nat) (hay : haystack_info)
    (hn : q.len ≠ 0) (hm : query_has_match q h = true) (hlt : q.len < (hay_of cfg q h).len) :
    (match_positions cfg q h hay).1 = match_score cfg q h ∧
      ∀ i, i < q.len →
        match_score_loop cfg q (hay_of cfg q h) i 1 (match_first_row cfg q (hay_of cfg q h)) =
          ((match_positions_loop cfg q (hay_of cfg q h) (q.len - 1) 1
              [(match_first_row cfg q (hay_of cfg q h)).1]
              [(match_first_row cfg q (hay_of cfg q h)).2]).1.getD i [],
            (match_positions_loop cfg q (hay_of cfg q h) (q.len - 1) 1
              [(match_first_row cfg q (hay_of cfg q h)).1]
              [(match_first_row cfg q (hay_of cfg q h)).2]).2.getD i []) ∧
        match_score_loop cfg q (hay_of cfg q h) (q.len - 1) 1
            (match_first_row cfg q (hay_of cfg q h)) =
          match_score_loop cfg q (hay_of cfg q h) (q.len - 1 - i) (1 + i)
            (match_score_loop cfg q (hay_of cfg q h) i 1
              (match_first_row cfg q (hay_of cfg q h))) := by
  have hne := has_match_nonempty q h hm
  have hlen := hay_len_le cfg q h hne
  constructor
  · rw [match_positions_eq cfg q h hay hne, if_neg (by omega),
      score_eq_cell cfg q h hn hm hlt]
    exact cell_tableM cfg q _ _ _ _ (by omega)
  · intro i hi
    refine ⟨?_, ?_⟩
    swap
    · have e := match_score_loop_split cfg q (hay_of cfg q h) i (q.len - 1 - i) 1
        (match_first_row cfg q (hay_of cfg q h))
      have e0 : i + (q.len - 1 - i) = q.len - 1 := by omega
      rw [e0] at e
      exact e
    have e1 := match_score_loop_rows cfg q (hay_of cfg q h) i 0
    have e2 := match_positions_loop_tables cfg q (hay_of cfg q h) (q.len - 1) 0
    simp only [Nat.zero_add] at e1 e2
    have e3 : rows cfg q (hay_of cfg q h) 0 = match_first_row cfg q (hay_of cfg q h) := rfl
    have e4 : tableD cfg q (hay_of cfg q h) 1 = [(match_first_row cfg q (hay_of cfg q h)).1] :=
      rfl
    have e5 : tableM cfg q (hay_of cfg q h) 1 = [(match_first_row cfg q (hay_of cfg q h)).2] :=
      rfl
    rw [e3] at e1
    rw [e4, e5] at e2
    rw [e1, e2]
    simp only []
    rw [tableD_getD cfg q _ _ i (by omega), tableM_getD cfg q _ _ i (by omega)]

/-- C17 at the needle `"amor"`, the haystack `"app/models/order.rb"` and the sample
weights. -/
theorem rolling_rows_refine_witness :
    (prepare_needle amor zero_heap zero_heap).len ≠ 0 ∧
      query_has_match (prepare_needle amor zero_heap zero_heap) order_rb = true ∧
      (prepare_needle amor zero_heap zero_heap).len <
        (hay_of sample_config (prepare_needle amor zero_heap zero_heap) order_rb).len ∧
      ((match_positions sample_config (prepare_needle amor zero_heap zero_heap) order_rb
          blank_haystack).1 =
        match_score sample_config (prepare_needle amor zero_heap zero_heap) order_rb ∧
      ∀ i, i < (prepare_needle amor zero_heap zero_heap).len →
        match_score_loop sample_config (prepare_needle amor zero_heap zero_heap)
            (hay_of sample_config (prepare_needle amor zero_heap zero_heap) order_rb) i 1
            (match_first_row sample_config (prepare_needle amor zero_heap zero_heap)
              (hay_of sample_config (prepare_needle amor zero_heap zero_heap) order_rb)) =
          ((match_positions_loop sample_config (prepare_needle amor zero_heap zero_heap)
              (hay_of sample_config (prepare_needle amor zero_heap zero_heap) order_rb)
              ((prepare_needle amor zero_heap zero_heap).len - 1) 1
              [(match_first_row sample_config (prepare_needle amor zero_heap zero_heap)
                (hay_of sample_config (prepare_needle amor zero_heap zero_heap) order_rb)).1]
              [(match_first_row sample_config (prepare_needle amor zero_heap zero_heap)
                (hay_of sample_config (prepare_needle amor zero_heap zero_heap)
                  order_rb)).2]).1.getD i [],
            (match_positions_loop sample_config (prepare_needle amor zero_heap zero_heap)
              (hay_of sample_config (prepare_needle amor zero_heap zero_heap) order_rb)
              ((prepare_needle amor zero_heap zero_heap).len - 1) 1
              [(match_first_row sample_config (prepare_needle amor zero_heap zero_heap)
                (hay_of sample_config (prepare_needle amor zero_heap zero_heap) order_rb)).1]
              [(match_first_row sample_config (prepare_needle amor zero_heap zero_heap)
                (hay_of sample_config (prepare_needle amor zero_heap zero_heap)
                  order_rb)).2]).2.getD i []) ∧
        match_score_loop sample_config (prepare_needle amor zero_heap zero_heap)
            (hay_of sample_config (prepare_needle amor zero_heap zero_heap) order_rb)
            ((prepare_needle amor zero_heap zero_heap).len - 1) 1
            (match_first_row sample_config (prepare_needle amor zero_heap zero_heap)
              (hay_of sample_config (prepare_needle amor zero_heap zero_heap) order_rb)) =
          match_score_loop sample_config (prepare_needle amor zero_heap zero_heap)
            (hay_of sample_config (prepare_needle amor zero_heap zero_heap) order_rb)
            ((prepare_needle amor zero_heap zero_heap).len - 1 - i) (1 + i)
            (match_score_loop sample_config (prepare_needle amor zero_heap zero_heap)
              (hay_of sample_config (prepare_needle amor zero_heap zero_heap) order_rb) i 1
              (match_first_row sample_config (prepare_needle amor zero_heap zero_heap)
                (hay_of sample_config (prepare_needle amor zero_heap zero_heap) order_rb)))) :=
  ⟨by decide, by decide, by decide,
    rolling_rows_refine sample_config (prepare_needle amor zero_heap zero_heap) order_rb
      blank_haystack (by decide) (by decide) (by decide)⟩

/-- C18, as stated, fails: for the needle `"ab"`, the haystack `"xab"` and the sample
weights, whose gap penalties are negative, `D[0][0] = SCORE_MIN` exceeds
`M[0][0] = SCORE_MIN + SCORE_GAP_INNER` at the non-matching column 0 of row 0, and
`D[1][0] = SCORE_MIN` exceeds `M[1][0] = SCORE_MIN + SCORE_GAP_TRAILING` at column 0 of
row 1. -/
theorem sentinel_above_best :
    ¬ hit (prepare_needle [0x61, 0x62] zero_heap zero_heap)
        (hay_of sample_config (prepare_needle [0x61, 0x62] zero_heap zero_heap)
          [0x78, 0x61, 0x62]) 0 0 ∧
      Mc sample_config (prepare_needle [0x61, 0x62] zero_heap zero_heap)
          (hay_of sample_config (prepare_needle [0x61, 0x62] zero_heap zero_heap)
            [0x78, 0x61, 0x62]) 0 0 <
        Dc sample_config (prepare_needle [0x61, 0x62] zero_heap zero_heap)
          (hay_of sample_config (prepare_needle [0x61, 0x62] zero_heap zero_heap)
            [0x78, 0x61, 0x62]) 0 0 ∧
      Mc sample_config (prepare_needle [0x61, 0x62] zero_heap zero_heap)
          (hay_of sample_config (prepare_needle [0x61, 0x62] zero_heap zero_heap)
            [0x78, 0x61, 0x62]) 1 0 <
        Dc sample_config (prepare_needle [0x61, 0x62] zero_heap zero_heap)
          (hay_of sample_config (prepare_needle [0x61, 0x62] zero_heap zero_heap)
            [0x78, 0x61, 0x62]) 1 0 ∧
      sample_config.SCORE_GAP_LEADING ≤ 0 ∧ sample_config.SCORE_GAP_TRAILING ≤ 0 ∧
      sample_config.SCORE_GAP_INNER ≤ 0 := by
  decide!

/-- C18, amended: for every needle, haystack and weights, `D[i][j] ≤ M[i][j]` holds at every
cell `(i, j)` with `j < m` that is a matching column of row 0 or lies in a row `i ≥ 1` at a
column `j ≥ 1`; at column 0 of a row `i + 1` it holds exactly when the gap penalty of that
row is at least 0. -/
theorem D_le_M (cfg : Config) (q : needle_info) (hay : haystack_info) (i j : Nat)
    (hj : j < hay.len) (h0 : i = 0 → hit q hay 0 j) (h1 : i ≠ 0 → j ≠ 0) :
    Dc cfg q hay i j ≤ Mc cfg q hay i j ∧
      (Dc cfg q hay (i + 1) 0 ≤ Mc cfg q hay (i + 1) 0 ↔ 0 ≤ gap_of cfg q (i + 1)) := by
  refine ⟨Dc_le_Mc cfg q hay i j hj h0 h1, ?_⟩
  rw [Dc_succ_zero, Mc_succ_zero]
  constructor
  · intro h; linarith
  · intro h; linarith

/-- C18, amended, at the needle `"amor"`, the haystack `"app/models/order.rb"`, the sample
weights and the cell `(1, 4)`. -/
theorem D_le_M_witness :
    4 < (hay_of sample_config (prepare_needle amor zero_heap zero_heap) order_rb).len ∧
      ((1 : Nat) ≠ 0 → (4 : Nat) ≠ 0) ∧
      (Dc sample_config (prepare_needle amor zero_heap zero_heap)
          (hay_of sample_config (prepare_needle amor zero_heap zero_heap) order_rb) 1 4 ≤
        Mc sample_config (prepare_needle amor zero_heap zero_heap)
          (hay_of sample_config (prepare_needle amor zero_heap zero_heap) order_rb) 1 4 ∧
      (Dc sample_config (prepare_needle amor zero_heap zero_heap)
          (hay_of sample_config (prepare_needle amor zero_heap zero_heap) order_rb) (1 + 1) 0 ≤
        Mc sample_config (prepare_needle amor zero_heap zero_heap)
          (hay_of sample_config (prepare_needle amor zero_heap zero_heap) order_rb) (1 + 1) 0 ↔
        0 ≤ gap_of sample_config (prepare_needle amor zero_heap zero_heap) (1 + 1))) :=
  ⟨by decide, fun _ => by decide,
    D_le_M sample_config (prepare_needle amor zero_heap zero_heap)
      (hay_of sample_config (prepare_needle amor zero_heap zero_heap) order_rb) 1 4 (by decide)
      (fun h => absurd h (by decide)) (fun _ => by decide)⟩

/-- In exact arithmetic, at every cell `(i, j)` with `j < m`: `D[i][j] = SCORE_MIN` if
column `j` does not match needle code point `i`, and at column 0 of every row `i ≥ 1`; a
cell at which no alignment of `needle[0..=i]` into `haystack[0..=j]` ends with a match
holds `D[i][j] ≤ SCORE_MIN + i * K`, for weights with trailing and inner gap penalties at
most 0 and a bound `K ≥ 0` on the bonuses and on `SCORE_MATCH_CONSECUTIVE`. -/
theorem unreachable_cells (cfg : Config) (q : needle_info) (hay : haystack_info) (K : score_t)
    (hK : 0 ≤ K) (hb : ∀ j, hay.bonus.getD j 0 ≤ K) (hc : cfg.SCORE_MATCH_CONSECUTIVE ≤ K)
    (ht : cfg.SCORE_GAP_TRAILING ≤ 0) (hi : cfg.SCORE_GAP_INNER ≤ 0) (i j : Nat)
    (hj : j < hay.len) :
    (¬ hit q hay i j → Dc cfg q hay i j = SCORE_MIN) ∧
      (i ≠ 0 → j = 0 → Dc cfg q hay i j = SCORE_MIN) ∧
      ((¬ ∃ p, alignment q hay p (i + 1) (j + 1) ∧ p i = j) →
        Dc cfg q hay i j ≤ SCORE_MIN + (i : score_t) * K) := by
  refine ⟨Dc_no_hit cfg q hay i j hj, ?_, ?_⟩
  · intro hi0 hj0
    obtain ⟨k, hk⟩ : ∃ k, i = k + 1 := ⟨i - 1, by omega⟩
    rw [hk, hj0]
    exact Dc_succ_zero cfg q hay k
  · intro hno
    rw [← ends_iff_alignment] at hno
    exact (sentinel_upper cfg q hay K hK hb hc ht hi i j hj).2 hno

/-- The theorem `unreachable_cells` at the needle `"ab"`, the haystack `"xb"`, the sample
weights, `K = 1` and the cell `(1, 1)`, where the bound `SCORE_MIN + 1` is attained. -/
theorem unreachable_cells_witness :
    (0 : score_t) ≤ 1 ∧
      (∀ j, (hay_of sample_config (prepare_needle [0x61, 0x62] zero_heap zero_heap)
        [0x78, 0x62]).bonus.getD j 0 ≤ 1) ∧
      sample_config.SCORE_MATCH_CONSECUTIVE ≤ 1 ∧ sample_config.SCORE_GAP_TRAILING ≤ 0 ∧
      sample_config.SCORE_GAP_INNER ≤ 0 ∧
      1 < (hay_of sample_config (prepare_needle [0x61, 0x62] zero_heap zero_heap)
        [0x78, 0x62]).len ∧
      ((¬ hit (prepare_needle [0x61, 0x62] zero_heap zero_heap)
          (hay_of sample_config (prepare_needle [0x61, 0x62] zero_heap zero_heap) [0x78, 0x62])
          1 1 →
        Dc sample_config (prepare_needle [0x61, 0x62] zero_heap zero_heap)
          (hay_of sample_config (prepare_needle [0x61, 0x62] zero_heap zero_heap) [0x78, 0x62])
          1 1 = SCORE_MIN) ∧
      ((1 : Nat) ≠ 0 → (1 : Nat) = 0 →
        Dc sample_config (prepare_needle [0x61, 0x62] zero_heap zero_heap)
          (hay_of sample_config (prepare_needle [0x61, 0x62] zero_heap zero_heap) [0x78, 0x62])
          1 1 = SCORE_MIN) ∧
      ((¬ ∃ p, alignment (prepare_needle [0x61, 0x62] zero_heap zero_heap)
          (hay_of sample_config (prepare_needle [0x61, 0x62] zero_heap zero_heap) [0x78, 0x62])
          p (1 + 1) (1 + 1) ∧ p 1 = 1) →
        Dc sample_config (prepare_needle [0x61, 0x62] zero_heap zero_heap)
          (hay_of sample_config (prepare_needle [0x61, 0x62] zero_heap zero_heap) [0x78, 0x62])
          1 1 ≤ SCORE_MIN + ((1 : Nat) : score_t) * 1)) :=
  ⟨by norm_num,
    hay_bonus_le sample_config _ _ 1 (by norm_num)
      (fun a b => le_trans (sample_bonus_le a b) (by norm_num)),
    by norm_num [sample_config], by norm_num [sample_config], by norm_num [sample_config],
    by decide,
    unreachable_cells sample_config (prepare_needle [0x61, 0x62] zero_heap zero_heap)
      (hay_of sample_config (prepare_needle [0x61, 0x62] zero_heap zero_heap) [0x78, 0x62]) 1
      (by norm_num)
      (hay_bonus_le sample_config _ _ 1 (by norm_num)
        (fun a b => le_trans (sample_bonus_le a b) (by norm_num)))
      (by norm_num [sample_config]) (by norm_num [sample_config]) (by norm_num [sample_config])
      1 1 (by decide)⟩

/-- In exact arithmetic: let the needle have `n ≥ 1` code points, none of them `0`, let
`query_has_match` hold and `n < m` for the number `m` of haystack code points.  Let the
weights have bonuses between 0 and `K`, `SCORE_MATCH_CONSECUTIVE ≤ K`, gap penalties
between `G` and 0 (the leading one at least `G`), and `SCORE_MIN + (n - 1) * K < (m - 1) * G`.
Then the value returned by `match_score` is the maximum of the alignment scores: no
strictly increasing position vector of matching columns scores more, and one of them
attains it. -/
theorem score_is_best_alignment (cfg : Config) (q : needle_info) (h : List Nat) (G K : score_t)
    (hn : q.len ≠ 0) (hz : no_zero q) (hm : query_has_match q h = true)
    (hlt : q.len < (hay_of cfg q h).len)
    (hb0 : ∀ a b, 0 ≤ cfg.COMPUTE_BONUS a b) (hbK : ∀ a b, cfg.COMPUTE_BONUS a b ≤ K)
    (hc : cfg.SCORE_MATCH_CONSECUTIVE ≤ K)
    (hl : G ≤ cfg.SCORE_GAP_LEADING) (ht : G ≤ cfg.SCORE_GAP_TRAILING)
    (hi : G ≤ cfg.SCORE_GAP_INNER) (ht0 : cfg.SCORE_GAP_TRAILING ≤ 0)
    (hi0 : cfg.SCORE_GAP_INNER ≤ 0)
    (hS : SCORE_MIN + ((q.len : score_t) - 1) * K <
      (((hay_of cfg q h).len : score_t) - 1) * G) :
    (∀ p, alignment q (hay_of cfg q h) p q.len (hay_of cfg q h).len →
      align_total cfg q (hay_of cfg q h) p ≤ match_score cfg q h) ∧
    ∃ p, alignment q (hay_of cfg q h) p q.len (hay_of cfg q h).len ∧
      align_total cfg q (hay_of cfg q h) p = match_score cfg q h := by
  have hK : 0 ≤ K := le_trans (hb0 0 0) (hbK 0 0)
  have hG : G ≤ 0 := le_trans ht ht0
  have he := has_match_emb cfg q h hz hm
  have hSall : ∀ r j, r < q.len → j < (hay_of cfg q h).len →
      SCORE_MIN + (r : score_t) * K < ((j : score_t) - r) * G := by
    intro r j hr hj
    have h1 : (r : score_t) * K ≤ ((q.len : score_t) - 1) * K := by
      refine mul_le_mul_of_nonneg_right ?_ hK
      have : (r : score_t) + 1 ≤ (q.len : score_t) := by exact_mod_cast hr
      linarith
    have h2 : (((hay_of cfg q h).len : score_t) - 1) * G ≤ ((j : score_t) - r) * G := by
      have h3 : (j : score_t) - r ≤ ((hay_of cfg q h).len : score_t) - 1 := by
        have : (j : score_t) + 1 ≤ ((hay_of cfg q h).len : score_t) := by exact_mod_cast hj
        have : (0 : score_t) ≤ (r : score_t) := Nat.cast_nonneg r
        linarith
      exact mul_le_mul_of_nonpos_right h3 hG
    linarith
  refine ⟨alignment_le_score cfg q h hn hm hlt, ?_⟩
  have e : q.len - 1 + 1 = q.len := by omega
  have e1 : (hay_of cfg q h).len - 1 + 1 = (hay_of cfg q h).len := by omega
  have he1 : emb q (hay_of cfg q h) (q.len - 1 + 1) ((hay_of cfg q h).len - 1 + 1) := by
    rw [e, e1]; exact he
  obtain ⟨p, hp, hpM⟩ := (cells_attained cfg q (hay_of cfg q h) G K (hay_bonus_nonneg cfg q h hb0)
    hK (hay_bonus_le cfg q h K hK hbK) hc hl ht hi ht0 hi0 hSall (q.len - 1) (by omega)
    ((hay_of cfg q h).len - 1) (by omega)).1 he1
  rw [e, e1] at hp
  refine ⟨p, hp, le_antisymm (alignment_le_score cfg q h hn hm hlt p hp) ?_⟩
  rw [score_eq_cell cfg q h hn hm hlt]
  rw [gap_of_last cfg q hn] at hpM
  unfold align_total
  have e2 : (((hay_of cfg q h).len - 1 : Nat) : score_t) =
      ((hay_of cfg q h).len : score_t) - 1 := by
    rw [Nat.cast_sub (by omega)]
    simp
  rw [e2] at hpM
  exact hpM

/-- The theorem `score_is_best_alignment` at the needle `"amor"`, the haystack
`"app/models/order.rb"`, the sample weights, `G = -1/100` and `K = 1`. -/
theorem score_is_best_alignment_witness :
    (prepare_needle amor zero_heap zero_heap).len ≠ 0 ∧
      no_zero (prepare_needle amor zero_heap zero_heap) ∧
      query_has_match (prepare_needle amor zero_heap zero_heap) order_rb = true ∧
      (prepare_needle amor zero_heap zero_heap).len <
        (hay_of sample_config (prepare_needle amor zero_heap zero_heap) order_rb).len ∧
      (∀ a b, 0 ≤ sample_config.COMPUTE_BONUS a b) ∧
      (∀ a b, sample_config.COMPUTE_BONUS a b ≤ 1) ∧
      sample_config.SCORE_MATCH_CONSECUTIVE ≤ 1 ∧
      (-1 / 100 : score_t) ≤ sample_config.SCORE_GAP_LEADING ∧
      (-1 / 100 : score_t) ≤ sample_config.SCORE_GAP_TRAILING ∧
      (-1 / 100 : score_t) ≤ sample_config.SCORE_GAP_INNER ∧
      sample_config.SCORE_GAP_TRAILING ≤ 0 ∧ sample_config.SCORE_GAP_INNER ≤ 0 ∧
      SCORE_MIN + (((prepare_needle amor zero_heap zero_heap).len : score_t) - 1) * 1 <
        (((hay_of sample_config (prepare_needle amor zero_heap zero_heap) order_rb).len :
          score_t) - 1) * (-1 / 100) ∧
      ((∀ p, alignment (prepare_needle amor zero_heap zero_heap)
          (hay_of sample_config (prepare_needle amor zero_heap zero_heap) order_rb) p
          (prepare_needle amor zero_heap zero_heap).len
          (hay_of sample_config (prepare_needle amor zero_heap zero_heap) order_rb).len →
        align_total sample_config (prepare_needle amor zero_heap zero_heap)
          (hay_of sample_config (prepare_needle amor zero_heap zero_heap) order_rb) p ≤
          match_score sample_config (prepare_needle amor zero_heap zero_heap) order_rb) ∧
      ∃ p, alignment (prepare_needle amor zero_heap zero_heap)
          (hay_of sample_config (prepare_needle amor zero_heap zero_heap) order_rb) p
          (prepare_needle amor zero_heap zero_heap).len
          (hay_of sample_config (prepare_needle amor zero_heap zero_heap) order_rb).len ∧
        align_total sample_config (prepare_needle amor zero_heap zero_heap)
          (hay_of sample_config (prepare_needle amor zero_heap zero_heap) order_rb) p =
          match_score sample_config (prepare_needle amor zero_heap zero_heap) order_rb) :=
  ⟨by decide, by unfold no_zero; decide, by decide, by decide, sample_bonus_nonneg,
    fun a b => le_trans (sample_bonus_le a b) (by norm_num),
    by norm_num [sample_config], by norm_num [sample_config], by norm_num [sample_config],
    by norm_num [sample_config], by norm_num [sample_config], by norm_num [sample_config],
    by decide!,
    score_is_best_alignment sample_config (prepare_needle amor zero_heap zero_heap) order_rb
      (-1 / 100) 1 (by decide) (by unfold no_zero; decide) (by decide) (by decide)
      sample_bonus_nonneg (fun a b => le_trans (sample_bonus_le a b) (by norm_num))
      (by norm_num [sample_config]) (by norm_num [sample_config]) (by norm_num [sample_config])
      (by norm_num [sample_config]) (by norm_num [sample_config]) (by norm_num [sample_config])
      (by decide!)⟩

/-- C16: with the sample weights, the needle `"baa"` passes the quick match on the haystack
`"babaa"` (3 < 5 code points) and `match_positions` returns the score `199/100` with
`positions = [0, 3, 4]`.  These positions are an alignment, and re-scored with the weights
of the recurrence they give `47/25`, not the returned score; the alignment `[2, 3, 4]` is
the one that scores `199/100`.  At the cell `(1, 3)` the backtrace tests `M[1][3]` against
`D[0][2] + SCORE_MATCH_CONSECUTIVE`, while it is `D[1][3]` that came from the consecutive
match, and so it does not set `match_required` there. -/
theorem backtrace_misses_optimum :
    query_has_match (prepare_needle baa zero_heap zero_heap) babaa = true ∧
      (prepare_needle baa zero_heap zero_heap).len = 3 ∧
      (hay_of sample_config (prepare_needle baa zero_heap zero_heap) babaa).len = 5 ∧
      match_positions sample_config (prepare_needle baa zero_heap zero_heap) babaa
        blank_haystack = (199 / 100, [some 0, some 3, some 4]) ∧
      alignment (prepare_needle baa zero_heap zero_heap)
        (hay_of sample_config (prepare_needle baa zero_heap zero_heap) babaa)
        (fun i => [0, 3, 4].getD i 0) 3 5 ∧
      align_total sample_config (prepare_needle baa zero_heap zero_heap)
        (hay_of sample_config (prepare_needle baa zero_heap zero_heap) babaa)
        (fun i => [0, 3, 4].getD i 0) = 47 / 25 ∧
      alignment (prepare_needle baa zero_heap zero_heap)
        (hay_of sample_config (prepare_needle baa zero_heap zero_heap) babaa)
        (fun i => [2, 3, 4].getD i 0) 3 5 ∧
      align_total sample_config (prepare_needle baa zero_heap zero_heap)
        (hay_of sample_config (prepare_needle baa zero_heap zero_heap) babaa)
        (fun i => [2, 3, 4].getD i 0) = 199 / 100 ∧
      Dc sample_config (prepare_needle baa zero_heap zero_heap)
        (hay_of sample_config (prepare_needle baa zero_heap zero_heap) babaa) 1 3 =
        Dc sample_config (prepare_needle baa zero_heap zero_heap)
          (hay_of sample_config (prepare_needle baa zero_heap zero_heap) babaa) 0 2 +
          sample_config.SCORE_MATCH_CONSECUTIVE ∧
      Mc sample_config (prepare_needle baa zero_heap zero_heap)
        (hay_of sample_config (prepare_needle baa zero_heap zero_heap) babaa) 1 3 ≠
        Dc sample_config (prepare_needle baa zero_heap zero_heap)
          (hay_of sample_config (prepare_needle baa zero_heap zero_heap) babaa) 0 2 +
          sample_config.SCORE_MATCH_CONSECUTIVE := by
  decide!

/-- C20: the needle of 32 letters `a` with a stale `'a'` in the never-written cell
`chars[32]` (and `0` in `unicode_upper[32]`) passes the quick match on the haystack of 33
letters `a` and fails it on the haystack of 33 letters `A`, whose code points are the folds
of the former.  With a zero in the cell `chars[32]` the folded haystack passes.  The fold
is idempotent, and the converse direction fails for the needle `"A"` on the haystacks `"a"`
and `"A"`. -/
theorem stale_terminator_breaks_fold :
    (prepare_needle (List.replicate 32 0x61) stale_heap zero_heap).len = 32 ∧
      decode_upto MATCH_MAX_LEN (List.replicate 33 0x41) =
        (decode_upto MATCH_MAX_LEN (List.replicate 33 0x61)).map upper_variant ∧
      query_has_match (prepare_needle (List.replicate 32 0x61) stale_heap zero_heap)
        (List.replicate 33 0x61) = true ∧
      query_has_match (prepare_needle (List.replicate 32 0x61) stale_heap zero_heap)
        (List.replicate 33 0x41) = false ∧
      query_has_match (prepare_needle (List.replicate 32 0x61) zero_heap zero_heap)
        (List.replicate 33 0x41) = true ∧
      (∀ c, upper_variant (upper_variant c) = upper_variant c) ∧
      decode_upto MATCH_MAX_LEN [0x41] = (decode_upto MATCH_MAX_LEN [0x61]).map upper_variant ∧
      query_has_match (prepare_needle [0x41] zero_heap zero_heap) [0x41] = true ∧
      query_has_match (prepare_needle [0x41] zero_heap zero_heap) [0x61] = false := by
  refine ⟨by decide!, by decide!, by decide!, by decide!, by decide!, upper_variant_idem,
    by decide!, by decide!, by decide!⟩

/-- C14, as stated, fails: with the sample weights `match_positions` fills
`positions = [0, 4, 11, 12]` for the needle `"amor"` and the haystack
`"app/models/order.rb"`.  The columns 10 and 16 of the claim hold `/` and `.`; the `o` and
the `r` of `order` are the columns 11 and 12. -/
theorem order_columns_differ :
    (match_positions sample_config (prepare_needle amor zero_heap zero_heap) order_rb
        blank_haystack).2 ≠ [some 0, some 4, some 10, some 16] ∧
      (match_positions sample_config (prepare_needle amor zero_heap zero_heap) order_rb
        blank_haystack).2 = [some 0, some 4, some 11, some 12] ∧
      order_rb.getD 10 0 = 0x2F ∧ order_rb.getD 16 0 = 0x2E ∧
      order_rb.getD 11 0 = amor.getD 2 0 ∧ order_rb.getD 12 0 = amor.getD 3 0 := by
  decide!

/-- C14, amended: for the needle prepared from `"amor"`, on whatever heap, and the haystack
`"app/models/order.rb"`, `query_has_match` returns true, and with the sample weights
`match_positions` fills `positions = [0, 4, 11, 12]`, the columns of `a`, `m`, `o`, `r`,
whatever the local buffer held before the call.  This is so in binary64 arithmetic, with
the weights rounded to binary64 and every operation of the recurrence rounded, and in
exact arithmetic. -/
theorem order_positions (fresh_chars fresh_upper : Nat → Nat) (hay : haystack_info) :
    query_has_match (prepare_needle amor fresh_chars fresh_upper) order_rb = true ∧
      (fp_match_positions binary64 (round_config binary64 sample_config)
        (prepare_needle amor fresh_chars fresh_upper) order_rb hay).2 =
        [some 0, some 4, some 11, some 12] ∧
      (match_positions sample_config (prepare_needle amor fresh_chars fresh_upper) order_rb
        hay).2 = [some 0, some 4, some 11, some 12] ∧
      order_rb.getD 0 0 = amor.getD 0 0 ∧ order_rb.getD 4 0 = amor.getD 1 0 ∧
      order_rb.getD 11 0 = amor.getD 2 0 ∧ order_rb.getD 12 0 = amor.getD 3 0 := by
  rw [amor_any_heap]
  have hne : byte_at order_rb 0 ≠ 0 := by decide
  rw [fp_match_positions_any _ _ _ _ hay hne, ← fp_match_positions_exact,
    fp_match_positions_any _ _ _ _ hay hne]
  refine ⟨by decide, by decide!, by decide!, by decide, by decide, by decide, by decide⟩

/-- C3: with the sample weights the well-formed needle `"qaaaaaaaaaa"` (11 code points, none
of them `0`) passes the quick match on the 32 code points
`"aaaaaaaaaaaqxaxaxaxaxaxaxaxaxaxa"`, and `match_positions` writes the columns `1, ..., 10`
into `positions[1..10]` and leaves `positions[0]` unwritten: the backtrace follows the run
of consecutive matches `D[i][i]`, which starts from the sentinel of the non-matching cell
`(0, 0)`, and finds no cell above `SCORE_MIN` in row 0 to the left of column 1.  This is so
in binary64 arithmetic and in exact arithmetic.  The needle prepared from the bytes `61 FF`
(code points `a`, `0`) passes the quick match on `"ab"` and no entry is written. -/
theorem positions_left_unwritten :
    (prepare_needle q_run zero_heap zero_heap).len = 11 ∧
      no_zero (prepare_needle q_run zero_heap zero_heap) ∧
      query_has_match (prepare_needle q_run zero_heap zero_heap) run_then_q = true ∧
      (fp_match_positions binary64 (round_config binary64 sample_config)
        (prepare_needle q_run zero_heap zero_heap) run_then_q blank_haystack).2 =
        [none, some 1, some 2, some 3, some 4, some 5, some 6, some 7, some 8, some 9,
          some 10] ∧
      (match_positions sample_config (prepare_needle q_run zero_heap zero_heap) run_then_q
        blank_haystack).2 =
        [none, some 1, some 2, some 3, some 4, some 5, some 6, some 7, some 8, some 9,
          some 10] ∧
      (prepare_needle [0x61, 0xFF] zero_heap zero_heap).len = 2 ∧
      query_has_match (prepare_needle [0x61, 0xFF] zero_heap zero_heap) [0x61, 0x62] = true ∧
      (match_positions sample_config (prepare_needle [0x61, 0xFF] zero_heap zero_heap)
        [0x61, 0x62] blank_haystack).2 = [none, none] := by
  refine ⟨by decide!, by unfold no_zero; decide!, by decide!, by decide!, by decide!, by decide!,
    by decide!, by decide!⟩

/-- C15: with the sample weights, the needle `"qaaaaaaaaaa"` (11 code points, none of them
`0`) passes the quick match on the 32 code points `"aaaaaaaaaaaqxaxaxaxaxaxaxaxaxaxa"` and
`match_score` returns `-21/200` in exact arithmetic and a value above `-11/100` in binary64
arithmetic.  The position vector `11, 13, ..., 31` is an alignment with the score `-31/200`,
and no alignment scores more than that: the returned value is the score of no alignment.
It is built on the run of consecutive matches `D[i][i]`, `i = 1..10`, which starts from the
sentinel of the non-matching cell `(0, 0)`: `D[10][10] = 0` although no alignment of the
needle ends at column 10. -/
theorem score_above_every_alignment :
    (prepare_needle q_run zero_heap zero_heap).len = 11 ∧
      no_zero (prepare_needle q_run zero_heap zero_heap) ∧
      (hay_of sample_config (prepare_needle q_run zero_heap zero_heap) run_then_q).len = 32 ∧
      query_has_match (prepare_needle q_run zero_heap zero_heap) run_then_q = true ∧
      match_score sample_config (prepare_needle q_run zero_heap zero_heap) run_then_q =
        -21 / 200 ∧
      -11 / 100 < fp_match_score binary64 (round_config binary64 sample_config)
        (prepare_needle q_run zero_heap zero_heap) run_then_q ∧
      alignment (prepare_needle q_run zero_heap zero_heap)
        (hay_of sample_config (prepare_needle q_run zero_heap zero_heap) run_then_q)
        (fun i => 11 + 2 * i) 11 32 ∧
      align_total sample_config (prepare_needle q_run zero_heap zero_heap)
        (hay_of sample_config (prepare_needle q_run zero_heap zero_heap) run_then_q)
        (fun i => 11 + 2 * i) = -31 / 200 ∧
      (∀ p, alignment (prepare_needle q_run zero_heap zero_heap)
          (hay_of sample_config (prepare_needle q_run zero_heap zero_heap) run_then_q) p 11 32 →
        align_total sample_config (prepare_needle q_run zero_heap zero_heap)
          (hay_of sample_config (prepare_needle q_run zero_heap zero_heap) run_then_q) p ≤
            -31 / 200) ∧
      ¬ hit (prepare_needle q_run zero_heap zero_heap)
        (hay_of sample_config (prepare_needle q_run zero_heap zero_heap) run_then_q) 0 0 ∧
      Dc sample_config (prepare_needle q_run zero_heap zero_heap)
        (hay_of sample_config (prepare_needle q_run zero_heap zero_heap) run_then_q) 10 10 = 0 := by
  refine ⟨by decide!, by unfold no_zero; decide!, by decide!, by decide!, by decide!, by decide!,
    by decide!, by decide!, ?_, by decide!, by decide!⟩
  intro p hal
  have h1 := alignment_le_score (scale_config (1 / 100) sample_config)
    (prepare_needle q_run zero_heap zero_heap) run_then_q (by decide!) (by decide!) (by decide!) p
    (alignment_scale _ _ _ _ p _ _ hal)
  rw [align_total_scale (1 / 100) (by norm_num)] at h1
  have h2 : match_score (scale_config (1 / 100) sample_config)
      (prepare_needle q_run zero_heap zero_heap) run_then_q = -31 / 20000 := by decide!
  rw [h2] at h1
  linarith

/-- C19: the needle `"aaa"` passes the quick match on the haystack `"aaaa"`; the cell
`(2, 1)` has `j < i`, so no alignment of `needle[0..=2]` into `haystack[0..=1]` exists, and
the recurrence leaves `D[2][1] = SCORE_MIN + SCORE_MATCH_CONSECUTIVE`, which is above
`SCORE_MIN` for every positive `SCORE_MATCH_CONSECUTIVE` and is `-9` with the sample
weights, in binary64 arithmetic and in exact arithmetic.  For the needle `"ab"` and the
haystack `"xb"` no alignment of `"ab"` ends at column 1 (column 0 does not hold `a`),
column 1 matches `b`, and `D[1][1] = -9` as well. -/
theorem sentinel_cell_overwritten :
    query_has_match (prepare_needle [0x61, 0x61, 0x61] zero_heap zero_heap)
        [0x61, 0x61, 0x61, 0x61] = true ∧
      (¬ ∃ p, alignment (prepare_needle [0x61, 0x61, 0x61] zero_heap zero_heap)
        (hay_of sample_config (prepare_needle [0x61, 0x61, 0x61] zero_heap zero_heap)
          [0x61, 0x61, 0x61, 0x61]) p (2 + 1) (1 + 1)) ∧
      (∀ cfg : Config, 0 < cfg.SCORE_MATCH_CONSECUTIVE →
        SCORE_MIN + cfg.SCORE_MATCH_CONSECUTIVE ≤
          Dc cfg (prepare_needle [0x61, 0x61, 0x61] zero_heap zero_heap)
            (hay_of cfg (prepare_needle [0x61, 0x61, 0x61] zero_heap zero_heap)
              [0x61, 0x61, 0x61, 0x61]) 2 1 ∧
        Dc cfg (prepare_needle [0x61, 0x61, 0x61] zero_heap zero_heap)
            (hay_of cfg (prepare_needle [0x61, 0x61, 0x61] zero_heap zero_heap)
              [0x61, 0x61, 0x61, 0x61]) 2 1 ≠ SCORE_MIN) ∧
      Dc sample_config (prepare_needle [0x61, 0x61, 0x61] zero_heap zero_heap)
        (hay_of sample_config (prepare_needle [0x61, 0x61, 0x61] zero_heap zero_heap)
          [0x61, 0x61, 0x61, 0x61]) 2 1 = -9 ∧
      cell (fp_match_positions_loop binary64 (round_config binary64 sample_config)
        (prepare_needle [0x61, 0x61, 0x61] zero_heap zero_heap)
        (hay_of (round_config binary64 sample_config)
          (prepare_needle [0x61, 0x61, 0x61] zero_heap zero_heap) [0x61, 0x61, 0x61, 0x61]) 2 1
        [(fp_match_first_row binary64 (round_config binary64 sample_config)
          (prepare_needle [0x61, 0x61, 0x61] zero_heap zero_heap)
          (hay_of (round_config binary64 sample_config)
            (prepare_needle [0x61, 0x61, 0x61] zero_heap zero_heap)
            [0x61, 0x61, 0x61, 0x61])).1]
        [(fp_match_first_row binary64 (round_config binary64 sample_config)
          (prepare_needle [0x61, 0x61, 0x61] zero_heap zero_heap)
          (hay_of (round_config binary64 sample_config)
            (prepare_needle [0x61, 0x61, 0x61] zero_heap zero_heap)
            [0x61, 0x61, 0x61, 0x61])).2]).1 2 1 = -9 ∧
      ¬ hit (prepare_needle [0x61, 0x62] zero_heap zero_heap)
        (hay_of sample_config (prepare_needle [0x61, 0x62] zero_heap zero_heap) [0x78, 0x62])
        0 0 ∧
      (¬ ∃ p, alignment (prepare_needle [0x61, 0x62] zero_heap zero_heap)
        (hay_of sample_config (prepare_needle [0x61, 0x62] zero_heap zero_heap) [0x78, 0x62])
        p (1 + 1) (1 + 1) ∧ p 1 = 1) ∧
      Dc sample_config (prepare_needle [0x61, 0x62] zero_heap zero_heap)
        (hay_of sample_config (prepare_needle [0x61, 0x62] zero_heap zero_heap) [0x78, 0x62])
        1 1 = -9 ∧
      SCORE_MIN = -10 := by
  refine ⟨by decide!, ?_, ?_, by decide!, by decide!, by decide!, ?_, by decide!, rfl⟩
  · intro ⟨p, hp⟩
    have h0 := alignment_ge _ _ p _ _ hp 2 (by omega)
    have h1 := (hp.1 2 (by omega)).1
    omega
  · intro cfg hc
    have hlen : (hay_of cfg (prepare_needle [0x61, 0x61, 0x61] zero_heap zero_heap)
        [0x61, 0x61, 0x61, 0x61]).len = 4 := by
      rw [hay_len_eq]
      decide
    have hh : hit (prepare_needle [0x61, 0x61, 0x61] zero_heap zero_heap)
        (hay_of cfg (prepare_needle [0x61, 0x61, 0x61] zero_heap zero_heap)
          [0x61, 0x61, 0x61, 0x61]) (1 + 1) (0 + 1) := by
      unfold hit
      rw [hay_chars_eq]
      decide
    have hD : SCORE_MIN + cfg.SCORE_MATCH_CONSECUTIVE ≤
        Dc cfg (prepare_needle [0x61, 0x61, 0x61] zero_heap zero_heap)
          (hay_of cfg (prepare_needle [0x61, 0x61, 0x61] zero_heap zero_heap)
            [0x61, 0x61, 0x61, 0x61]) (1 + 1) (0 + 1) := by
      rw [Dc_succ_succ cfg _ _ 1 0 (by rw [hlen]; omega), if_pos hh, Dc_succ_zero]
      exact le_MAX_right _ _
    refine ⟨hD, ?_⟩
    intro he
    have hD2 : SCORE_MIN + cfg.SCORE_MATCH_CONSECUTIVE ≤
        Dc cfg (prepare_needle [0x61, 0x61, 0x61] zero_heap zero_heap)
          (hay_of cfg (prepare_needle [0x61, 0x61, 0x61] zero_heap zero_heap)
            [0x61, 0x61, 0x61, 0x61]) 2 1 := hD
    rw [he] at hD2
    linarith
  · rw [← ends_iff_alignment]
    intro hc
    have he : emb (prepare_needle [0x61, 0x62] zero_heap zero_heap)
        (hay_of sample_config (prepare_needle [0x61, 0x62] zero_heap zero_heap) [0x78, 0x62])
        1 1 := hc.2
    rcases he with he | ⟨hh, _⟩
    · exact he
    · revert hh
      decide!

end FuzzyMatch
